import Mathlib

/-!
# kernel_float: shape unification, broadcasting, apply and reduce

A shallow embedding of the compile-time extent algebra and of the run-time
storage loops of `kernel_float`.

* Extents (`extents<Ns...>`) are lists of naturals; a template that has no
  matching specialisation is a type-level function returning `none`.
* Storages (`vector_storage<T, N>`, `tensor_storage<T, N>`) are lists; every
  `data()[i]` access is checked against the length of the list, so an access
  past the end is reported as a `Fault` instead of being silently accepted.
* `namespace Tensor` follows `include/kernel_float/*.h` (extents of any rank,
  copy loops up to rank 3); `namespace Single` follows
  `single_include/kernel_float.h` (one-dimensional `extent<N>`).
-/

namespace KernelFloat

/-! ## Faults and checked storage access -/

/-- The ways in which an instantiation can go wrong: the program is rejected
at compile time, or an array element outside the storage is touched. -/
inductive Fault where
  | ill_formed : Fault
  | read_out_of_bounds (i : Nat) : Fault
  | write_out_of_bounds (i : Nat) : Fault
  deriving DecidableEq, Repr

/-- Checked read `s.data()[i]`. -/
def rd {α : Type} (s : List α) (i : Nat) : Except Fault α :=
  match s[i]? with
  | some v => .ok v
  | none => .error (.read_out_of_bounds i)

/-- Checked write `s.data()[i] = v`. -/
def wr {α : Type} (s : List α) (i : Nat) (v : α) : Except Fault (List α) :=
  if i < s.length then .ok (s.set i v) else .error (.write_out_of_bounds i)

/-- The loop `for (size_t i = 0; i < n; i++) body(i)`, threading the state:
the first `n` iterations are the first `n - 1` followed by iteration `n - 1`. -/
def forLoop {σ : Type} : Nat → (Nat → σ → Except Fault σ) → σ → Except Fault σ
  | 0, _, s => .ok s
  | n + 1, body, s =>
    match forLoop n body s with
    | .ok t => body n t
    | .error e => .error e

/-- The loop `for (size_t i = start; i < n; i++) body(i)`. -/
def forLoopFrom {σ : Type} (start : Nat) :
    Nat → (Nat → σ → Except Fault σ) → σ → Except Fault σ
  | 0, _, s => .ok s
  | n + 1, body, s =>
    if start ≤ n then
      match forLoopFrom start n body s with
      | .ok t => body n t
      | .error e => .error e
    else .ok s

/-- The loop `for (size_t i = start; i < n; i += 2) body(i)`. -/
def forLoopBy2 {σ : Type} (n : Nat) (body : Nat → σ → Except Fault σ) (i : Nat) (s : σ) :
    Except Fault σ :=
  if i < n then
    match body i s with
    | .ok t => forLoopBy2 n body (i + 2) t
    | .error e => .error e
  else .ok s
termination_by n - i
decreasing_by omega

/-- Product of the dimension sizes, `E::volume`. -/
def volume (E : List Nat) : Nat := E.foldr (fun n acc => n * acc) 1

/-! ## Scalar types and the promotion table (`single_include/kernel_float.h`) -/

/-- The scalar types named by the promotion table, and pointers to them. -/
inductive ScalarType where
  | bool | char
  | signed_char | signed_short | signed_int | signed_long | signed_long_long
  | unsigned_char | unsigned_short | unsigned_int | unsigned_long | unsigned_long_long
  | float | double | long_double
  | half | bfloat16
  | pointer (T : ScalarType)
  deriving DecidableEq, Repr

/-- The eleven integer types that the promotion macros enumerate. -/
def integer_types : List ScalarType :=
  [.char, .signed_char, .signed_short, .signed_int, .signed_long, .signed_long_long,
   .unsigned_char, .unsigned_short, .unsigned_int, .unsigned_long, .unsigned_long_long]

/-- Signedness and position of the types paired by
`KERNEL_FLOAT_DEFINE_PROMOTED_INTEGRAL(T, U)` (`signed T`/`signed U` and
`unsigned T`/`unsigned U`, with `char < short < int < long < long long`). -/
def integral_rank : ScalarType → Option (Bool × Nat)
  | .signed_char => some (true, 0)
  | .signed_short => some (true, 1)
  | .signed_int => some (true, 2)
  | .signed_long => some (true, 3)
  | .signed_long_long => some (true, 4)
  | .unsigned_char => some (false, 0)
  | .unsigned_short => some (false, 1)
  | .unsigned_int => some (false, 2)
  | .unsigned_long => some (false, 3)
  | .unsigned_long_long => some (false, 4)
  | _ => none

/-- The pairs `(T, U)` for which `KERNEL_FLOAT_DEFINE_PROMOTED_TYPE(T, U)` is
written, directly or through the `PROMOTED_FLOAT` and `PROMOTED_INTEGRAL`
macros: `promote_type<T, U>` and `promote_type<U, T>` are then both `T`. -/
def promoted_type_defined (T U : ScalarType) : Bool :=
  -- T + bool becomes T
  (decide (U = .bool) && decide (T ∈ integer_types))
  -- (double, float), (long double, float), (long double, double)
  || (decide (T = .double) && decide (U = .float))
  || (decide (T = .long_double) && decide (U = .float))
  || (decide (T = .long_double) && decide (U = .double))
  -- KERNEL_FLOAT_DEFINE_PROMOTED_FLOAT for float, double, long double, __half, __nv_bfloat16
  || (decide (T ∈ [ScalarType.float, .double, .long_double, .half, .bfloat16])
      && (decide (U ∈ integer_types) || decide (U = .bool)))
  -- KERNEL_FLOAT_DEFINE_PROMOTED_INTEGRAL for every pair of distinct widths
  || (match integral_rank T, integral_rank U with
      | some (s, r), some (s', r') => decide (s = s') && decide (r' < r)
      | _, _ => false)
  -- (float, __half), (double, __half), (float, __nv_bfloat16), (double, __nv_bfloat16)
  || (decide (T = .float) && decide (U = .half))
  || (decide (T = .double) && decide (U = .half))
  || (decide (T = .float) && decide (U = .bfloat16))
  || (decide (T = .double) && decide (U = .bfloat16))

/-- The template `promote_type<A, B>`: `<T, T>` (and `<T*, T*>`), the pairs of
`KERNEL_FLOAT_DEFINE_PROMOTED_TYPE` in either order, and a pointer with one of
the integer types; any other pair has no definition. -/
def promote_type (A B : ScalarType) : Option ScalarType :=
  if A = B then some A
  else if promoted_type_defined A B then some A
  else if promoted_type_defined B A then some B
  else
    match A, B with
    | .pointer T, I => if I ∈ integer_types then some (.pointer T) else none
    | I, .pointer T => if I ∈ integer_types then some (.pointer T) else none
    | _, _ => none

/-- The enumeration `RoundingMode`. -/
inductive RoundingMode where
  | ANY | DOWN | UP | NEAREST | TOWARD_ZERO
  deriving DecidableEq, Repr

/-- The functor `ops::cast<T, R, m>`: `cast<T, T, m>` returns its input,
`cast<T, R, ANY>` is the conversion `R(input)` (here `conv T R`, which also
stands for the conversions to and from the narrow float types); for other
arguments the template is declared without a definition. -/
def ops_cast {V : Type} (conv : ScalarType → ScalarType → V → V) (T R : ScalarType)
    (m : RoundingMode) : Option (V → V) :=
  if T = R then some (fun input => input)
  else if m = .ANY then some (conv T R)
  else none

/-- The template `detail::multi_promote_type<Ts...>`: one type is itself, two
types are `promote_type<A, B>`, and three or more continue with
`promote_type<A, B>::type` in front of the rest; the empty pack has no
definition. -/
def multi_promote_type : List ScalarType → Option ScalarType
  | [] => none
  | [T] => some T
  | [A, B] => promote_type A B
  | A :: B :: C :: Rest =>
    match promote_type A B with
    | some AB => multi_promote_type (AB :: C :: Rest)
    | none => none
termination_by Ts => Ts.length

/-- The alias `promote_t<Ts...>` (the types are taken as already decayed). -/
def promote_t (Ts : List ScalarType) : Option ScalarType := multi_promote_type Ts

/-- The function `compute_max_alignment(total_size, min_align)`. -/
def compute_max_alignment (total_size min_align : Nat) : Nat :=
  if total_size % 32 = 0 ∨ min_align ≥ 32 then 32
  else if total_size % 16 = 0 ∨ min_align = 16 then 16
  else if total_size % 8 = 0 ∨ min_align = 8 then 8
  else if total_size % 4 = 0 ∨ min_align = 4 then 4
  else if total_size % 2 = 0 ∨ min_align = 2 then 2
  else 1

/-- The functor `ops::conditional<T>`; its first argument is a `bool`, read
from the value domain by `truthy`. -/
def ops_conditional {V : Type} (truthy : V → Bool) (cond true_value false_value : V) : V :=
  if truthy cond then true_value else false_value

/-- The primary template of the functor `ops::fma<T>`: `return a + b * c;`. -/
def ops_fma {V : Type} [Add V] [Mul V] (a b c : V) : V := a + b * c

/-- The conversion `T(x)` of an integer value `x` to an integer type `T` of `w`
bits: the value of `T` that is congruent to `x` modulo `2 ^ w`, in `[0, 2 ^ w)`
for an unsigned type and in `[-2 ^ (w - 1), 2 ^ (w - 1))` for a signed one (the
two's-complement wrap, which is also what the targets do where an `int` or a
wider signed type overflows). -/
def integer_conversion (is_signed : Bool) (w : Nat) (x : Int) : Int :=
  if is_signed then (x + 2 ^ (w - 1)) % 2 ^ w - 2 ^ (w - 1) else x % 2 ^ w

/-- The functor `ops::add<T>`: `return T(left + right);`, with `to_T` the
conversion `T(...)` of the sum to the element type. -/
def ops_add {V : Type} [Add V] (to_T : V → V) (left right : V) : V := to_T (left + right)

/-- The functor `ops::multiply<T>`: `return T(left * right);`, with `to_T` the
conversion `T(...)` of the product to the element type. -/
def ops_multiply {V : Type} [Mul V] (to_T : V → V) (left right : V) : V :=
  to_T (left * right)

/-- The functor `ops::add<T>` for an unsigned type `T` of `w` bits: the sum
converted back to `T`. -/
def ops_add_unsigned (w : Nat) (left right : Nat) : Nat := (left + right) % 2 ^ w

/-- The functor `ops::min<T>`, `T(::min(left, right))`. -/
def ops_min {V : Type} [Min V] (left right : V) : V := min left right

/-- The functor `ops::max<T>`, `T(::max(left, right))`. -/
def ops_max {V : Type} [Max V] (left right : V) : V := max left right

/-- The functor `ops::bit_and<bool>`, `bool(left & right)`. -/
def ops_bit_and_bool (left right : Bool) : Bool := left && right

/-- The functor `ops::bit_or<bool>`, `bool(left | right)`. -/
def ops_bit_or_bool (left right : Bool) : Bool := left || right

/-- The constant `is_implicit_convertible<From, To>`: the helper is `false` but for
its partial specialisation `<From, To, promote_type<From, To>::type>`, which is
chosen when that type exists and is the default `Common = To`. -/
def is_implicit_convertible (From To : ScalarType) : Bool :=
  decide (promote_type From To = some To)

/-! ## Comparison functors (`single_include/kernel_float.h`) -/

/-- The six comparison functors `ops::NAME` of `KERNEL_FLOAT_DEFINE_BINARY_OP`. -/
inductive Comparison where
  | equal_to | not_equal_to | less | less_equal | greater | greater_equal
  deriving DecidableEq, Repr

/-- The primary functor `ops::NAME<T>` of a comparison, `T(left OP right)` with
`OP` one of `==`, `!=`, `<`, `<=`, `>`, `>=`; the result is given as its truth
value. -/
def ops_compare {V : Type} [LinearOrder V] (NAME : Comparison) (left right : V) : Bool :=
  match NAME with
  | .equal_to => decide (left = right)
  | .not_equal_to => decide (left ≠ right)
  | .less => decide (left < right)
  | .less_equal => decide (left ≤ right)
  | .greater => decide (left > right)
  | .greater_equal => decide (left ≥ right)

/-- The scalar device intrinsics for comparing two `__half` (or two
`__nv_bfloat16`) values. -/
inductive Intrinsic where
  | __heq | __hne | __hlt | __hle | __hgt | __hge
  deriving DecidableEq, Repr

/-- The paired device intrinsics, which compare the two lanes of a `__half2`
(or `__nv_bfloat162`) independently. -/
inductive Intrinsic2 where
  | __heq2 | __hne2 | __hlt2 | __hle2 | __hgt2 | __hge2
  deriving DecidableEq, Repr

/-- The value of a scalar comparison intrinsic on ordered operands (neither is
a NaN): `__heq` is equality, `__hne` inequality, `__hlt` less-than, `__hle`
less-or-equal, `__hgt` greater-than, `__hge` greater-or-equal. -/
def Intrinsic.call {V : Type} [LinearOrder V] (FUN1 : Intrinsic) (a b : V) : Bool :=
  match FUN1 with
  | .__heq => decide (a = b)
  | .__hne => decide (a ≠ b)
  | .__hlt => decide (a < b)
  | .__hle => decide (a ≤ b)
  | .__hgt => decide (a > b)
  | .__hge => decide (a ≥ b)

/-- The value of a paired comparison intrinsic on ordered operands: the
comparison of its name in each of the two lanes. -/
def Intrinsic2.call {V : Type} [LinearOrder V] (FUN2 : Intrinsic2) (a b : V × V) :
    Bool × Bool :=
  match FUN2 with
  | .__heq2 => (decide (a.1 = b.1), decide (a.2 = b.2))
  | .__hne2 => (decide (a.1 ≠ b.1), decide (a.2 ≠ b.2))
  | .__hlt2 => (decide (a.1 < b.1), decide (a.2 < b.2))
  | .__hle2 => (decide (a.1 ≤ b.1), decide (a.2 ≤ b.2))
  | .__hgt2 => (decide (a.1 > b.1), decide (a.2 > b.2))
  | .__hge2 => (decide (a.1 ≥ b.1), decide (a.2 ≥ b.2))

/-- The six comparison rows `KERNEL_FLOAT_FP16_BINARY_FUN(NAME, FUN1, FUN2)`. -/
def KERNEL_FLOAT_FP16_BINARY_FUN : Comparison → Intrinsic × Intrinsic2
  | .equal_to => (.__heq, .__heq2)
  | .not_equal_to => (.__heq, .__heq2)
  | .less => (.__hlt, .__hlt2)
  | .less_equal => (.__hle, .__hle2)
  | .greater => (.__hgt, .__hgt2)
  | .greater_equal => (.__hge, .__hgt2)

/-- The six comparison rows `KERNEL_FLOAT_BF16_BINARY_FUN(NAME, FUN1, FUN2)`. -/
def KERNEL_FLOAT_BF16_BINARY_FUN : Comparison → Intrinsic × Intrinsic2
  | .equal_to => (.__heq, .__heq2)
  | .not_equal_to => (.__heq, .__heq2)
  | .less => (.__hlt, .__hlt2)
  | .less_equal => (.__hle, .__hle2)
  | .greater => (.__hgt, .__hgt2)
  | .greater_equal => (.__hge, .__hgt2)

/-- The specialisation `ops::NAME<__half>::operator()(left, right)` that the macro
`KERNEL_FLOAT_FP16_BINARY_FUN` defines: `return FUN1(left, right);`. -/
def ops_compare_half {V : Type} [LinearOrder V] (NAME : Comparison) (left right : V) : Bool :=
  (KERNEL_FLOAT_FP16_BINARY_FUN NAME).1.call left right

/-- The specialisation `zip_halfx2<ops::NAME<__half>>::call(_, left, right)` that
the macro `KERNEL_FLOAT_FP16_BINARY_FUN` defines: `return FUN2(left, right);`. -/
def zip_halfx2_compare {V : Type} [LinearOrder V] (NAME : Comparison) (left right : V × V) :
    Bool × Bool :=
  (KERNEL_FLOAT_FP16_BINARY_FUN NAME).2.call left right

/-- The specialisation `ops::NAME<__nv_bfloat16>::operator()(left, right)` that
the macro `KERNEL_FLOAT_BF16_BINARY_FUN` defines: `return FUN1(left, right);`. -/
def ops_compare_bfloat16 {V : Type} [LinearOrder V] (NAME : Comparison) (left right : V) :
    Bool :=
  (KERNEL_FLOAT_BF16_BINARY_FUN NAME).1.call left right

/-- The specialisation `zip_bfloat16x2<ops::NAME<__nv_bfloat16>>::call(_, left, right)`
that the macro `KERNEL_FLOAT_BF16_BINARY_FUN` defines: `return FUN2(left, right);`. -/
def zip_bfloat16x2_compare {V : Type} [LinearOrder V] (NAME : Comparison)
    (left right : V × V) : Bool × Bool :=
  (KERNEL_FLOAT_BF16_BINARY_FUN NAME).2.call left right

/-! ## `complex_type` (`single_include/kernel_float.h`) -/

/-- The struct `complex_type_storage<T>` with its members `re` and `im`; the
unqualified `re` and `im` in `complex_type<T>` are taken to name these members
of its base class. -/
structure complex_type_storage (T : Type) where
  re : T
  im : T
  deriving DecidableEq, Repr

/-- The constructor `complex_type(T real = {}, T imag = {}) : base_type(real, im) {}`.
Its second initialiser is `im`, the member of the object under construction,
not the parameter `imag`; `storage` is the content of that object before its
initialisation, which the language leaves indeterminate. -/
def complex_type {T : Type} (storage : complex_type_storage T) (real _imag : T) :
    complex_type_storage T :=
  { re := real, im := storage.im }

/-- The member function `real()`: `return re;`. -/
def complex_type_storage.real {T : Type} (z : complex_type_storage T) : T := z.re

/-- The member function `imag()`: `return im;`. -/
def complex_type_storage.imag {T : Type} (z : complex_type_storage T) : T := z.im

/-- The member function `norm()`: `return re * re + im * im;`. -/
def complex_type_storage.norm {T : Type} [Add T] [Mul T] (z : complex_type_storage T) : T :=
  z.re * z.re + z.im * z.im

/-- The member function `conj()`: `return {re, -im};`, which builds the result
with the constructor `complex_type(T real, T imag)`; `storage` is the content
of the result object before its initialisation. -/
def complex_type_storage.conj {T : Type} [Neg T] (storage z : complex_type_storage T) :
    complex_type_storage T :=
  complex_type storage z.re (-z.im)

namespace Tensor

/-! ## Extent unification (`include/kernel_float/broadcast.h`) -/

/-- The four specialisations of `unify_dimension_helper<N, M>`: `<1, 1>`,
`<N, N>`, `<N, 1>` and `<1, N>`; any other pair has no definition. -/
def unify_dimension_helper (n m : Nat) : Option Nat :=
  if n = 1 ∧ m = 1 then some 1
  else if n = m then some n
  else if m = 1 then some n
  else if n = 1 then some m
  else none

/-- The pack expansion `extents<unify_dimension_helper<Ns, Ms>::value...>`:
both packs are expanded in lockstep, so they must have the same length. -/
def unify_extents_helper : List Nat → List Nat → Option (List Nat)
  | [], [] => some []
  | n :: ns, m :: ms =>
    match unify_dimension_helper n m, unify_extents_helper ns ms with
    | some d, some r => some (d :: r)
    | _, _ => none
  | _, _ => none

/-- The recursion `extents_to_rank<extents<Ns...>, N>`: while the pack is
shorter than `N`, continue with `extents<1, Ns...>`. -/
def extents_to_rank (E : List Nat) (N : Nat) : List Nat :=
  if E.length < N then extents_to_rank (1 :: E) N else E
termination_by N - E.length
decreasing_by simp only [List.length_cons]; omega

/-- The template `broadcast_extents_helper<A, B>`, with its `<E, E>`
specialisation. -/
def broadcast_extents_helper (A B : List Nat) : Option (List Nat) :=
  if A = B then some A
  else unify_extents_helper (extents_to_rank A B.length) (extents_to_rank B A.length)

/-- The alias `broadcast_extents<A, B>`. -/
def broadcast_extents (A B : List Nat) : Option (List Nat) :=
  broadcast_extents_helper A B

/-- The constant `is_broadcastable<From, To> = is_same<broadcast_extents<From, To>, To>`;
it has no value when `broadcast_extents<From, To>` does not exist. -/
def is_broadcastable (From To : List Nat) : Option Bool :=
  match broadcast_extents From To with
  | some C => some (decide (C = To))
  | none => none

/-! ## Broadcasting a storage (`include/kernel_float/broadcast.h`) -/

/-- The four specialisations of `strides_helper<extents<...>>::call(ndindex<r> x)`,
for ranks 0 to 3; an extent of higher rank has no specialisation. -/
def strides_helper (E : List Nat) (x : List Nat) : Except Fault Nat :=
  match E, x with
  | [], [] => .ok 0
  | [n], [x0] => .ok (if n ≠ 1 then x0 else 0)
  | [n, m], [x0, x1] =>
    .ok ((if n ≠ 1 then x0 * m else 0) + (if m ≠ 1 then x1 else 0))
  | [n, m, k], [x0, x1, x2] =>
    .ok ((if n ≠ 1 then x0 * m * k else 0) + (if m ≠ 1 then x1 * k else 0)
      + (if k ≠ 1 then x2 else 0))
  | _, _ => .error .ill_formed

/-- The body shared by all `copy_helper` loops:
`input_index = IS::call(x); output_index = OS::call(x);
output[output_index] = input[input_index]`. -/
def copy_element {α : Type} (IS OS : List Nat → Except Fault Nat) (x : List Nat)
    (output input : List α) : Except Fault (List α) :=
  match IS x with
  | .error e => .error e
  | .ok input_index =>
    match OS x with
    | .error e => .error e
    | .ok output_index =>
      match rd input input_index with
      | .error e => .error e
      | .ok v => wr output output_index v

/-- The four specialisations of `copy_helper<extents<...>, IS, OS>::call(output, input)`,
for ranks 0 to 3: nested loops over every index of the extent. -/
def copy_helper {α : Type} (E : List Nat) (IS OS : List Nat → Except Fault Nat)
    (output input : List α) : Except Fault (List α) :=
  match E with
  | [] => copy_element IS OS [] output input
  | [n] => forLoop n (fun i out => copy_element IS OS [i] out input) output
  | [n, m] =>
    forLoop n (fun i out =>
      forLoop m (fun j out => copy_element IS OS [i, j] out input) out) output
  | [n, m, k] =>
    forLoop n (fun i out =>
      forLoop m (fun j out =>
        forLoop k (fun l out => copy_element IS OS [i, j, l] out input) out) out) output
  | _ => .error .ill_formed

/-- The template `broadcast_impl<T, From, To>::call(input)` with its `<T, E, E>`
specialisation. The primary template asserts `is_broadcastable<From, To>`,
declares an output storage of `To::volume` elements (its initial content `d`
is left open) and runs `copy_helper<To, IS, OS>` with the strides of `From`
padded to the rank of `To` and the strides of `To`. -/
def broadcast_impl {α : Type} (d : α) (From To : List Nat) (input : List α) :
    Except Fault (List α) :=
  if From = To then .ok input
  else if is_broadcastable From To = some true then
    copy_helper To (strides_helper (extents_to_rank From To.length)) (strides_helper To)
      (List.replicate (volume To) d) input
  else .error .ill_formed

end Tensor

namespace Single

/-! ## Extent unification (`single_include/kernel_float.h`, one dimension) -/

/-- The four specialisations of `broadcast_extent_helper<extent<A>, extent<B>>`:
`<N, N>`, `<1, N>`, `<N, 1>` and `<1, 1>`. -/
def broadcast_extent_helper (a b : Nat) : Option Nat :=
  if a = 1 ∧ b = 1 then some 1
  else if a = b then some a
  else if a = 1 then some b
  else if b = 1 then some a
  else none

/-- The alias `broadcast_extent<A, B>`. -/
def broadcast_extent (a b : Nat) : Option Nat := broadcast_extent_helper a b

/-- The constant `is_broadcastable<From, To> = is_same<broadcast_extent<From, To>, To>`. -/
def is_broadcastable (From To : Nat) : Option Bool :=
  match broadcast_extent From To with
  | some c => some (decide (c = To))
  | none => none

/-! ## The apply engine (`single_include/kernel_float.h`) -/

/-- The pack expansion `inputs.data()[i]...`: element `i` of every input. -/
def read_inputs {α : Type} : List (List α) → Nat → Except Fault (List α)
  | [], _ => .ok []
  | input :: rest, i => do
    let a ← rd input i
    let as ← read_inputs rest i
    pure (a :: as)

/-- The primary template `apply_impl<F, N, Output, Args...>::call(fun, inputs...)`;
a functor of `k` arguments receives them as a list (argument types that
differ are summands of the one type `α`), and `d` is the value-initialised
element `Output {}` of the fresh result storage. -/
def apply_impl {α β : Type} (d : β) (N : Nat) (fn : List α → β) (inputs : List (List α)) :
    Except Fault (List β) :=
  forLoop N (fun i result => do
    let args ← read_inputs inputs i
    wr result i (fn args)) (List.replicate N d)

/-- The primary template `apply_impl` instantiated with one input (as `map` does). -/
def apply_impl1 {α β : Type} (d : β) (N : Nat) (fn : α → β) (input : List α) :
    Except Fault (List β) :=
  forLoop N (fun i result => do
    let a ← rd input i
    wr result i (fn a)) (List.replicate N d)

/-- The primary template `apply_impl` instantiated with two inputs (as `zip` does). -/
def apply_impl2 {α β γ : Type} (d : γ) (N : Nat) (fn : α → β → γ)
    (left : List α) (right : List β) : Except Fault (List γ) :=
  forLoop N (fun i result => do
    let a ← rd left i
    let b ← rd right i
    wr result i (fn a b)) (List.replicate N d)

/-! ## Packed lanes for `__half` and `__nv_bfloat16`

The sections `KERNEL_FLOAT_FP16_H` and `KERNEL_FLOAT_BF16_H` are the same text
up to the names of the types; the definitions below stand for both, with `α`
the narrow float type and `α × α` the paired type (`__half2`, `__nv_bfloat162`). -/

/-- The primary template `map_halfx2<F>::call` (and `map_bfloat16x2<F>::call`). -/
def map_halfx2 {α : Type} (fn : α → α) (input : α × α) : α × α :=
  let a := fn input.1
  let b := fn input.2
  (a, b)

/-- The primary template `zip_halfx2<F>::call` (and `zip_bfloat16x2<F>::call`):
`a = fun(left.x, left.y); b = fun(right.y, right.y)`. -/
def zip_halfx2 {α : Type} (fn : α → α → α) (left right : α × α) : α × α :=
  let a := fn left.1 left.2
  let b := fn right.2 right.2
  (a, b)

/-- The specialisation `apply_impl<F, N, __half, __half>::call(fun, input)`;
`mapx2` is the `map_halfx2<F>` selected for `F`. -/
def apply_impl_half {α : Type} (d : α) (N : Nat) (mapx2 : α × α → α × α) (fn : α → α)
    (input : List α) : Except Fault (List α) := do
  let result ← forLoopBy2 N (fun i result => do
    let a0 ← rd input i
    let a1 ← rd input (i + 1)
    let b := mapx2 (a0, a1)
    let result ← wr result (i + 0) b.1
    wr result (i + 1) b.2) 0 (List.replicate N d)
  if N % 2 ≠ 0 then do
    let a ← rd input (N - 1)
    wr result (N - 1) (fn a)
  else pure result

/-- The specialisation `apply_impl<F, N, __half, __half, __half>::call(fun, left, right)`;
`zipx2` is the `zip_halfx2<F>` selected for `F`. -/
def apply_impl_half2 {α : Type} (d : α) (N : Nat) (zipx2 : α × α → α × α → α × α)
    (fn : α → α → α) (left right : List α) : Except Fault (List α) := do
  let result ← forLoopBy2 N (fun i result => do
    let a0 ← rd left i
    let a1 ← rd left (i + 1)
    let b0 ← rd right i
    let b1 ← rd right (i + 1)
    let c := zipx2 (a0, a1) (b0, b1)
    let result ← wr result (i + 0) c.1
    wr result (i + 1) c.2) 0 (List.replicate N d)
  if N % 2 ≠ 0 then do
    let a ← rd left (N - 1)
    let b ← rd right (N - 1)
    wr result (N - 1) (fn a b)
  else pure result

/-! ## Broadcast, convert and zip (`single_include/kernel_float.h`) -/

/-- The two partial specialisations of `broadcast_impl<T, From, To>`:
`<T, extent<1>, extent<N>>` replicates the single element and
`<T, extent<N>, extent<N>>` returns its input. For `From = To = extent<1>` both
match and neither is more specialised, so that instantiation is rejected; any
other pair matches neither and the template has no definition. -/
def broadcast_impl {α : Type} (d : α) (From To : Nat) (input : List α) :
    Except Fault (List α) :=
  if From = 1 ∧ To = 1 then .error .ill_formed
  else if From = 1 then
    forLoop To (fun i output => do
      let v ← rd input 0
      wr output i v) (List.replicate To d)
  else if From = To then .ok input
  else .error .ill_formed

/-- The template `convert_helper<T, E, T2, E2, M>::call(input)` with its three
specialisations `<T, E, T, E, M>`, `<T, E, T, E2, M>` and `<T, E, T2, E, M>`; in
the two casting cases `T2` differs from `T`, so `apply_impl<F, N, T2, T>` is the
primary template. -/
def convert_helper {V : Type} (conv : ScalarType → ScalarType → V → V) (d : V)
    (T : ScalarType) (E : Nat) (T2 : ScalarType) (E2 : Nat) (M : RoundingMode)
    (input : List V) : Except Fault (List V) :=
  if T = T2 ∧ E = E2 then .ok input
  else if T = T2 then broadcast_impl d E E2 input
  else if E = E2 then
    match ops_cast conv T T2 M with
    | some F => apply_impl1 d E F input
    | none => .error .ill_formed
  else
    match ops_cast conv T T2 M with
    | some F => do
      let intermediate ← apply_impl1 d E F input
      broadcast_impl d E E2 intermediate
    | none => .error .ill_formed

/-- Selection of `apply_impl<F, N, O, A, B>` for two inputs: the specialisations
`<F, N, __half, __half, __half>` and
`<F, N, __nv_bfloat16, __nv_bfloat16, __nv_bfloat16>`, else the primary template. -/
def apply_impl_zip {V : Type} (d : V) (N : Nat) (O A B : ScalarType)
    (zipx2 : V × V → V × V → V × V) (fn : V → V → V) (left right : List V) :
    Except Fault (List V) :=
  if (O = .half ∧ A = .half ∧ B = .half) ∨
      (O = .bfloat16 ∧ A = .bfloat16 ∧ B = .bfloat16) then
    apply_impl_half2 d N zipx2 fn left right
  else apply_impl2 d N fn left right

/-- The function `zip_common(fun, left, right)` for operands of element types
`TL`, `TR` and extents `EL`, `ER`: `T = promote_t<TL, TR>`,
`O = result_t<F, T, T>` (given as `result_t T`), `E = broadcast_extent<EL, ER>`,
both operands go through `convert_helper<_, _, T, E>` and then through
`apply_impl<F, E::value, O, T, T>`. -/
def zip_common {V : Type} (conv : ScalarType → ScalarType → V → V) (d : V)
    (result_t : ScalarType → ScalarType) (zipx2 : V × V → V × V → V × V) (fn : V → V → V)
    (TL : ScalarType) (EL : Nat) (left : List V)
    (TR : ScalarType) (ER : Nat) (right : List V) : Except Fault (List V) :=
  match promote_type TL TR, broadcast_extent EL ER with
  | some T, some E => do
    let l ← convert_helper conv d TL EL T E .ANY left
    let r ← convert_helper conv d TR ER T E .ANY right
    apply_impl_zip d E (result_t T) T T zipx2 fn l r
  | _, _ => .error .ill_formed

/-! ## Three operands: `where` and `fma` (`single_include/kernel_float.h`) -/

/-- The primary template `apply_impl` instantiated with three inputs (as `where`
and `fma` do; no narrow-float specialisation takes three inputs). -/
def apply_impl3 {α β γ δ : Type} (d : δ) (N : Nat) (fn : α → β → γ → δ)
    (a : List α) (b : List β) (c : List γ) : Except Fault (List δ) :=
  forLoop N (fun i result => do
    let x ← rd a i
    let y ← rd b i
    let z ← rd c i
    wr result i (fn x y z)) (List.replicate N d)

/-- The function `where(cond, true_values, false_values)`:
`T = promoted_vector_value_type<L, R>`,
`E = broadcast_extent<extent of C, broadcast_extent<extent of L, extent of R>>`,
the condition goes through `convert_helper<_, _, bool, E>`, both value operands
through `convert_helper<_, _, T, E>`, then `apply_impl<F, E::value, T, bool, T, T>`
with `F = ops::conditional<T>`. -/
def where_ {V : Type} (conv : ScalarType → ScalarType → V → V) (d : V) (truthy : V → Bool)
    (TC : ScalarType) (EC : Nat) (cond : List V)
    (TL : ScalarType) (EL : Nat) (true_values : List V)
    (TR : ScalarType) (ER : Nat) (false_values : List V) : Except Fault (List V) :=
  match promote_t [TL, TR], (broadcast_extent EL ER).bind (broadcast_extent EC) with
  | some T, some E => do
    let c ← convert_helper conv d TC EC .bool E .ANY cond
    let l ← convert_helper conv d TL EL T E .ANY true_values
    let r ← convert_helper conv d TR ER T E .ANY false_values
    apply_impl3 d E (ops_conditional truthy) c l r
  | _, _ => .error .ill_formed

/-- The function `fma(a, b, c)`: `T = promoted_vector_value_type<A, B, C>`,
`E = broadcast_extent<extent of A, broadcast_extent<extent of B, extent of C>>`,
every operand goes through `convert_helper<_, _, T, E>`, then
`apply_impl<F, E::value, T, T, T, T>` with `F = ops::fma<T>` (given as `F`). -/
def fma {V : Type} (conv : ScalarType → ScalarType → V → V) (d : V) (F : V → V → V → V)
    (TA : ScalarType) (EA : Nat) (a : List V)
    (TB : ScalarType) (EB : Nat) (b : List V)
    (TC : ScalarType) (EC : Nat) (c : List V) : Except Fault (List V) :=
  match promote_t [TA, TB, TC], (broadcast_extent EB EC).bind (broadcast_extent EA) with
  | some T, some E => do
    let x ← convert_helper conv d TA EA T E .ANY a
    let y ← convert_helper conv d TB EB T E .ANY b
    let z ← convert_helper conv d TC EC T E .ANY c
    apply_impl3 d E F x y z
  | _, _ => .error .ill_formed

/-! ## The reduce engine -/

/-- The predefined table `make_index_sequence<N>`, one entry for each `N` from
0 to 17; other lengths have no entry. -/
def make_index_sequence (N : Nat) : Option (List Nat) :=
  if N ≤ 17 then some (List.range N) else none

/-- The primary template `reduce_helper<F, N, T>::call(fun, input)`: the private
overload takes `index_sequence<0, Is...>`, then folds from element 0. -/
def reduce_helper {α : Type} (N : Nat) (fn : α → α → α) (input : List α) : Except Fault α :=
  match make_index_sequence N with
  | some (0 :: _) => do
    let result ← rd input 0
    forLoopFrom 1 N (fun i result => do
      let v ← rd input i
      pure (fn result v)) result
  | _ => .error .ill_formed

/-- The specialisation `reduce_helper<F, N, __half, enabled_t<(N >= 2)>>::call`
(the primary template is used where it is not enabled); `zipx2` is the
`zip_halfx2<F>` selected for `F`. -/
def reduce_helper_half {α : Type} (N : Nat) (zipx2 : α × α → α × α → α × α)
    (fn : α → α → α) (input : List α) : Except Fault α :=
  if 2 ≤ N then do
    let x ← rd input 0
    let y ← rd input 1
    let accum ← forLoopBy2 N (fun i accum => do
      let a0 ← rd input i
      let a1 ← rd input (i + 1)
      pure (zipx2 accum (a0, a1))) 2 (x, y)
    let result := fn accum.1 accum.2
    if N % 2 ≠ 0 then do
      let v ← rd input (N - 1)
      pure (fn result v)
    else pure result
  else reduce_helper N fn input

/-- Selection of `reduce_helper<F, N, T>` by `reduce(fun, input)`: the
specialisation for `__half` and `__nv_bfloat16` (enabled for `N >= 2`), else the
primary template; `zipx2` is the `zip_halfx2<F>` selected for `F`. -/
def reduce {V : Type} (T : ScalarType) (N : Nat) (fn : V → V → V)
    (zipx2 : V × V → V × V → V × V) (input : List V) : Except Fault V :=
  if T = .half ∨ T = .bfloat16 then reduce_helper_half N zipx2 fn input
  else reduce_helper N fn input

/-- The function `sum(input)`: `reduce(ops::add<T> {}, input)`; `add` is
`ops::add<T>` and `addx2` its paired form. -/
def sum {V : Type} (T : ScalarType) (N : Nat) (add : V → V → V)
    (addx2 : V × V → V × V → V × V) (input : List V) : Except Fault V :=
  reduce T N add addx2 input

/-- The function `min(input)`: `reduce(ops::min<T> {}, input)`. -/
def min {V : Type} (T : ScalarType) (N : Nat) (min_T : V → V → V)
    (minx2 : V × V → V × V → V × V) (input : List V) : Except Fault V :=
  reduce T N min_T minx2 input

/-- The function `max(input)`: `reduce(ops::max<T> {}, input)`. -/
def max {V : Type} (T : ScalarType) (N : Nat) (max_T : V → V → V)
    (maxx2 : V × V → V × V → V × V) (input : List V) : Except Fault V :=
  reduce T N max_T maxx2 input

/-- The function `dot(left, right)`:
`reduce(ops::add<T> {}, zip_common(ops::multiply<T> {}, left, right))` with
`T = promoted_vector_value_type<L, R>`; the functors are given with their
paired forms. -/
def dot {V : Type} (conv : ScalarType → ScalarType → V → V) (d : V)
    (add : V → V → V) (addx2 : V × V → V × V → V × V)
    (multiply : V → V → V) (multiplyx2 : V × V → V × V → V × V)
    (TL : ScalarType) (EL : Nat) (left : List V)
    (TR : ScalarType) (ER : Nat) (right : List V) : Except Fault V :=
  match promote_t [TL, TR], broadcast_extent EL ER with
  | some T, some E => do
    let products ← zip_common conv d (fun O => O) multiplyx2 multiply TL EL left TR ER right
    reduce T E add addx2 products
  | _, _ => .error .ill_formed

/-- The function `all(input)`: `reduce(ops::bit_and<bool> {}, cast<bool>(input))`.
The cast is `map` with `ops::cast<T, bool>` (the conversion `bool(v)`, here
`to_bool`), an `apply_impl` with output type `bool`, hence the primary
template, and the reduction is over `bool`, hence the primary template. -/
def all {V : Type} (to_bool : V → Bool) (N : Nat) (input : List V) : Except Fault Bool := do
  let bools ← apply_impl1 false N to_bool input
  reduce_helper N ops_bit_and_bool bools

/-- The function `count(input)`: `sum(cast<int>(cast<bool>(input)))`; the
conversion of a `bool` to `int` gives 1 for `true` and 0 for `false`, and the
sum is `reduce(ops::add<int> {}, _)` with `int` a signed type of 32 bits. -/
def count {V : Type} (to_bool : V → Bool) (N : Nat) (input : List V) : Except Fault Int := do
  let bools ← apply_impl1 false N to_bool input
  let ints ← apply_impl1 (0 : Int) N (fun b : Bool => if b then 1 else 0) bools
  sum .signed_int N (ops_add (integer_conversion true 32))
    (zip_halfx2 (ops_add (integer_conversion true 32))) ints

/-- The function `fill<N>(value)`: a storage of one element broadcast by
`broadcast_impl<T, extent<1>, extent<N>>`. -/
def fill {α : Type} (d : α) (N : Nat) (value : α) : Except Fault (List α) :=
  broadcast_impl d 1 N [value]

/-- The body of the specialisation `broadcast_impl<T, extent<1>, extent<N>>`. -/
def broadcast_impl_replicate_path {α : Type} (d : α) (N : Nat) (input : List α) :
    Except Fault (List α) :=
  forLoop N (fun i output => do
    let v ← rd input 0
    wr output i v) (List.replicate N d)

/-- The body of the specialisation `broadcast_impl<T, extent<N>, extent<N>>`. -/
def broadcast_impl_identity_path {α : Type} (input : List α) : Except Fault (List α) :=
  .ok input

/-- The function `convert_storage<R, N, M>(input)`. -/
def convert_storage {V : Type} (conv : ScalarType → ScalarType → V → V) (d : V)
    (T : ScalarType) (E : Nat) (R : ScalarType) (N : Nat) (M : RoundingMode)
    (input : List V) : Except Fault (List V) :=
  convert_helper conv d T E R N M input

/-- The function `any(input)`: `reduce(ops::bit_or<bool> {}, cast<bool>(input))`,
with the same cast and the same reduction over `bool` as `all`. -/
def any {V : Type} (to_bool : V → Bool) (N : Nat) (input : List V) : Except Fault Bool := do
  let bools ← apply_impl1 false N to_bool input
  reduce_helper N ops_bit_or_bool bools

/-- The constant `is_vector_assign_allowed<F, T, E, R>` for a right operand of
element type `R` and extent `E2`:
`is_vector_broadcastable<R, E> && is_implicit_convertible<result_t<F<C>, T, R>, T>`
with `C = promote_t<T, R>`; the functor `F<C>` takes two `C` and returns `C`, so
that `result_t` is `C`. It has no value when `broadcast_extent<E2, E>` or
`promote_t<T, R>` does not exist. -/
def is_vector_assign_allowed (T : ScalarType) (E : Nat) (R : ScalarType) (E2 : Nat) :
    Option Bool :=
  match is_broadcastable E2 E, promote_t [T, R] with
  | some b, some C => some (b && is_implicit_convertible C T)
  | _, _ => none

/-- The operators `operator OP=(vector<T, E>& lhs, const R& rhs)` of
`KERNEL_FLOAT_DEFINE_BINARY_ASSIGN_OP`, enabled by `is_vector_assign_allowed`:
`lhs = zip_common(F {}, lhs, rhs)` with `F = ops::NAME<T>` (given as `fn`, with
its paired form `zipx2`); the value is the new content of `lhs`. -/
def binary_assign_op {V : Type} (conv : ScalarType → ScalarType → V → V) (d : V)
    (zipx2 : V × V → V × V → V × V) (fn : V → V → V)
    (T : ScalarType) (E : Nat) (lhs : List V)
    (R : ScalarType) (E2 : Nat) (rhs : List V) : Except Fault (List V) :=
  if is_vector_assign_allowed T E R E2 = some true then
    zip_common conv d (fun O => O) zipx2 fn T E lhs R E2 rhs
  else .error .ill_formed

end Single

namespace Tensor

/-! ## The reduce engine (`include/kernel_float/reduce.h`) -/

/-- The overloads `call(fun, vector, accum, index_sequence<I, Rest...>)` and
`call(fun, vector, accum, index_sequence<>)` of `reduce_helper`; the element
access `vector_get<I>(vector)` is the checked read. -/
def reduce_call {α : Type} (fn : α → α → α) (vector : List α) (accum : α) :
    List Nat → Except Fault α
  | [] => .ok accum
  | I :: Rest => do
    let v ← rd vector I
    reduce_call fn vector (fn accum v) Rest

/-- The template `reduce_helper<F, V>::call(fun, input)`: the index sequence of
`vector_size<V>` (the length of the storage; the table of index sequences is
the one of the single header) must start with index 0, whose element is the
first accumulator. -/
def reduce_helper {α : Type} (fn : α → α → α) (input : List α) : Except Fault α :=
  match Single.make_index_sequence input.length with
  | some (0 :: Is) => do
    let v ← rd input 0
    reduce_call fn input v Is
  | _ => .error .ill_formed

/-- The function `reduce(fun, input)` of `reduce.h`:
`reduce_helper<F, into_storage_type<V>>::call(fun, into_storage(input))`; the
`include/` sources hold the primary template of `reduce_helper` only. -/
def reduce {α : Type} (fn : α → α → α) (input : List α) : Except Fault α :=
  reduce_helper fn input

/-! ## Convert, `where` and `fma` (`include/kernel_float/broadcast.h`, `triops.h`)

The template `apply_impl` is declared in a header that is not among the
`include/` sources; its primary template is taken from the single header. -/

/-- The template `convert_helper<T, E, T2, E2, M>::call(input)` of `broadcast.h`
with its three specialisations `<T, E, T, E, M>`, `<T, E, T, E2, M>` and
`<T, E, T2, E, M>`. -/
def convert_helper {V : Type} (conv : ScalarType → ScalarType → V → V) (d : V)
    (T : ScalarType) (E : List Nat) (T2 : ScalarType) (E2 : List Nat) (M : RoundingMode)
    (input : List V) : Except Fault (List V) :=
  if T = T2 ∧ E = E2 then .ok input
  else if T = T2 then broadcast_impl d E E2 input
  else if E = E2 then
    match ops_cast conv T T2 M with
    | some F => Single.apply_impl1 d (volume E) F input
    | none => .error .ill_formed
  else
    match ops_cast conv T T2 M with
    | some F => do
      let intermediate ← Single.apply_impl1 d (volume E) F input
      broadcast_impl d E E2 intermediate
    | none => .error .ill_formed

/-- The function `where(cond, true_values, false_values)` of `triops.h`:
`E = broadcast_extents<extents of C, broadcast_extents<extents of L, extents of R>>`
and `apply_impl<F, E::volume, T, bool, T, T>`. -/
def where_ {V : Type} (conv : ScalarType → ScalarType → V → V) (d : V) (truthy : V → Bool)
    (TC : ScalarType) (EC : List Nat) (cond : List V)
    (TL : ScalarType) (EL : List Nat) (true_values : List V)
    (TR : ScalarType) (ER : List Nat) (false_values : List V) : Except Fault (List V) :=
  match promote_t [TL, TR], (broadcast_extents EL ER).bind (broadcast_extents EC) with
  | some T, some E => do
    let c ← convert_helper conv d TC EC .bool E .ANY cond
    let l ← convert_helper conv d TL EL T E .ANY true_values
    let r ← convert_helper conv d TR ER T E .ANY false_values
    Single.apply_impl3 d (volume E) (ops_conditional truthy) c l r
  | _, _ => .error .ill_formed

/-- The function `fma(a, b, c)` of `triops.h`:
`E = broadcast_extents<extents of A, broadcast_extents<extents of B, extents of C>>`
and `apply_impl<F, E::volume, T, T, T, T>` with `F = ops::fma<T>` (given as `F`). -/
def fma {V : Type} (conv : ScalarType → ScalarType → V → V) (d : V) (F : V → V → V → V)
    (TA : ScalarType) (EA : List Nat) (a : List V)
    (TB : ScalarType) (EB : List Nat) (b : List V)
    (TC : ScalarType) (EC : List Nat) (c : List V) : Except Fault (List V) :=
  match promote_t [TA, TB, TC], (broadcast_extents EB EC).bind (broadcast_extents EA) with
  | some T, some E => do
    let x ← convert_helper conv d TA EA T E .ANY a
    let y ← convert_helper conv d TB EB T E .ANY b
    let z ← convert_helper conv d TC EC T E .ANY c
    Single.apply_impl3 d (volume E) F x y z
  | _, _ => .error .ill_formed

/-! ## Reductions of `reduce.h`, `fill` and `convert` of `broadcast.h`

The function `cast<R>(input)` is declared in a header that is not among the
`include/` sources; as in the single header it is the primary `apply_impl`
with the functor `ops::cast<T, R>`. -/

/-- The function `sum(input)` of `reduce.h`: `reduce(ops::add<T> {}, input)`. -/
def sum {V : Type} (add : V → V → V) (input : List V) : Except Fault V :=
  reduce_helper add input

/-- The function `min(input)` of `reduce.h`: `reduce(ops::min<T> {}, input)`. -/
def min {V : Type} (min_T : V → V → V) (input : List V) : Except Fault V :=
  reduce_helper min_T input

/-- The function `max(input)` of `reduce.h`: `reduce(ops::max<T> {}, input)`. -/
def max {V : Type} (max_T : V → V → V) (input : List V) : Except Fault V :=
  reduce_helper max_T input

/-- The function `all(input)` of `reduce.h`:
`reduce(ops::bit_and<bool> {}, cast<bool>(input))`. -/
def all {V : Type} (to_bool : V → Bool) (input : List V) : Except Fault Bool := do
  let bools ← Single.apply_impl1 false input.length to_bool input
  reduce_helper ops_bit_and_bool bools

/-- The function `count(input)` of `reduce.h`: `sum(cast<int>(cast<bool>(input)))`,
with `int` a signed type of 32 bits. -/
def count {V : Type} (to_bool : V → Bool) (input : List V) : Except Fault Int := do
  let bools ← Single.apply_impl1 false input.length to_bool input
  let ints ←
    Single.apply_impl1 (0 : Int) input.length (fun b : Bool => if b then 1 else 0) bools
  sum (ops_add (integer_conversion true 32)) ints

/-- The function `any(input)` of `reduce.h`:
`reduce(ops::bit_or<bool> {}, cast<bool>(input))`. -/
def any {V : Type} (to_bool : V → Bool) (input : List V) : Except Fault Bool := do
  let bools ← Single.apply_impl1 false input.length to_bool input
  reduce_helper ops_bit_or_bool bools

/-- The function `fill<Ns...>(value)` of `broadcast.h`: a storage of one element
broadcast by `broadcast_impl<T, extents<>, extents<Ns...>>`. -/
def fill {α : Type} (d : α) (Ns : List Nat) (value : α) : Except Fault (List α) :=
  broadcast_impl d [] Ns [value]

/-- The body of the primary template `broadcast_impl<T, From, To>`, which the
`<T, E, E>` specialisation replaces when both extents are the same. -/
def broadcast_impl_primary {α : Type} (d : α) (From To : List Nat) (input : List α) :
    Except Fault (List α) :=
  if is_broadcastable From To = some true then
    copy_helper To (strides_helper (extents_to_rank From To.length)) (strides_helper To)
      (List.replicate (volume To) d) input
  else .error .ill_formed

/-- The function `convert<R, Ns..., M>(input)` of `broadcast.h`. -/
def convert {V : Type} (conv : ScalarType → ScalarType → V → V) (d : V)
    (T : ScalarType) (E : List Nat) (R : ScalarType) (Ns : List Nat) (M : RoundingMode)
    (input : List V) : Except Fault (List V) :=
  convert_helper conv d T E R Ns M input

end Tensor

/-! ## Specification-side vocabulary -/

/-- Left-padding of an extent with dimensions of size `1` up to rank `r`. -/
def padLeft (E : List Nat) (r : Nat) : List Nat :=
  List.replicate (r - E.length) 1 ++ E

/-- Two dimension sizes can be unified: they agree or one of them is `1`. -/
def dimCompatible (a b : Nat) : Prop := a = b ∨ a = 1 ∨ b = 1

/-- The unified size of two compatible dimensions. -/
def dimUnified (a b : Nat) : Nat := if a = 1 then b else a

/-- Row-major position of the index `x` in the extent `E`. -/
def rowMajor : List Nat → List Nat → Nat
  | _ :: ns, x :: xs => x * volume ns + rowMajor ns xs
  | _, _ => 0

/-- The index `x` with every coordinate whose dimension in `E` is `1` set to `0`. -/
def zeroUnit : List Nat → List Nat → List Nat
  | n :: ns, x :: xs => (if n = 1 then 0 else x) :: zeroUnit ns xs
  | _, _ => []

/-- The index `x` lies inside the extent `E`: same rank, every coordinate
below its dimension. -/
def Inside (x E : List Nat) : Prop := List.Forall₂ (fun xi n => xi < n) x E

/-- The step `f` turns every output storage of length `V` into one of the same
length in which each position `o` related by `R` to an input position `i`
holds `input[i]`, and leaves every position outside the domain of `R` as it was. -/
def Copies {α : Type} (V : Nat) (input : List α) (f : List α → Except Fault (List α))
    (R : Nat → Nat → Prop) : Prop :=
  ∀ out : List α, out.length = V →
    ∃ out', f out = .ok out' ∧ out'.length = V ∧
      (∀ o i, R o i → o < V ∧ out'[o]? = input[i]?) ∧
      (∀ p, (∀ i, ¬ R p i) → out'[p]? = out[p]?)

/-- Loops nested over every index of an extent, outermost dimension first;
`copy_helper` is this nest for ranks 0 to 3. -/
def loopNest {σ : Type} : List Nat → (List Nat → σ → Except Fault σ) → σ → Except Fault σ
  | [], body, s => body [] s
  | n :: ns, body, s => forLoop n (fun i t => loopNest ns (fun xs => body (i :: xs)) t) s

/-- The left fold of the binary promotion over a list of types, starting from
`acc`; it has a value exactly when every binary step has one. -/
def promoteFold : ScalarType → List ScalarType → Option ScalarType
  | acc, [] => some acc
  | acc, T :: Ts =>
    match promote_type acc T with
    | some next => promoteFold next Ts
    | none => none

/-- Conversion as the specification words it: cast every element first, then
broadcast the result to the target extent. -/
def castThenBroadcast {V : Type} (d : V) (cast : V → V) (E E2 : List Nat) (input : List V) :
    Except Fault (List V) :=
  Tensor.broadcast_impl d E E2 (input.map cast)

/-- The value of `ops::cast<T, R>` (rounding mode `ANY`) on `v`. -/
def castTo {V : Type} (conv : ScalarType → ScalarType → V → V) (T R : ScalarType) (v : V) : V :=
  if T = R then v else conv T R v

/-- The storage position that the broadcast from `E` to `E2` reads for the
index `x` of `E2`. -/
def srcIndex (E E2 x : List Nat) : Nat :=
  rowMajor (padLeft E E2.length) (zeroUnit (padLeft E E2.length) x)

/-- The integer `x` is a value of the integer type of `w` bits with the given
signedness. -/
def representable (is_signed : Bool) (w : Nat) (x : Int) : Prop :=
  if is_signed then -(2 ^ (w - 1)) ≤ x ∧ x < 2 ^ (w - 1) else 0 ≤ x ∧ x < 2 ^ w

/-- The base scalar types of the promotion lattice: every type but the pointers. -/
def base_scalar_types : List ScalarType :=
  [.bool, .char, .signed_char, .signed_short, .signed_int, .signed_long, .signed_long_long,
   .unsigned_char, .unsigned_short, .unsigned_int, .unsigned_long, .unsigned_long_long,
   .float, .double, .long_double, .half, .bfloat16]

/-- A height for the promotion lattice: `bool`, then the integer types by width,
then the narrow float types, then `float`, `double`, `long double`. -/
def latticeRank : ScalarType → Nat
  | .bool => 0
  | .char | .signed_char | .unsigned_char => 1
  | .signed_short | .unsigned_short => 2
  | .signed_int | .unsigned_int => 3
  | .signed_long | .unsigned_long => 4
  | .signed_long_long | .unsigned_long_long => 5
  | .half | .bfloat16 => 6
  | .float => 7
  | .double => 8
  | .long_double => 9
  | .pointer _ => 10

/-- The dimension of the extent `E` at position `k` counted from the right; `1`
beyond its rank, as left-padding makes it. -/
def dimAt (E : List Nat) (k : Nat) : Nat := (E.reverse[k]?).getD 1

/-- The extent of a three-operand operation (`where`, `fma`) of `triops.h`:
`broadcast_extents<A, broadcast_extents<B, C>>`. -/
def extentOf3 (A B C : List Nat) : Option (List Nat) :=
  (Tensor.broadcast_extents B C).bind (Tensor.broadcast_extents A)

/-! ## Lemmas on unification -/

theorem Tensor.unify_dimension_helper_eq_some (n m d : Nat) :
    Tensor.unify_dimension_helper n m = some d ↔ dimCompatible n m ∧ d = dimUnified n m := by
  unfold Tensor.unify_dimension_helper dimCompatible dimUnified
  split_ifs <;> simp_all <;> omega

theorem Tensor.unify_dimension_helper_eq_none (n m : Nat) :
    Tensor.unify_dimension_helper n m = none ↔ ¬ dimCompatible n m := by
  unfold Tensor.unify_dimension_helper dimCompatible
  split_ifs <;> simp_all

theorem Tensor.unify_extents_helper_eq_some (A B C : List Nat) :
    Tensor.unify_extents_helper A B = some C ↔
      A.length = B.length ∧ C.length = A.length ∧
      (∀ (i a b : Nat), A[i]? = some a → B[i]? = some b →
        dimCompatible a b ∧ C[i]? = some (dimUnified a b)) := by
  induction A generalizing B C with
  | nil =>
    cases B with
    | nil =>
      cases C <;> simp [Tensor.unify_extents_helper]
    | cons m ms => simp [Tensor.unify_extents_helper]
  | cons n ns ih =>
    cases B with
    | nil => simp [Tensor.unify_extents_helper]
    | cons m ms =>
      simp only [Tensor.unify_extents_helper]
      constructor
      · intro h
        cases hd : Tensor.unify_dimension_helper n m with
        | none => simp [hd] at h
        | some d =>
          cases hr : Tensor.unify_extents_helper ns ms with
          | none => simp [hd, hr] at h
          | some r =>
            simp only [hd, hr, Option.some.injEq] at h
            subst h
            obtain ⟨h1, h2, h3⟩ := (ih ms r).1 hr
            obtain ⟨hc, hu⟩ := (Tensor.unify_dimension_helper_eq_some n m d).1 hd
            refine ⟨by simp [h1], by simp [h2], ?_⟩
            intro i a b ha hb
            cases i with
            | zero =>
              simp only [List.getElem?_cons_zero, Option.some.injEq] at ha hb
              subst ha hb
              exact ⟨hc, by simp [hu]⟩
            | succ j =>
              simp only [List.getElem?_cons_succ] at ha hb ⊢
              exact h3 j a b ha hb
      · rintro ⟨h1, h2, h3⟩
        cases C with
        | nil => simp at h2
        | cons c cs =>
          have h0 := h3 0 n m (by simp) (by simp)
          simp only [List.getElem?_cons_zero, Option.some.injEq] at h0
          have hd : Tensor.unify_dimension_helper n m = some c :=
            (Tensor.unify_dimension_helper_eq_some n m c).2 ⟨h0.1, h0.2⟩
          have hr : Tensor.unify_extents_helper ns ms = some cs := by
            refine (ih ms cs).2 ⟨by simpa using h1, by simpa using h2, ?_⟩
            intro i a b ha hb
            have := h3 (i + 1) a b (by simpa using ha) (by simpa using hb)
            simpa using this
          simp [hd, hr]

theorem Tensor.extents_to_rank_eq (E : List Nat) (N : Nat) :
    Tensor.extents_to_rank E N = padLeft E N := by
  generalize h : N - E.length = k
  induction k generalizing E with
  | zero =>
    rw [Tensor.extents_to_rank]
    have : ¬ E.length < N := by omega
    simp [this, padLeft, h]
  | succ k ih =>
    rw [Tensor.extents_to_rank]
    have hlt : E.length < N := by omega
    rw [if_pos hlt, ih (1 :: E) (by simp only [List.length_cons]; omega)]
    simp only [padLeft, List.length_cons]
    have : N - E.length = (N - (E.length + 1)) + 1 := by omega
    rw [this, List.replicate_succ']
    simp

theorem length_padLeft (E : List Nat) (r : Nat) :
    (padLeft E r).length = max E.length r := by
  simp only [padLeft, List.length_append, List.length_replicate]
  omega

theorem padLeft_of_le (E : List Nat) (r : Nat) (h : r ≤ E.length) : padLeft E r = E := by
  simp [padLeft, Nat.sub_eq_zero_of_le h]

theorem getElem?_padLeft (E : List Nat) (r i : Nat) :
    (padLeft E r)[i]? =
      if i < r - E.length then some 1 else E[i - (r - E.length)]? := by
  unfold padLeft
  by_cases h : i < r - E.length
  · rw [if_pos h, List.getElem?_append_left (by simpa using h)]
    simp [List.getElem?_replicate, h]
  · rw [if_neg h, List.getElem?_append_right (by simpa using h)]
    simp

theorem Tensor.unify_extents_helper_of_compat (A B : List Nat) (hlen : A.length = B.length)
    (hc : ∀ (i a b : Nat), A[i]? = some a → B[i]? = some b → dimCompatible a b) :
    Tensor.unify_extents_helper A B = some (List.zipWith dimUnified A B) := by
  rw [Tensor.unify_extents_helper_eq_some]
  refine ⟨hlen, by simp [hlen], ?_⟩
  intro i a b ha hb
  refine ⟨hc i a b ha hb, ?_⟩
  simp [List.getElem?_zipWith, ha, hb]

theorem Tensor.unify_extents_helper_self (A : List Nat) :
    Tensor.unify_extents_helper A A = some A := by
  rw [Tensor.unify_extents_helper_eq_some]
  refine ⟨rfl, rfl, ?_⟩
  intro i a b ha hb
  rw [ha] at hb
  cases hb
  refine ⟨Or.inl rfl, ?_⟩
  simp [dimUnified, ha]

/-- The `<E, E>` specialisation agrees with the primary template, so
`broadcast_extents` is always the unification of the two padded extents. -/
theorem Tensor.broadcast_extents_eq (A B : List Nat) :
    Tensor.broadcast_extents A B =
      Tensor.unify_extents_helper (padLeft A B.length) (padLeft B A.length) := by
  unfold Tensor.broadcast_extents Tensor.broadcast_extents_helper
  by_cases h : A = B
  · subst h
    rw [if_pos rfl, padLeft_of_le A A.length (le_refl _), Tensor.unify_extents_helper_self]
  · rw [if_neg h, Tensor.extents_to_rank_eq, Tensor.extents_to_rank_eq]

theorem Tensor.broadcast_extents_same_rank (A B : List Nat) (h : A.length = B.length) :
    Tensor.broadcast_extents A B = Tensor.unify_extents_helper A B := by
  rw [Tensor.broadcast_extents_eq, padLeft_of_le A B.length (by omega),
    padLeft_of_le B A.length (by omega)]

theorem Tensor.is_broadcastable_eq_true (From To : List Nat) :
    Tensor.is_broadcastable From To = some true ↔
      Tensor.broadcast_extents From To = some To := by
  unfold Tensor.is_broadcastable
  cases Tensor.broadcast_extents From To with
  | none => simp
  | some C => simp

/-- Broadcastability as a right-aligned, dimension-wise condition. -/
theorem Tensor.broadcast_extents_eq_target (From To : List Nat) :
    Tensor.broadcast_extents From To = some To ↔
      From.length ≤ To.length ∧
      ∀ (j a : Nat), From[j]? = some a →
        a = 1 ∨ To[j + (To.length - From.length)]? = some a := by
  rw [Tensor.broadcast_extents_eq, Tensor.unify_extents_helper_eq_some]
  simp only [length_padLeft]
  constructor
  · rintro ⟨-, h2, h3⟩
    have hle : From.length ≤ To.length := by omega
    refine ⟨hle, ?_⟩
    intro j a ha
    have hj : j < From.length := (List.getElem?_eq_some_iff.1 ha).1
    have hlt : j + (To.length - From.length) < To.length := by omega
    obtain ⟨b, hb⟩ : ∃ b, To[j + (To.length - From.length)]? = some b :=
      ⟨_, List.getElem?_eq_getElem hlt⟩
    have key := h3 (j + (To.length - From.length)) a b
      (by rw [getElem?_padLeft, if_neg (by omega)]; simpa using ha)
      (by rw [padLeft_of_le To From.length hle]; exact hb)
    rw [hb] at key ⊢
    have hu := key.2
    simp only [Option.some.injEq, dimUnified] at hu
    by_cases h1 : a = 1
    · exact Or.inl h1
    · rw [if_neg h1] at hu
      exact Or.inr (by rw [hu])
  · rintro ⟨hle, h⟩
    refine ⟨by omega, by omega, ?_⟩
    intro i a b ha hb
    rw [padLeft_of_le To From.length hle] at hb
    rw [getElem?_padLeft] at ha
    by_cases hi : i < To.length - From.length
    · rw [if_pos hi] at ha
      cases ha
      exact ⟨Or.inr (Or.inl rfl), by simp [dimUnified, hb]⟩
    · rw [if_neg hi] at ha
      have := h (i - (To.length - From.length)) a ha
      rw [show i - (To.length - From.length) + (To.length - From.length) = i by omega, hb] at this
      rcases this with h1 | h1
      · subst h1
        exact ⟨Or.inr (Or.inl rfl), by simp [dimUnified, hb]⟩
      · cases h1
        refine ⟨Or.inl rfl, ?_⟩
        simp [dimUnified, hb]

theorem Single.broadcast_extent_eq_some (a b c : Nat) :
    Single.broadcast_extent a b = some c ↔ dimCompatible a b ∧ c = dimUnified a b := by
  unfold Single.broadcast_extent Single.broadcast_extent_helper dimCompatible dimUnified
  split_ifs <;> simp_all <;> omega

theorem Single.is_broadcastable1_eq_true (a b : Nat) :
    Single.is_broadcastable a b = some true ↔ Single.broadcast_extent a b = some b := by
  unfold Single.is_broadcastable
  cases Single.broadcast_extent a b with
  | none => simp
  | some c => simp

/-! ## Lemmas on loops and row-major addressing -/

theorem copies_element {α : Type} (V : Nat) (input : List α)
    (IS OS : List Nat → Except Fault Nat) (x : List Nat) (i o : Nat)
    (hI : IS x = .ok i) (hO : OS x = .ok o) (hi : i < input.length) (ho : o < V) :
    Copies V input (fun out => Tensor.copy_element IS OS x out input)
      (fun o' i' => o' = o ∧ i' = i) := by
  intro out hlen
  refine ⟨out.set o input[i], ?_, by simpa using hlen, ?_, ?_⟩
  · simp [Tensor.copy_element, hI, hO, rd, wr, List.getElem?_eq_getElem hi, hlen, ho]
  · rintro o' i' ⟨rfl, rfl⟩
    refine ⟨ho, ?_⟩
    rw [List.getElem?_eq_getElem hi, List.getElem?_set_self (by omega)]
  · intro p hp
    have hne : o ≠ p := by
      intro h
      exact hp i ⟨h.symm, rfl⟩
    rw [List.getElem?_set_ne hne]

theorem copies_forLoop {α : Type} (V : Nat) (input : List α) (n : Nat)
    (body : Nat → List α → Except Fault (List α)) (R : Nat → Nat → Nat → Prop)
    (hbody : ∀ j, j < n → Copies V input (body j) (R j))
    (hdisj : ∀ j j' o i i', j < n → j' < n → j ≠ j' → R j o i → ¬ R j' o i') :
    Copies V input (forLoop n body) (fun o i => ∃ j, j < n ∧ R j o i) := by
  induction n with
  | zero =>
    intro out hlen
    exact ⟨out, rfl, hlen, by rintro o i ⟨j, hj, -⟩; omega, fun _ _ => rfl⟩
  | succ n ih =>
    intro out hlen
    obtain ⟨out1, h1, hlen1, hR1, hF1⟩ :=
      ih (fun j hj => hbody j (by omega))
        (fun j j' o i i' hj hj' => hdisj j j' o i i' (by omega) (by omega)) out hlen
    obtain ⟨out2, h2, hlen2, hR2, hF2⟩ := hbody n (by omega) out1 hlen1
    refine ⟨out2, by simp only [forLoop, h1, h2], hlen2, ?_, ?_⟩
    · rintro o i ⟨j, hj, hR⟩
      by_cases hjn : j = n
      · subst hjn
        exact hR2 o i hR
      · have hj' : j < n := by omega
        obtain ⟨hoV, hval⟩ := hR1 o i ⟨j, hj', hR⟩
        refine ⟨hoV, ?_⟩
        rw [hF2 o (fun i' hn => hdisj j n o i i' (by omega) (by omega) hjn hR hn), hval]
    · intro p hp
      rw [hF2 p (fun i hR => hp i ⟨n, by omega, hR⟩),
        hF1 p (fun i ⟨j, hj, hR⟩ => hp i ⟨j, by omega, hR⟩)]

theorem volume_cons (n : Nat) (E : List Nat) : volume (n :: E) = n * volume E := rfl

theorem volume_padLeft (E : List Nat) (r : Nat) : volume (padLeft E r) = volume E := by
  unfold padLeft
  induction r - E.length with
  | zero => simp
  | succ k ih => rw [List.replicate_succ, List.cons_append, volume_cons, ih, Nat.one_mul]

theorem inside_length {x E : List Nat} (h : Inside x E) : x.length = E.length :=
  List.Forall₂.length_eq h

theorem rowMajor_lt {x E : List Nat} (h : Inside x E) : rowMajor E x < volume E := by
  induction h with
  | nil => simp [rowMajor, volume]
  | @cons a n xs ns han _ ih =>
    simp only [rowMajor, volume_cons]
    calc a * volume ns + rowMajor ns xs < a * volume ns + volume ns := by omega
      _ = (a + 1) * volume ns := by ring
      _ ≤ n * volume ns := Nat.mul_le_mul_right _ han

theorem rowMajor_inj {x y E : List Nat} (hx : Inside x E) (hy : Inside y E)
    (h : rowMajor E x = rowMajor E y) : x = y := by
  induction hx generalizing y with
  | nil =>
    cases hy
    rfl
  | @cons a n xs ns _ hxs ih =>
    cases hy with
    | @cons b _ ys _ _ hys =>
      simp only [rowMajor] at h
      have h1 := rowMajor_lt hxs
      have h2 := rowMajor_lt hys
      have hv : 0 < volume ns := by omega
      have hdiv : a = b := by
        have e1 : (a * volume ns + rowMajor ns xs) / volume ns = a := by
          rw [Nat.add_comm, Nat.add_mul_div_right _ _ hv, Nat.div_eq_of_lt h1, Nat.zero_add]
        have e2 : (b * volume ns + rowMajor ns ys) / volume ns = b := by
          rw [Nat.add_comm, Nat.add_mul_div_right _ _ hv, Nat.div_eq_of_lt h2, Nat.zero_add]
        rw [← e1, ← e2, h]
      subst hdiv
      rw [ih hys (by omega)]

theorem zeroUnit_self {x E : List Nat} (h : Inside x E) : zeroUnit E x = x := by
  induction h with
  | nil => rfl
  | @cons a n xs ns han _ ih =>
    simp only [zeroUnit, ih, List.cons.injEq, and_true]
    split_ifs with h1
    · omega
    · rfl

theorem zeroUnit_inside {F To x : List Nat}
    (hF : List.Forall₂ (fun f t => f = 1 ∨ f = t) F To) (hx : Inside x To) :
    Inside (zeroUnit F x) F := by
  induction hF generalizing x with
  | nil =>
    cases hx
    exact List.Forall₂.nil
  | @cons f t fs ts hft _ ih =>
    cases hx with
    | @cons a _ xs _ hat hxs =>
      simp only [zeroUnit]
      refine List.Forall₂.cons ?_ (ih hxs)
      split_ifs with h1
      · omega
      · rcases hft with h | h
        · exact absurd h h1
        · omega

theorem strides_helper_eq (E x : List Nat) (hE : E.length ≤ 3) (hx : x.length = E.length) :
    Tensor.strides_helper E x = .ok (rowMajor E (zeroUnit E x)) := by
  match E, x, hE, hx with
  | [], [], _, _ => rfl
  | [n], [x0], _, _ =>
    simp only [Tensor.strides_helper, zeroUnit, rowMajor, volume, List.foldr]
    split_ifs <;> simp_all
  | [n, m], [x0, x1], _, _ =>
    simp only [Tensor.strides_helper, zeroUnit, rowMajor, volume, List.foldr]
    split_ifs <;> simp_all
  | [n, m, k], [x0, x1, x2], _, _ =>
    simp only [Tensor.strides_helper, zeroUnit, rowMajor, volume, List.foldr]
    split_ifs <;> simp_all
    ring

theorem copies_congr {α : Type} {V : Nat} {input : List α}
    {f : List α → Except Fault (List α)} {R R' : Nat → Nat → Prop}
    (h : Copies V input f R) (hR : ∀ o i, R' o i ↔ R o i) : Copies V input f R' := by
  intro out hlen
  obtain ⟨out', h1, h2, h3, h4⟩ := h out hlen
  exact ⟨out', h1, h2, fun o i hr => h3 o i ((hR o i).1 hr),
    fun p hp => h4 p (fun i hr => hp i ((hR p i).2 hr))⟩

theorem copies_loopNest {α : Type} (V : Nat) (input : List α) (E : List Nat)
    (body : List Nat → List α → Except Fault (List α)) (R : List Nat → Nat → Nat → Prop)
    (hbody : ∀ x, Inside x E → Copies V input (body x) (R x))
    (hdisj : ∀ x y o i i', Inside x E → Inside y E → x ≠ y → R x o i → ¬ R y o i') :
    Copies V input (loopNest E body) (fun o i => ∃ x, Inside x E ∧ R x o i) := by
  induction E generalizing body R with
  | nil =>
    refine copies_congr (hbody [] List.Forall₂.nil) ?_
    intro o i
    constructor
    · rintro ⟨x, hx, hr⟩
      cases hx
      exact hr
    · intro hr
      exact ⟨[], List.Forall₂.nil, hr⟩
  | cons n ns ih =>
    have key := copies_forLoop V input n
      (fun j t => loopNest ns (fun xs => body (j :: xs)) t)
      (fun j o i => ∃ xs, Inside xs ns ∧ R (j :: xs) o i)
      (fun j hj => ih (fun xs => body (j :: xs)) (fun xs => R (j :: xs))
        (fun xs hxs => hbody (j :: xs) (List.Forall₂.cons hj hxs))
        (fun xs ys o i i' hxs hys hne => hdisj (j :: xs) (j :: ys) o i i'
          (List.Forall₂.cons hj hxs) (List.Forall₂.cons hj hys) (by simpa using hne)))
      (by
        rintro j j' o i i' hj hj' hne ⟨xs, hxs, hr⟩ ⟨ys, hys, hr'⟩
        exact hdisj (j :: xs) (j' :: ys) o i i' (List.Forall₂.cons hj hxs)
          (List.Forall₂.cons hj' hys) (by simp [hne]) hr hr')
    refine copies_congr key ?_
    intro o i
    constructor
    · rintro ⟨x, hx, hr⟩
      cases hx with
      | @cons a _ xs _ ha hxs => exact ⟨a, ha, xs, hxs, hr⟩
    · rintro ⟨j, hj, xs, hxs, hr⟩
      exact ⟨j :: xs, List.Forall₂.cons hj hxs, hr⟩

theorem copy_helper_eq_loopNest {α : Type} (E : List Nat) (hE : E.length ≤ 3)
    (IS OS : List Nat → Except Fault Nat) (output input : List α) :
    Tensor.copy_helper E IS OS output input =
      loopNest E (fun x out => Tensor.copy_element IS OS x out input) output := by
  match E, hE with
  | [], _ => rfl
  | [_], _ => rfl
  | [_, _], _ => rfl
  | [_, _, _], _ => rfl

/-- The copy loops of `broadcast_impl` perform the address remapping of the
broadcast, for a source extent `F` already padded to the rank of `To`. -/
theorem copies_copy_helper {α : Type} (F To : List Nat) (input : List α)
    (hrank : To.length ≤ 3) (hF : List.Forall₂ (fun f t => f = 1 ∨ f = t) F To)
    (hlen : input.length = volume F) :
    Copies (volume To) input
      (fun out => Tensor.copy_helper To (Tensor.strides_helper F) (Tensor.strides_helper To)
        out input)
      (fun o i => ∃ x, Inside x To ∧ o = rowMajor To x ∧ i = rowMajor F (zeroUnit F x)) := by
  have hFlen : F.length = To.length := List.Forall₂.length_eq hF
  have hfun : (fun out => Tensor.copy_helper To (Tensor.strides_helper F)
      (Tensor.strides_helper To) out input) =
      loopNest To (fun x out => Tensor.copy_element (Tensor.strides_helper F)
        (Tensor.strides_helper To) x out input) := by
    funext out
    exact copy_helper_eq_loopNest To hrank _ _ out input
  rw [hfun]
  apply copies_loopNest (volume To) input To _
    (fun x o i => o = rowMajor To x ∧ i = rowMajor F (zeroUnit F x))
  · intro x hx
    have hxl := inside_length hx
    refine copies_element (volume To) input _ _ x _ _
      (strides_helper_eq F x (by omega) (by omega)) ?_ ?_ (rowMajor_lt hx)
    · rw [strides_helper_eq To x hrank hxl, zeroUnit_self hx]
    · rw [hlen]
      exact rowMajor_lt (zeroUnit_inside hF hx)
  · rintro x y o i i' hx hy hne ⟨ho, -⟩ ⟨ho', -⟩
    exact hne (rowMajor_inj hx hy (by rw [← ho, ← ho']))

theorem Tensor.broadcastable_forall2 (From To : List Nat)
    (h : Tensor.is_broadcastable From To = some true) :
    List.Forall₂ (fun f t => f = 1 ∨ f = t) (padLeft From To.length) To := by
  rw [Tensor.is_broadcastable_eq_true, Tensor.broadcast_extents_eq_target] at h
  obtain ⟨hle, hdim⟩ := h
  rw [List.forall₂_iff_get]
  refine ⟨by rw [length_padLeft]; omega, ?_⟩
  intro i h1 h2
  have hget : (padLeft From To.length)[i]? = some ((padLeft From To.length).get ⟨i, h1⟩) :=
    List.getElem?_eq_getElem h1
  have hto : To[i]? = some (To.get ⟨i, h2⟩) := List.getElem?_eq_getElem h2
  rw [getElem?_padLeft] at hget
  by_cases hi : i < To.length - From.length
  · rw [if_pos hi] at hget
    left
    exact (Option.some.inj hget).symm
  · rw [if_neg hi] at hget
    have := hdim _ _ hget
    rw [show i - (To.length - From.length) + (To.length - From.length) = i by omega, hto] at this
    rcases this with h | h
    · exact Or.inl h
    · exact Or.inr (Option.some.inj h).symm

/-! ## Claims C1 to C3: unification and broadcastability -/

/-- C1: for extents `A`, `B` of equal rank, `unify(A, B)` (the alias
`broadcast_extents`, which at equal rank is `unify_extents_helper`) is defined
exactly when at every dimension the two sizes agree or one of them is `1`;
the result then has the same rank and its dimension `i` is `B_i` if `A_i = 1`
and `A_i` otherwise; a dimension with `A_i ≠ B_i` and neither equal to `1`
leaves it without a result. The one-dimensional `broadcast_extent` of the
single header follows the same rule. -/
theorem C1_unify_equal_rank (A B : List Nat) (hrank : A.length = B.length) :
    Tensor.broadcast_extents A B = Tensor.unify_extents_helper A B ∧
    ((∃ C, Tensor.broadcast_extents A B = some C) ↔
      ∀ (i a b : Nat), A[i]? = some a → B[i]? = some b → (a = b ∨ a = 1 ∨ b = 1)) ∧
    (∀ C, Tensor.broadcast_extents A B = some C →
      C.length = A.length ∧
      ∀ (i a b : Nat), A[i]? = some a → B[i]? = some b →
        C[i]? = some (if a = 1 then b else a)) ∧
    (∀ (i a b : Nat), A[i]? = some a → B[i]? = some b → a ≠ b → a ≠ 1 → b ≠ 1 →
      Tensor.broadcast_extents A B = none) ∧
    (∀ a b : Nat, (∃ c, Single.broadcast_extent a b = some c) ↔ (a = b ∨ a = 1 ∨ b = 1)) ∧
    (∀ a b c : Nat, Single.broadcast_extent a b = some c → c = if a = 1 then b else a) := by
  have hsame := Tensor.broadcast_extents_same_rank A B hrank
  refine ⟨hsame, ?_, ?_, ?_, ?_, ?_⟩
  · rw [hsame]
    constructor
    · rintro ⟨C, hC⟩ i a b ha hb
      exact ((Tensor.unify_extents_helper_eq_some A B C).1 hC).2.2 i a b ha hb |>.1
    · intro h
      exact ⟨_, Tensor.unify_extents_helper_of_compat A B hrank h⟩
  · intro C hC
    rw [hsame] at hC
    obtain ⟨-, h2, h3⟩ := (Tensor.unify_extents_helper_eq_some A B C).1 hC
    exact ⟨h2, fun i a b ha hb => (h3 i a b ha hb).2⟩
  · intro i a b ha hb hab ha1 hb1
    rw [hsame]
    cases hC : Tensor.unify_extents_helper A B with
    | none => rfl
    | some C =>
      have := ((Tensor.unify_extents_helper_eq_some A B C).1 hC).2.2 i a b ha hb |>.1
      rcases this with h | h | h <;> contradiction
  · intro a b
    constructor
    · rintro ⟨c, hc⟩
      exact ((Single.broadcast_extent_eq_some a b c).1 hc).1
    · intro h
      exact ⟨_, (Single.broadcast_extent_eq_some a b _).2 ⟨h, rfl⟩⟩
  · intro a b c hc
    exact ((Single.broadcast_extent_eq_some a b c).1 hc).2

/-- Witness for C1 at `A = [2, 1, 3]`, `B = [2, 4, 1]`. -/
theorem C1_unify_equal_rank_witness :
    Tensor.broadcast_extents [2, 1, 3] [2, 4, 1] =
      Tensor.unify_extents_helper [2, 1, 3] [2, 4, 1] ∧
    Tensor.unify_extents_helper [2, 1, 3] [2, 4, 1] = some [2, 4, 3] :=
  ⟨(C1_unify_equal_rank [2, 1, 3] [2, 4, 1] rfl).1, by decide⟩

/-- C2: for extents of different rank, `broadcast_extents` is the primary
template, the unification of both extents taken to each other's rank, which
is the equal-rank unification after the lower-rank extent has been
left-padded with `1`s up to the higher rank; a result has rank
`max (rank A) (rank B)`; the padding recursion `extents_to_rank` is a total
function and returns the padded extent for every pair of ranks. -/
theorem C2_broadcast_extents_pads_left (A B : List Nat) (hrank : A.length ≠ B.length) :
    Tensor.broadcast_extents A B =
      Tensor.unify_extents_helper (Tensor.extents_to_rank A B.length)
        (Tensor.extents_to_rank B A.length) ∧
    (A.length < B.length →
      Tensor.broadcast_extents A B =
        Tensor.unify_extents_helper (List.replicate (B.length - A.length) 1 ++ A) B) ∧
    (B.length < A.length →
      Tensor.broadcast_extents A B =
        Tensor.unify_extents_helper A (List.replicate (A.length - B.length) 1 ++ B)) ∧
    (∀ C, Tensor.broadcast_extents A B = some C → C.length = max A.length B.length) ∧
    (∀ (E : List Nat) (N : Nat),
      Tensor.extents_to_rank E N = List.replicate (N - E.length) 1 ++ E ∧
      (Tensor.extents_to_rank E N).length = max E.length N) := by
  refine ⟨?_, ?_, ?_, ?_, ?_⟩
  · have hne : A ≠ B := fun h => hrank (by rw [h])
    unfold Tensor.broadcast_extents Tensor.broadcast_extents_helper
    rw [if_neg hne]
  · intro h
    rw [Tensor.broadcast_extents_eq, padLeft_of_le B A.length (by omega)]
    rfl
  · intro h
    rw [Tensor.broadcast_extents_eq, padLeft_of_le A B.length (by omega)]
    rfl
  · intro C hC
    rw [Tensor.broadcast_extents_eq] at hC
    obtain ⟨-, h2, -⟩ := (Tensor.unify_extents_helper_eq_some _ _ C).1 hC
    rw [h2, length_padLeft]
  · intro E N
    rw [Tensor.extents_to_rank_eq]
    exact ⟨rfl, length_padLeft E N⟩

/-- Witness for C2 at `A = [3]`, `B = [2, 1]`. -/
theorem C2_broadcast_extents_pads_left_witness :
    Tensor.broadcast_extents [3] [2, 1] =
      Tensor.unify_extents_helper (List.replicate ([2, 1].length - [3].length) 1 ++ [3]) [2, 1] ∧
    Tensor.unify_extents_helper [1, 3] [2, 1] = some [2, 3] :=
  ⟨(C2_broadcast_extents_pads_left [3] [2, 1] (by decide)).2.1 (by decide), by decide⟩

/-- C3: `is_broadcastable(From, To)` is true exactly when `unify(From, To)` is
defined and equals `To`, which is exactly when `rank From ≤ rank To` and every
dimension of `From`, right-aligned against `To`, is `1` or equals the
dimension of `To` at that place. A dimension `N` with `N ≠ 1` and `N ≠ M` is
not broadcastable to `M` (length 3 to length 4 has no unified extent at all),
and a dimension `N ≠ 1` is not broadcastable to `1`; the same holds for the
one-dimensional `is_broadcastable` of the single header. -/
theorem C3_is_broadcastable_iff (From To : List Nat) :
    (Tensor.is_broadcastable From To = some true ↔
      Tensor.broadcast_extents From To = some To) ∧
    (Tensor.is_broadcastable From To = some true ↔
      From.length ≤ To.length ∧
      ∀ (j a : Nat), From[j]? = some a →
        a = 1 ∨ To[j + (To.length - From.length)]? = some a) ∧
    (∀ N M : Nat, N ≠ 1 → N ≠ M → Tensor.is_broadcastable [N] [M] ≠ some true) ∧
    Tensor.is_broadcastable [3] [4] = none ∧
    (∀ N : Nat, N ≠ 1 → Tensor.is_broadcastable [N] [1] = some false) ∧
    (∀ a b : Nat, Single.is_broadcastable a b = some true ↔
      Single.broadcast_extent a b = some b) ∧
    (∀ a b : Nat, Single.is_broadcastable a b = some true ↔ (a = 1 ∨ a = b)) ∧
    Single.is_broadcastable 3 4 = none ∧
    (∀ N : Nat, N ≠ 1 → Single.is_broadcastable N 1 = some false) := by
  refine ⟨Tensor.is_broadcastable_eq_true From To, ?_, ?_, ?_, ?_,
    Single.is_broadcastable1_eq_true, ?_, by decide, ?_⟩
  · rw [Tensor.is_broadcastable_eq_true, Tensor.broadcast_extents_eq_target]
  · intro N M hN hNM h
    rw [Tensor.is_broadcastable_eq_true, Tensor.broadcast_extents_eq_target] at h
    have := h.2 0 N (by simp)
    simp at this
    omega
  · unfold Tensor.is_broadcastable
    rw [Tensor.broadcast_extents_eq]
    simp [padLeft, Tensor.unify_extents_helper, Tensor.unify_dimension_helper]
  · intro N hN
    unfold Tensor.is_broadcastable
    rw [Tensor.broadcast_extents_eq]
    simp [padLeft, Tensor.unify_extents_helper, Tensor.unify_dimension_helper, hN]
  · intro a b
    rw [Single.is_broadcastable1_eq_true, Single.broadcast_extent_eq_some]
    unfold dimCompatible dimUnified
    split_ifs <;> omega
  · intro N hN
    simp [Single.is_broadcastable, Single.broadcast_extent, Single.broadcast_extent_helper, hN]

/-! ## Claim C4: broadcast is an address-remapping copy -/

/-- C4: for every element type, every target extent `To` of rank at most 3
and every `From` with `is_broadcastable(From, To)`, `broadcast_impl` returns a
storage of `volume To` elements in which, for every index `x` inside `To`,
the element at the row-major position of `x` in `To` is the input element at
the row-major position, within `From` left-padded with `1`s to the rank of
`To`, of `x` with every coordinate of a padded source dimension `1` set to `0`. -/
theorem C4_broadcast_address_remapping {α : Type} (d : α) (From To : List Nat)
    (input : List α) (hrank : To.length ≤ 3)
    (hb : Tensor.is_broadcastable From To = some true)
    (hlen : input.length = volume From) :
    ∃ out, Tensor.broadcast_impl d From To input = .ok out ∧ out.length = volume To ∧
      ∀ x, Inside x To →
        rowMajor To x < volume To ∧
        ∃ v, out[rowMajor To x]? = some v ∧
          input[rowMajor (padLeft From To.length)
            (zeroUnit (padLeft From To.length) x)]? = some v := by
  have hF := Tensor.broadcastable_forall2 From To hb
  have hlen' : input.length = volume (padLeft From To.length) := by
    rw [volume_padLeft, hlen]
  obtain ⟨out, hrun, hout, hR, -⟩ :
      ∃ out, Tensor.broadcast_impl d From To input = .ok out ∧ out.length = volume To ∧
        (∀ o i, (∃ x, Inside x To ∧ o = rowMajor To x ∧
          i = rowMajor (padLeft From To.length) (zeroUnit (padLeft From To.length) x)) →
          o < volume To ∧ out[o]? = input[i]?) ∧ True := by
    unfold Tensor.broadcast_impl
    by_cases hEq : From = To
    · subst hEq
      rw [if_pos rfl]
      refine ⟨input, rfl, hlen, ?_, trivial⟩
      rintro o i ⟨x, hx, rfl, rfl⟩
      rw [padLeft_of_le From From.length (le_refl _), zeroUnit_self hx]
      exact ⟨rowMajor_lt hx, rfl⟩
    · rw [if_neg hEq, if_pos hb, Tensor.extents_to_rank_eq]
      obtain ⟨out, h1, h2, h3, -⟩ :=
        copies_copy_helper (padLeft From To.length) To input hrank hF hlen'
          (List.replicate (volume To) d) (by simp)
      exact ⟨out, h1, h2, h3, trivial⟩
  refine ⟨out, hrun, hout, ?_⟩
  intro x hx
  obtain ⟨hlt, hval⟩ := hR _ _ ⟨x, hx, rfl, rfl⟩
  obtain ⟨v, hv⟩ : ∃ v, out[rowMajor To x]? = some v :=
    ⟨_, List.getElem?_eq_getElem (by omega)⟩
  exact ⟨hlt, v, hv, by rw [← hval, hv]⟩

/-- Witness for C4: the column `[10, 20]` of extent `[2, 1]` broadcast to `[2, 3]`. -/
theorem C4_broadcast_address_remapping_witness :
    Tensor.is_broadcastable [2, 1] [2, 3] = some true ∧
    ∃ out, Tensor.broadcast_impl (0 : Nat) [2, 1] [2, 3] [10, 20] = .ok out ∧
      out.length = volume [2, 3] ∧
      ∀ x, Inside x [2, 3] →
        rowMajor [2, 3] x < volume [2, 3] ∧
        ∃ v, out[rowMajor [2, 3] x]? = some v ∧
          [10, 20][rowMajor (padLeft [2, 1] [2, 3].length)
            (zeroUnit (padLeft [2, 1] [2, 3].length) x)]? = some v :=
  have hb : Tensor.is_broadcastable [2, 1] [2, 3] = some true :=
    (Tensor.is_broadcastable_eq_true _ _).2 (by rw [Tensor.broadcast_extents_eq]; decide)
  ⟨hb, C4_broadcast_address_remapping 0 [2, 1] [2, 3] [10, 20] (by decide) hb (by decide)⟩

/-! ## Lemmas on the apply loops -/

theorem forLoop_writes {β : Type} (body : Nat → List β → Except Fault (List β))
    (v : Nat → β) (N : Nat) (s : List β)
    (hbody : ∀ i, i < N → ∀ r, body i r = wr r i (v i)) (hs : N ≤ s.length) :
    ∃ out, forLoop N body s = .ok out ∧ out.length = s.length ∧
      (∀ i, i < N → out[i]? = some (v i)) ∧ (∀ i, N ≤ i → out[i]? = s[i]?) := by
  induction N with
  | zero => exact ⟨s, rfl, rfl, fun i hi => by omega, fun _ _ => rfl⟩
  | succ n ih =>
    obtain ⟨out1, h1, hl1, hv1, hf1⟩ := ih (fun i hi => hbody i (by omega)) (by omega)
    refine ⟨out1.set n (v n), ?_, by simp [hl1], ?_, ?_⟩
    · simp only [forLoop, h1, hbody n (by omega), wr]
      rw [if_pos (by omega)]
    · intro i hi
      by_cases hin : i = n
      · subst hin
        rw [List.getElem?_set_self (by omega)]
      · rw [List.getElem?_set_ne (by omega)]
        exact hv1 i (by omega)
    · intro i hi
      rw [List.getElem?_set_ne (by omega)]
      exact hf1 i (by omega)

theorem rd_eq_ok {α : Type} (s : List α) (i : Nat) (a : α) (h : s[i]? = some a) :
    rd s i = .ok a := by
  simp [rd, h]

theorem read_inputs_ok {α : Type} (inputs : List (List α)) (i : Nat) (args : List α)
    (h : List.Forall₂ (fun inp a => inp[i]? = some a) inputs args) :
    Single.read_inputs inputs i = .ok args := by
  induction h with
  | nil => rfl
  | @cons inp a rest as ha _ ih =>
    simp only [Single.read_inputs, rd_eq_ok inp i a ha, ih]
    rfl

theorem forall2_filterMap_getElem {α : Type} (inputs : List (List α)) (i : Nat)
    (h : ∀ inp ∈ inputs, i < inp.length) :
    List.Forall₂ (fun inp a => inp[i]? = some a) inputs
      (inputs.filterMap (fun inp => inp[i]?)) := by
  induction inputs with
  | nil => exact List.Forall₂.nil
  | cons inp rest ih =>
    have hi : i < inp.length := h inp (List.mem_cons_self _ _)
    have hget : inp[i]? = some inp[i] := List.getElem?_eq_getElem hi
    simp only [List.filterMap_cons, hget]
    exact List.Forall₂.cons hget (ih (fun x hx => h x (List.mem_cons_of_mem _ hx)))

theorem Single.apply_impl1_spec {α β : Type} (d : β) (N : Nat) (fn : α → β)
    (input : List α) (hlen : input.length = N) :
    Single.apply_impl1 d N fn input = .ok (input.map fn) := by
  obtain ⟨out, h1, h2, h3, -⟩ := forLoop_writes
    (fun i result => do
      let a ← rd input i
      wr result i (fn a))
    (fun i => match input[i]? with
      | some a => fn a
      | none => d) N (List.replicate N d)
    (by
      intro i hi r
      have hget : input[i]? = some input[i] := List.getElem?_eq_getElem (by omega)
      simp only [rd_eq_ok input i _ hget, hget]
      rfl)
    (by simp)
  unfold Single.apply_impl1
  rw [h1]
  congr 1
  apply List.ext_getElem?
  intro i
  by_cases hi : i < N
  · have hget : input[i]? = some input[i] := List.getElem?_eq_getElem (by omega)
    rw [h3 i hi, List.getElem?_map, hget]
    rfl
  · rw [List.getElem?_eq_none (by simp at h2; omega),
      List.getElem?_eq_none (by simp; omega)]

theorem Single.apply_impl2_spec {α β γ : Type} (d : γ) (N : Nat) (fn : α → β → γ)
    (left : List α) (right : List β) (hl : left.length = N) (hr : right.length = N) :
    Single.apply_impl2 d N fn left right = .ok (List.zipWith fn left right) := by
  obtain ⟨out, h1, h2, h3, -⟩ := forLoop_writes
    (fun i result => do
      let a ← rd left i
      let b ← rd right i
      wr result i (fn a b))
    (fun i => match left[i]?, right[i]? with
      | some a, some b => fn a b
      | _, _ => d) N (List.replicate N d)
    (by
      intro i hi r
      have hgl : left[i]? = some left[i] := List.getElem?_eq_getElem (by omega)
      have hgr : right[i]? = some right[i] := List.getElem?_eq_getElem (by omega)
      simp only [rd_eq_ok left i _ hgl, rd_eq_ok right i _ hgr, hgl, hgr]
      rfl)
    (by simp)
  unfold Single.apply_impl2
  rw [h1]
  congr 1
  apply List.ext_getElem?
  intro i
  by_cases hi : i < N
  · have hgl : left[i]? = some left[i] := List.getElem?_eq_getElem (by omega)
    have hgr : right[i]? = some right[i] := List.getElem?_eq_getElem (by omega)
    rw [h3 i hi, List.getElem?_zipWith, hgl, hgr]
  · rw [List.getElem?_eq_none (by simp at h2; omega),
      List.getElem?_eq_none (by simp; omega)]

/-! ## Claim C5: the generic apply loop -/

/-- C5: for every functor `fn` of `k` arguments, every length `N` and every
`k` input storages of length `N`, the generic `apply_impl` returns a storage
of length `N` whose element `i` is `fn` applied to the elements `i` of the
inputs, for every `i < N`; in particular, for one and for two inputs the
result is the element-wise `map` and `zipWith`. -/
theorem C5_apply_impl_elementwise {α β : Type} (d : β) (N : Nat) (fn : List α → β)
    (inputs : List (List α)) (hlen : ∀ inp ∈ inputs, inp.length = N) :
    (∃ out, Single.apply_impl d N fn inputs = .ok out ∧ out.length = N ∧
      ∀ i, i < N → ∃ args,
        List.Forall₂ (fun inp a => inp[i]? = some a) inputs args ∧
        out[i]? = some (fn args)) ∧
    (∀ (f1 : α → β) (input : List α), input.length = N →
      Single.apply_impl1 d N f1 input = .ok (input.map f1)) ∧
    (∀ (f2 : α → α → β) (left right : List α), left.length = N → right.length = N →
      Single.apply_impl2 d N f2 left right = .ok (List.zipWith f2 left right)) := by
  refine ⟨?_, fun f1 input h => Single.apply_impl1_spec d N f1 input h,
    fun f2 l r hl hr => Single.apply_impl2_spec d N f2 l r hl hr⟩
  have hargs : ∀ i, i < N → List.Forall₂ (fun inp a => inp[i]? = some a) inputs
      (inputs.filterMap (fun inp => inp[i]?)) := fun i hi =>
    forall2_filterMap_getElem inputs i (fun inp hinp => by rw [hlen inp hinp]; exact hi)
  obtain ⟨out, h1, h2, h3, -⟩ := forLoop_writes
    (fun i result => do
      let args ← Single.read_inputs inputs i
      wr result i (fn args))
    (fun i => fn (inputs.filterMap (fun inp => inp[i]?))) N (List.replicate N d)
    (by
      intro i hi r
      simp only [read_inputs_ok inputs i _ (hargs i hi)]
      rfl)
    (by simp)
  refine ⟨out, h1, by simpa using h2, ?_⟩
  intro i hi
  exact ⟨_, hargs i hi, h3 i hi⟩

/-- Witness for C5: a three-argument sum over three storages of length 2. -/
theorem C5_apply_impl_elementwise_witness :
    ∃ out, Single.apply_impl (0 : Nat) 2 (fun args => args.sum)
        [[1, 2], [10, 20], [100, 200]] = .ok out ∧ out.length = 2 ∧
      ∀ i, i < 2 → ∃ args,
        List.Forall₂ (fun inp a => inp[i]? = some a) [[1, 2], [10, 20], [100, 200]] args ∧
        out[i]? = some (args.sum) :=
  (C5_apply_impl_elementwise (0 : Nat) 2 (fun args => args.sum)
    [[1, 2], [10, 20], [100, 200]] (by decide)).1

/-! ## Claims C6 and C7: the packed-lane apply specialisations -/

theorem rd_eq_error {α : Type} (s : List α) (i : Nat) (h : s.length ≤ i) :
    rd s i = .error (.read_out_of_bounds i) := by
  simp [rd, List.getElem?_eq_none h]

theorem rd_eq_getElem {α : Type} (s : List α) (i : Nat) (h : i < s.length) :
    rd s i = .ok s[i] :=
  rd_eq_ok s i _ (List.getElem?_eq_getElem h)

theorem wr_eq_ok {α : Type} (s : List α) (i : Nat) (v : α) (h : i < s.length) :
    wr s i v = .ok (s.set i v) := by
  simp [wr, h]

/-- With an odd length, the pair loop of the one-input specialisation reaches
the last element as the first half of a pair and reads one element past the
end of the input. -/
theorem forLoopBy2_map_overrun {α : Type} (N : Nat) (mapx2 : α × α → α × α)
    (input : List α) (hlen : input.length = N) (k i : Nat) (hk : N = i + 2 * k + 1)
    (s : List α) (hs : s.length = N) :
    forLoopBy2 N (fun i result => do
      let a0 ← rd input i
      let a1 ← rd input (i + 1)
      let b := mapx2 (a0, a1)
      let result ← wr result (i + 0) b.1
      wr result (i + 1) b.2) i s = .error (.read_out_of_bounds N) := by
  induction k generalizing i s with
  | zero =>
    rw [forLoopBy2, if_pos (by omega)]
    have h1 : i + 1 = N := by omega
    simp only [rd_eq_getElem input i (by omega), h1, rd_eq_error input N (by omega)]
    rfl
  | succ k ih =>
    rw [forLoopBy2, if_pos (by omega)]
    simp only [rd_eq_getElem input i (by omega), rd_eq_getElem input (i + 1) (by omega),
      Nat.add_zero]
    have hw1 : ∀ v, wr s i v = .ok (s.set i v) := fun v => wr_eq_ok s i v (by omega)
    have hw2 : ∀ v w, wr (s.set i v) (i + 1) w = .ok ((s.set i v).set (i + 1) w) :=
      fun v w => wr_eq_ok _ _ _ (by simp; omega)
    simp only [bind, Except.bind, hw1, hw2]
    exact ih (i + 2) (by omega) _ (by simp [hs])

/-- C6, evaluated on the code: for two lanes, the two-input packed
specialisation with the primary `zip_halfx2` returns `[F(l0, l1), F(r1, r1)]`
where the generic path returns `[F(l0, r0), F(l1, r1)]`; with subtraction on
`[5, 2]` and `[1, 3]` that is `[3, 0]` against `[4, -1]`. -/
theorem C6_packed_zip_pairs_wrong_operands :
    (∀ (α : Type) (d : α) (fn : α → α → α) (l0 l1 r0 r1 : α),
      Single.apply_impl_half2 d 2 (Single.zip_halfx2 fn) fn [l0, l1] [r0, r1] =
        .ok [fn l0 l1, fn r1 r1] ∧
      Single.apply_impl2 d 2 fn [l0, l1] [r0, r1] = .ok [fn l0 r0, fn l1 r1]) ∧
    Single.apply_impl_half2 (0 : Int) 2 (Single.zip_halfx2 (fun a b => a - b))
      (fun a b => a - b) [5, 2] [1, 3] = .ok [3, 0] ∧
    Single.apply_impl2 (0 : Int) 2 (fun a b => a - b) [5, 2] [1, 3] = .ok [4, -1] := by
  have key : ∀ (α : Type) (d : α) (fn : α → α → α) (l0 l1 r0 r1 : α),
      Single.apply_impl_half2 d 2 (Single.zip_halfx2 fn) fn [l0, l1] [r0, r1] =
        .ok [fn l0 l1, fn r1 r1] ∧
      Single.apply_impl2 d 2 fn [l0, l1] [r0, r1] = .ok [fn l0 r0, fn l1 r1] := by
    intro α d fn l0 l1 r0 r1
    constructor
    · simp [Single.apply_impl_half2, forLoopBy2, rd, wr, Single.zip_halfx2, bind, Except.bind,
        pure, Except.pure]
    · rw [Single.apply_impl2_spec d 2 fn [l0, l1] [r0, r1] rfl rfl]
      rfl
  refine ⟨key, ?_, ?_⟩
  · exact (key Int 0 (fun a b => a - b) 5 2 1 3).1
  · exact (key Int 0 (fun a b => a - b) 5 2 1 3).2

/-- C7, evaluated on the code: for every odd length `N` the one-input packed
specialisation does not stop before the trailing element: the pair loop runs
at `i = N - 1` and reads `input[N]`, one element past the end, whatever the
functor; the generic path on the same input returns `input.map fn`. -/
theorem C7_packed_map_odd_length_overruns {α : Type} (d : α) (N : Nat) (hodd : N % 2 = 1)
    (mapx2 : α × α → α × α) (fn : α → α) (input : List α) (hlen : input.length = N) :
    Single.apply_impl_half d N mapx2 fn input = .error (.read_out_of_bounds N) ∧
    Single.apply_impl1 d N fn input = .ok (input.map fn) := by
  refine ⟨?_, Single.apply_impl1_spec d N fn input hlen⟩
  unfold Single.apply_impl_half
  rw [forLoopBy2_map_overrun N mapx2 input hlen (N / 2) 0 (by omega) _ (by simp)]
  rfl

/-- Witness for C7 at `N = 3`: the failing input `[5, 2, 7]`. -/
theorem C7_packed_map_odd_length_overruns_witness :
    Single.apply_impl_half (0 : Int) 3 (Single.map_halfx2 (fun a => a + 1))
      (fun a => a + 1) [5, 2, 7] = .error (.read_out_of_bounds 3) ∧
    Single.apply_impl1 (0 : Int) 3 (fun a => a + 1) [5, 2, 7] = .ok ([5, 2, 7].map (fun a => a + 1)) :=
  C7_packed_map_odd_length_overruns 0 3 (by decide) _ _ [5, 2, 7] rfl

/-! ## Claims C8 and C9: reduce -/

theorem make_index_sequence_succ (n : Nat) (h : n + 1 ≤ 17) :
    Single.make_index_sequence (n + 1) = some (0 :: List.range' 1 n) := by
  unfold Single.make_index_sequence
  rw [if_pos h, List.range_eq_range', List.range'_succ]

theorem make_index_sequence_large (N : Nat) (h : 17 < N) :
    Single.make_index_sequence N = none := by
  unfold Single.make_index_sequence
  rw [if_neg (by omega)]

/-- The accumulator loop of the single header folds the elements after the first. -/
theorem forLoopFrom_fold {α : Type} (fn : α → α → α) (v0 : α) (rest : List α) (n : Nat)
    (hn : n ≤ rest.length + 1) :
    forLoopFrom 1 n (fun i result => do
      let v ← rd (v0 :: rest) i
      pure (fn result v)) v0 = .ok ((rest.take (n - 1)).foldl fn v0) := by
  induction n with
  | zero => rfl
  | succ n ih =>
    unfold forLoopFrom
    by_cases h1 : 1 ≤ n
    · rw [if_pos h1, ih (by omega)]
      obtain ⟨m, rfl⟩ : ∃ m, n = m + 1 := ⟨n - 1, by omega⟩
      have hm : m < rest.length := by omega
      have hrd : rd (v0 :: rest) (m + 1) = .ok rest[m] := by
        rw [rd_eq_getElem (v0 :: rest) (m + 1) (by simp; omega)]
        rfl
      simp only [hrd, Nat.add_sub_cancel]
      rw [List.take_succ, List.getElem?_eq_getElem hm, List.foldl_append]
      rfl
    · rw [if_neg h1]
      have : n = 0 := by omega
      subst this
      rfl

/-- The index-sequence recursion of `reduce.h` folds the elements it is given
the indices of. -/
theorem reduce_call_fold {α : Type} (fn : α → α → α) (v0 : α) (rest : List α) (m k : Nat)
    (acc : α) (hk : k + m = rest.length) :
    Tensor.reduce_call fn (v0 :: rest) acc (List.range' (k + 1) m) =
      .ok ((rest.drop k).foldl fn acc) := by
  induction m generalizing k acc with
  | zero =>
    rw [List.drop_of_length_le (by omega)]
    rfl
  | succ m ih =>
    have hlt : k < rest.length := by omega
    have hrd : rd (v0 :: rest) (k + 1) = .ok rest[k] := by
      rw [rd_eq_getElem (v0 :: rest) (k + 1) (by simp; omega)]
      rfl
    rw [List.range'_succ, Tensor.reduce_call]
    simp only [hrd]
    rw [List.drop_eq_getElem_cons hlt, List.foldl_cons]
    exact ih (k + 1) (fn acc rest[k]) (by omega)

theorem Single.reduce_loop_spec {α : Type} (fn : α → α → α) (v0 : α) (rest : List α)
    (h : rest.length + 1 ≤ 17) :
    Single.reduce_helper (rest.length + 1) fn (v0 :: rest) = .ok (rest.foldl fn v0) := by
  unfold Single.reduce_helper
  rw [make_index_sequence_succ rest.length h]
  have hrd : rd (v0 :: rest) 0 = .ok v0 := by simp [rd]
  simp only [hrd]
  have := forLoopFrom_fold fn v0 rest (rest.length + 1) (le_refl _)
  rw [Nat.add_sub_cancel, List.take_length] at this
  exact this

theorem Tensor.reduce_recursion_spec {α : Type} (fn : α → α → α) (v0 : α) (rest : List α)
    (h : rest.length + 1 ≤ 17) :
    Tensor.reduce_helper fn (v0 :: rest) = .ok (rest.foldl fn v0) := by
  unfold Tensor.reduce_helper
  rw [List.length_cons, make_index_sequence_succ rest.length h]
  have hrd : rd (v0 :: rest) 0 = .ok v0 := by simp [rd]
  simp only [hrd]
  exact reduce_call_fold fn v0 rest rest.length 0 v0 (by omega)

/-- The function `reduce` of the single header on `v0 :: rest`, for an element
type that selects the primary `reduce_helper` or for at most two elements. -/
theorem Single.reduce_left_fold {α : Type} (T : ScalarType) (fn : α → α → α)
    (zipx2 : α × α → α × α → α × α) (v0 : α) (rest : List α)
    (hN : rest.length + 1 ≤ 17)
    (hT : T = .half ∨ T = .bfloat16 → rest.length + 1 ≤ 2) :
    Single.reduce T (rest.length + 1) fn zipx2 (v0 :: rest) = .ok (rest.foldl fn v0) := by
  unfold Single.reduce
  by_cases hp : T = .half ∨ T = .bfloat16
  · rw [if_pos hp]
    have h2 := hT hp
    match rest, h2 with
    | [], _ =>
      unfold Single.reduce_helper_half
      rw [if_neg (by simp)]
      exact Single.reduce_loop_spec fn v0 [] (by simp)
    | [v1], _ =>
      simp [Single.reduce_helper_half, forLoopBy2, rd, bind, Except.bind, pure, Except.pure]
    | _ :: _ :: _, h => simp at h
  · rw [if_neg hp]
    exact Single.reduce_loop_spec fn v0 rest hN

/-- C8 fails as stated. A vector of 18 `int` elements has no
`make_index_sequence<18>`, so neither header has a `reduce` for it. A vector
of four `__half` elements goes to the packed `reduce_helper`, which folds the
pairs lane by lane and then combines the two lanes: with the lane-wise paired
subtraction, `reduce(subtract, [1, 2, 3, 4])` is `(1 - 3) - (2 - 4) = 0` where
the left fold gives `-8`; with the primary `zip_halfx2` of a functor without a
paired form, `reduce(add, [1, 2, 3, 4])` is `11` where the left fold gives
`10`. -/
theorem C8_reduce_is_not_always_the_left_fold :
    Single.reduce .signed_int 18 (fun a b : Int => a + b)
        (Single.zip_halfx2 (fun a b : Int => a + b)) (List.replicate 18 1) =
      .error .ill_formed ∧
    Tensor.reduce (fun a b : Int => a + b) (List.replicate 18 1) = .error .ill_formed ∧
    Single.reduce .half 4 (fun a b : Int => a - b)
        (fun l r => (l.1 - r.1, l.2 - r.2)) [1, 2, 3, 4] = .ok 0 ∧
    Single.reduce .bfloat16 4 (fun a b : Int => a - b)
        (fun l r => (l.1 - r.1, l.2 - r.2)) [1, 2, 3, 4] = .ok 0 ∧
    ([2, 3, 4] : List Int).foldl (fun a b => a - b) 1 = -8 ∧
    Single.reduce .half 4 (fun a b : Int => a + b)
        (Single.zip_halfx2 (fun a b : Int => a + b)) [1, 2, 3, 4] = .ok 11 ∧
    ([2, 3, 4] : List Int).foldl (fun a b => a + b) 1 = 10 := by
  refine ⟨?_, ?_, ?_, ?_, by decide, ?_, by decide⟩
  · unfold Single.reduce Single.reduce_helper
    rw [if_neg (by decide), make_index_sequence_large 18 (by decide)]
  · unfold Tensor.reduce Tensor.reduce_helper
    rw [List.length_replicate, make_index_sequence_large 18 (by decide)]
  · simp [Single.reduce, Single.reduce_helper_half, forLoopBy2, rd, bind, Except.bind, pure,
      Except.pure]
  · simp [Single.reduce, Single.reduce_helper_half, forLoopBy2, rd, bind, Except.bind, pure,
      Except.pure]
  · simp [Single.reduce, Single.reduce_helper_half, Single.zip_halfx2, forLoopBy2, rd, bind,
      Except.bind, pure, Except.pure]

/-- C8, amended: for every binary functor `fn` and every vector `v0 :: rest` of
`N` elements with `1 ≤ N ≤ 17`, of an element type `T` other than `__half` and
`__nv_bfloat16` or with `N ≤ 2`, `reduce` of the single header (the loop) and
`reduce` of `reduce.h` (the index-sequence recursion) both return the left
fold that starts with `acc = v0` and sets `acc = fn acc v[i]` for
`i = 1, ..., N - 1` in increasing order, as do the two primary `reduce_helper`
templates; for `N = 1` that is `v0` for every element type, without any call of
`fn`; and `reduce(add, [5,0,2,1,0]) = 8`, `reduce(multiply, [5,0,2,1,0]) = 0`
on `int`. -/
theorem C8_reduce_is_left_fold {α : Type} (T : ScalarType) (fn : α → α → α)
    (zipx2 : α × α → α × α → α × α) (v0 : α) (rest : List α)
    (hN : rest.length + 1 ≤ 17)
    (hT : T = .half ∨ T = .bfloat16 → rest.length + 1 ≤ 2) :
    Single.reduce T (rest.length + 1) fn zipx2 (v0 :: rest) = .ok (rest.foldl fn v0) ∧
    Tensor.reduce fn (v0 :: rest) = .ok (rest.foldl fn v0) ∧
    Single.reduce_helper (rest.length + 1) fn (v0 :: rest) = .ok (rest.foldl fn v0) ∧
    Tensor.reduce_helper fn (v0 :: rest) = .ok (rest.foldl fn v0) ∧
    (∀ T1 : ScalarType, Single.reduce T1 1 fn zipx2 [v0] = .ok v0) ∧
    Tensor.reduce fn [v0] = .ok v0 ∧
    Single.reduce_helper 1 fn [v0] = .ok v0 ∧
    Tensor.reduce_helper fn [v0] = .ok v0 ∧
    Single.reduce .signed_int 5 (ops_add (integer_conversion true 32))
      (Single.zip_halfx2 (ops_add (integer_conversion true 32))) [5, 0, 2, 1, 0] = .ok 8 ∧
    Single.reduce .signed_int 5 (ops_multiply (integer_conversion true 32))
      (Single.zip_halfx2 (ops_multiply (integer_conversion true 32))) [5, 0, 2, 1, 0] =
        .ok 0 ∧
    Tensor.reduce (ops_add (integer_conversion true 32)) [5, 0, 2, 1, 0] = .ok 8 ∧
    Tensor.reduce (ops_multiply (integer_conversion true 32)) [5, 0, 2, 1, 0] = .ok 0 ∧
    Single.reduce_helper 5 (fun a b : Int => a + b) [5, 0, 2, 1, 0] = .ok 8 ∧
    Single.reduce_helper 5 (fun a b : Int => a * b) [5, 0, 2, 1, 0] = .ok 0 ∧
    Tensor.reduce_helper (fun a b : Int => a + b) [5, 0, 2, 1, 0] = .ok 8 ∧
    Tensor.reduce_helper (fun a b : Int => a * b) [5, 0, 2, 1, 0] = .ok 0 :=
  ⟨Single.reduce_left_fold T fn zipx2 v0 rest hN hT,
    Tensor.reduce_recursion_spec fn v0 rest hN,
    Single.reduce_loop_spec fn v0 rest hN, Tensor.reduce_recursion_spec fn v0 rest hN,
    fun T1 => Single.reduce_left_fold T1 fn zipx2 v0 [] (by simp) (fun _ => by simp),
    Tensor.reduce_recursion_spec fn v0 [] (by simp),
    Single.reduce_loop_spec fn v0 [] (by simp),
    Tensor.reduce_recursion_spec fn v0 [] (by simp),
    Single.reduce_left_fold .signed_int _ _ 5 [0, 2, 1, 0] (by decide) (by decide),
    Single.reduce_left_fold .signed_int _ _ 5 [0, 2, 1, 0] (by decide) (by decide),
    Tensor.reduce_recursion_spec _ 5 [0, 2, 1, 0] (by decide),
    Tensor.reduce_recursion_spec _ 5 [0, 2, 1, 0] (by decide),
    Single.reduce_loop_spec _ 5 [0, 2, 1, 0] (by decide),
    Single.reduce_loop_spec _ 5 [0, 2, 1, 0] (by decide),
    Tensor.reduce_recursion_spec _ 5 [0, 2, 1, 0] (by decide),
    Tensor.reduce_recursion_spec _ 5 [0, 2, 1, 0] (by decide)⟩

/-- Witness for C8 (amended) on the `int` vector `[7, 1, 2]` and on the `__half`
vector `[7, 1]`, with subtraction. -/
theorem C8_reduce_is_left_fold_witness :
    Single.reduce .signed_int 3 (fun a b : Int => a - b)
      (fun l r => (l.1 - r.1, l.2 - r.2)) [7, 1, 2] = .ok 4 ∧
    Tensor.reduce (fun a b : Int => a - b) [7, 1, 2] = .ok 4 ∧
    Single.reduce .half 2 (fun a b : Int => a - b)
      (fun l r => (l.1 - r.1, l.2 - r.2)) [7, 1] = .ok 6 :=
  ⟨(C8_reduce_is_left_fold .signed_int (fun a b : Int => a - b)
      (fun l r => (l.1 - r.1, l.2 - r.2)) 7 [1, 2] (by decide) (by decide)).1,
    (C8_reduce_is_left_fold .signed_int (fun a b : Int => a - b)
      (fun l r => (l.1 - r.1, l.2 - r.2)) 7 [1, 2] (by decide) (by decide)).2.1,
    (C8_reduce_is_left_fold .half (fun a b : Int => a - b)
      (fun l r => (l.1 - r.1, l.2 - r.2)) 7 [1] (by decide) (by decide)).1⟩

/-- C9, evaluated on the code: on four elements the packed reduce with the
primary `zip_halfx2` returns `F(F(v0, v1), F(v3, v3))`, never reading a value
from `v2` into the result, where the generic fold returns
`F(F(F(v0, v1), v2), v3)`; with addition on `[1, 2, 3, 4]` that is `11`
against `10`. On three elements the pair loop runs at `i = 2` and reads
`input[3]`, past the end, whichever paired zip is used. -/
theorem C9_packed_reduce_diverges :
    (∀ (α : Type) (fn : α → α → α) (v0 v1 v2 v3 : α),
      Single.reduce_helper_half 4 (Single.zip_halfx2 fn) fn [v0, v1, v2, v3] =
        .ok (fn (fn v0 v1) (fn v3 v3)) ∧
      Single.reduce_helper 4 fn [v0, v1, v2, v3] = .ok (fn (fn (fn v0 v1) v2) v3)) ∧
    Single.reduce_helper_half 4 (Single.zip_halfx2 (fun a b : Int => a + b))
      (fun a b => a + b) [1, 2, 3, 4] = .ok 11 ∧
    Single.reduce_helper 4 (fun a b : Int => a + b) [1, 2, 3, 4] = .ok 10 ∧
    (∀ (α : Type) (zipx2 : α × α → α × α → α × α) (fn : α → α → α) (v0 v1 v2 : α),
      Single.reduce_helper_half 3 zipx2 fn [v0, v1, v2] = .error (.read_out_of_bounds 3)) := by
  have key : ∀ (α : Type) (fn : α → α → α) (v0 v1 v2 v3 : α),
      Single.reduce_helper_half 4 (Single.zip_halfx2 fn) fn [v0, v1, v2, v3] =
        .ok (fn (fn v0 v1) (fn v3 v3)) ∧
      Single.reduce_helper 4 fn [v0, v1, v2, v3] = .ok (fn (fn (fn v0 v1) v2) v3) := by
    intro α fn v0 v1 v2 v3
    constructor
    · simp [Single.reduce_helper_half, forLoopBy2, rd, Single.zip_halfx2, bind, Except.bind,
        pure, Except.pure]
    · exact Single.reduce_loop_spec fn v0 [v1, v2, v3] (by simp)
  refine ⟨key, (key Int _ 1 2 3 4).1, (key Int _ 1 2 3 4).2, ?_⟩
  intro α zipx2 fn v0 v1 v2
  simp [Single.reduce_helper_half, forLoopBy2, rd, bind, Except.bind]

/-! ## Claim C10: `zip_common` -/

theorem Single.broadcast_impl_replicate {α : Type} (d : α) (To : Nat) (a : α)
    (hTo : To ≠ 1) : Single.broadcast_impl d 1 To [a] = .ok (List.replicate To a) := by
  unfold Single.broadcast_impl
  rw [if_neg (by simp [hTo]), if_pos rfl]
  obtain ⟨out, h1, h2, h3, -⟩ := forLoop_writes
    (fun i output => do
      let v ← rd [a] 0
      wr output i v)
    (fun _ => a) To (List.replicate To d) (fun i _ r => rfl) (by simp)
  rw [h1]
  congr 1
  apply List.ext_getElem?
  intro i
  by_cases hi : i < To
  · rw [h3 i hi, List.getElem?_replicate, if_pos hi]
  · rw [List.getElem?_eq_none (by simp at h2; omega),
      List.getElem?_eq_none (by simp; omega)]

/-- The conversion of one operand of `zip_common` to the promoted type and the
unified extent: element `p` of the result is the cast of the element of the
input that the broadcast remaps `p` to. -/
theorem Single.convert_helper_spec {V : Type} (conv : ScalarType → ScalarType → V → V)
    (d : V) (T : ScalarType) (E : Nat) (T2 : ScalarType) (E2 : Nat) (input : List V)
    (hlen : input.length = E) (hE : E = E2 ∨ (E = 1 ∧ E2 ≠ 1)) :
    ∃ out, Single.convert_helper conv d T E T2 E2 .ANY input = .ok out ∧ out.length = E2 ∧
      ∀ p, p < E2 → ∃ a, input[if E = 1 then 0 else p]? = some a ∧
        out[p]? = some (if T = T2 then a else conv T T2 a) := by
  have hcast : ∀ (h : T ≠ T2), ops_cast conv T T2 .ANY = some (conv T T2) := by
    intro h
    simp [ops_cast, h]
  have hidx : ∀ p, p < E2 → E = E2 → input[if E = 1 then 0 else p]? = input[p]? := by
    intro p hp hEq
    split_ifs with h1
    · have : p = 0 := by omega
      rw [this]
    · rfl
  unfold Single.convert_helper
  by_cases hT : T = T2
  · by_cases hEq : E = E2
    · rw [if_pos ⟨hT, hEq⟩]
      refine ⟨input, rfl, by omega, ?_⟩
      intro p hp
      obtain ⟨a, ha⟩ : ∃ a, input[p]? = some a := ⟨_, List.getElem?_eq_getElem (by omega)⟩
      exact ⟨a, by rw [hidx p hp hEq, ha], by rw [if_pos hT, ha]⟩
    · rw [if_neg (by tauto), if_pos hT]
      obtain ⟨h1, h2⟩ : E = 1 ∧ E2 ≠ 1 := by tauto
      subst h1
      obtain ⟨a, rfl⟩ : ∃ a, input = [a] := List.length_eq_one.1 hlen
      rw [Single.broadcast_impl_replicate d E2 a h2]
      refine ⟨_, rfl, by simp, ?_⟩
      intro p hp
      exact ⟨a, by simp, by simp [hT, List.getElem?_replicate, hp]⟩
  · by_cases hEq : E = E2
    · rw [if_neg (by tauto), if_neg hT, if_pos hEq, hcast hT]
      simp only [Single.apply_impl1_spec d E (conv T T2) input hlen]
      refine ⟨_, rfl, by simp; omega, ?_⟩
      intro p hp
      obtain ⟨a, ha⟩ : ∃ a, input[p]? = some a := ⟨_, List.getElem?_eq_getElem (by omega)⟩
      exact ⟨a, by rw [hidx p hp hEq, ha], by rw [if_neg hT, List.getElem?_map, ha]; rfl⟩
    · rw [if_neg (by tauto), if_neg hT, if_neg hEq, hcast hT]
      obtain ⟨h1, h2⟩ : E = 1 ∧ E2 ≠ 1 := by tauto
      subst h1
      obtain ⟨a, rfl⟩ : ∃ a, input = [a] := List.length_eq_one.1 hlen
      simp only [Single.apply_impl1_spec d 1 (conv T T2) [a] rfl, List.map_cons, List.map_nil]
      refine ⟨List.replicate E2 (conv T T2 a), ?_, by simp, ?_⟩
      · exact Single.broadcast_impl_replicate d E2 (conv T T2 a) h2
      · intro p hp
        exact ⟨a, by simp, by simp [hT, List.getElem?_replicate, hp]⟩

/-- Outside the packed specialisations, `zip_common` is the element-wise
application of `fn` to both operands cast to the promoted type and broadcast
to the unified extent. -/
theorem Single.zip_common_primary {V : Type} (conv : ScalarType → ScalarType → V → V)
    (d : V) (result_t : ScalarType → ScalarType) (zipx2 : V × V → V × V → V × V)
    (fn : V → V → V) (TL : ScalarType) (EL : Nat) (left : List V)
    (TR : ScalarType) (ER : Nat) (right : List V) (T : ScalarType) (E : Nat)
    (hT : promote_type TL TR = some T) (hE : Single.broadcast_extent EL ER = some E)
    (hl : left.length = EL) (hr : right.length = ER)
    (hprimary : ¬ ((result_t T = .half ∧ T = .half) ∨ (result_t T = .bfloat16 ∧ T = .bfloat16))) :
    ∃ out, Single.zip_common conv d result_t zipx2 fn TL EL left TR ER right = .ok out ∧
      out.length = E ∧
      ∀ p, p < E → ∃ a b,
        left[if EL = 1 then 0 else p]? = some a ∧
        right[if ER = 1 then 0 else p]? = some b ∧
        out[p]? = some (fn (if TL = T then a else conv TL T a)
          (if TR = T then b else conv TR T b)) := by
  obtain ⟨hc, hu⟩ := (Single.broadcast_extent_eq_some EL ER E).1 hE
  have hEL : EL = E ∨ (EL = 1 ∧ E ≠ 1) := by
    unfold dimCompatible dimUnified at *
    split_ifs at hu <;> omega
  have hER : ER = E ∨ (ER = 1 ∧ E ≠ 1) := by
    unfold dimCompatible dimUnified at *
    split_ifs at hu <;> omega
  obtain ⟨l, hl1, hl2, hl3⟩ := Single.convert_helper_spec conv d TL EL T E left hl hEL
  obtain ⟨r, hr1, hr2, hr3⟩ := Single.convert_helper_spec conv d TR ER T E right hr hER
  refine ⟨List.zipWith fn l r, ?_, by simp [hl2, hr2], ?_⟩
  · unfold Single.zip_common
    simp only [hT, hE, hl1, hr1, bind, Except.bind]
    unfold Single.apply_impl_zip
    rw [if_neg (by tauto)]
    exact Single.apply_impl2_spec d E fn l r hl2 hr2
  · intro p hp
    obtain ⟨a, ha1, ha2⟩ := hl3 p hp
    obtain ⟨b, hb1, hb2⟩ := hr3 p hp
    exact ⟨a, b, ha1, hb1, by rw [List.getElem?_zipWith, ha2, hb2]⟩

/-- C10, evaluated on the code: when both operands are `__half` vectors and the
functor returns `__half`, `zip_common` goes through the packed two-input
specialisation. With the primary `zip_halfx2` two lanes give
`[F(l0, l1), F(r1, r1)]` instead of `[F(l0, r0), F(l1, r1)]` (subtraction on
`[5, 2]` and `[1, 3]`: `[3, 0]` instead of `[4, -1]`), and on three lanes the
pair loop reads `left[3]`, past the end, whichever paired zip is used. -/
theorem C10_zip_common_half_operands :
    (∀ (V : Type) (conv : ScalarType → ScalarType → V → V) (d : V) (fn : V → V → V)
        (l0 l1 r0 r1 : V),
      Single.zip_common conv d (fun T => T) (Single.zip_halfx2 fn) fn
        .half 2 [l0, l1] .half 2 [r0, r1] = .ok [fn l0 l1, fn r1 r1]) ∧
    Single.zip_common (fun _ _ v => v) (0 : Int) (fun T => T)
        (Single.zip_halfx2 (fun a b => a - b)) (fun a b => a - b)
        .half 2 [5, 2] .half 2 [1, 3] = .ok [3, 0] ∧
    Single.zip_common (fun _ _ v => v) (0 : Int) (fun T => T)
        (Single.zip_halfx2 (fun a b => a - b)) (fun a b => a - b)
        .half 2 [5, 2] .half 2 [1, 3] ≠ .ok [5 - 1, 2 - 3] ∧
    (∀ (V : Type) (conv : ScalarType → ScalarType → V → V) (d : V)
        (zipx2 : V × V → V × V → V × V) (fn : V → V → V) (l0 l1 l2 r0 r1 r2 : V),
      Single.zip_common conv d (fun T => T) zipx2 fn
        .half 3 [l0, l1, l2] .half 3 [r0, r1, r2] = .error (.read_out_of_bounds 3)) := by
  have hT : promote_type .half .half = some .half := by decide
  have hconv : ∀ (V : Type) (conv : ScalarType → ScalarType → V → V) (d : V) (N : Nat)
      (x : List V), Single.convert_helper conv d .half N .half N .ANY x = .ok x := by
    intro V conv d N x
    simp [Single.convert_helper]
  have hsel : ∀ (V : Type) (d : V) (N : Nat) (zipx2 : V × V → V × V → V × V)
      (fn : V → V → V) (l r : List V),
      Single.apply_impl_zip d N .half .half .half zipx2 fn l r =
        Single.apply_impl_half2 d N zipx2 fn l r := by
    intro V d N zipx2 fn l r
    simp [Single.apply_impl_zip]
  have key : ∀ (V : Type) (conv : ScalarType → ScalarType → V → V) (d : V) (fn : V → V → V)
      (l0 l1 r0 r1 : V),
      Single.zip_common conv d (fun T => T) (Single.zip_halfx2 fn) fn
        .half 2 [l0, l1] .half 2 [r0, r1] = .ok [fn l0 l1, fn r1 r1] := by
    intro V conv d fn l0 l1 r0 r1
    have hE : Single.broadcast_extent 2 2 = some 2 := by decide
    unfold Single.zip_common
    simp only [hT, hE, hconv, hsel, bind, Except.bind]
    simp [Single.apply_impl_half2, forLoopBy2, rd, wr, Single.zip_halfx2, bind, Except.bind,
      pure, Except.pure]
  have hsub := key Int (fun _ _ v => v) 0 (fun a b => a - b) 5 2 1 3
  refine ⟨key, hsub, ?_, ?_⟩
  · rw [hsub]
    intro h
    have h2 := Except.ok.inj h
    revert h2
    decide
  · intro V conv d zipx2 fn l0 l1 l2 r0 r1 r2
    have hE : Single.broadcast_extent 3 3 = some 3 := by decide
    unfold Single.zip_common
    simp only [hT, hE, hconv, hsel, bind, Except.bind]
    simp [Single.apply_impl_half2, forLoopBy2, rd, wr, bind, Except.bind]

/-! ## Claims C14 to C18: the promotion lattice -/

theorem multi_promote_type_eq_fold (T1 : ScalarType) (rest : List ScalarType) :
    multi_promote_type (T1 :: rest) = promoteFold T1 rest := by
  induction rest generalizing T1 with
  | nil => simp [multi_promote_type, promoteFold]
  | cons B tail ih =>
    cases tail with
    | nil =>
      rw [multi_promote_type]
      cases h : promote_type T1 B <;> simp [promoteFold, h]
    | cons C Rest =>
      rw [multi_promote_type]
      cases h : promote_type T1 B with
      | none => simp [promoteFold, h]
      | some AB =>
        rw [promoteFold, h]
        exact ih AB

/-- C14: for every non-empty list of scalar types, `promote_t` is the left fold
of the binary promotion: `promote(T1) = T1`, `promote(T1, T2)` is the binary
promotion, and `promote(T1, T2, T3, ..., Tn) = promote(promote(T1, T2), T3, ..., Tn)`;
it has a value exactly when every binary step of the fold has one (that is
`promoteFold`). Witness: `promote(bool, int, float) = promote(promote(bool, int), float) = float`. -/
theorem C14_promote_t_is_left_fold (T1 : ScalarType) (rest : List ScalarType) :
    promote_t (T1 :: rest) = promoteFold T1 rest ∧
    promote_t [T1] = some T1 ∧
    (∀ T2, promote_t [T1, T2] = promote_type T1 T2) ∧
    (∀ T2 T3 Ts, promote_t (T1 :: T2 :: T3 :: Ts) =
      (promote_type T1 T2).bind (fun T12 => promote_t (T12 :: T3 :: Ts))) ∧
    promote_t [.bool, .signed_int, .float] = some .float ∧
    (promote_type .bool .signed_int).bind (fun T12 => promote_type T12 .float) =
      some .float := by
  refine ⟨multi_promote_type_eq_fold T1 rest, ?_, ?_, ?_, ?_, by decide⟩
  · simp [promote_t, multi_promote_type]
  · intro T2
    simp [promote_t, multi_promote_type]
  · intro T2 T3 Ts
    unfold promote_t
    rw [multi_promote_type]
    cases promote_type T1 T2 <;> rfl
  · unfold promote_t
    rw [multi_promote_type_eq_fold]
    decide

/-- C15: for every built-in floating type `F` and every integer type `I`
(`char`, and the signed and unsigned `char`, `short`, `int`, `long`,
`long long`), `promote(F, I) = promote(I, F) = F`; for two built-in floating
types the wider one is the result, in either argument order. -/
theorem C15_float_absorbs_integers :
    (∀ F ∈ [ScalarType.float, .double, .long_double],
      ∀ I ∈ [ScalarType.char, .signed_char, .signed_short, .signed_int, .signed_long,
        .signed_long_long, .unsigned_char, .unsigned_short, .unsigned_int, .unsigned_long,
        .unsigned_long_long],
      promote_type F I = some F ∧ promote_type I F = some F) ∧
    promote_type .float .double = some .double ∧
    promote_type .double .float = some .double ∧
    promote_type .float .long_double = some .long_double ∧
    promote_type .long_double .float = some .long_double ∧
    promote_type .double .long_double = some .long_double ∧
    promote_type .long_double .double = some .long_double := by
  decide

/-- C16: within the signed family and within the unsigned family (each listed
by increasing conversion rank) `promote(X, Y) = promote(Y, X)` is the type of
greater rank, `X` itself when `X = Y`; a signed type with an unsigned type has
no promotion rule in either order. -/
theorem C16_integer_families :
    (∀ i j : Fin 5,
      promote_type
        ([ScalarType.signed_char, .signed_short, .signed_int, .signed_long,
          .signed_long_long].get i)
        ([ScalarType.signed_char, .signed_short, .signed_int, .signed_long,
          .signed_long_long].get j) =
      some ([ScalarType.signed_char, .signed_short, .signed_int, .signed_long,
          .signed_long_long].get (max i j))) ∧
    (∀ i j : Fin 5,
      promote_type
        ([ScalarType.unsigned_char, .unsigned_short, .unsigned_int, .unsigned_long,
          .unsigned_long_long].get i)
        ([ScalarType.unsigned_char, .unsigned_short, .unsigned_int, .unsigned_long,
          .unsigned_long_long].get j) =
      some ([ScalarType.unsigned_char, .unsigned_short, .unsigned_int, .unsigned_long,
          .unsigned_long_long].get (max i j))) ∧
    (∀ X ∈ [ScalarType.signed_char, .signed_short, .signed_int, .signed_long,
        .signed_long_long],
      ∀ Y ∈ [ScalarType.unsigned_char, .unsigned_short, .unsigned_int, .unsigned_long,
        .unsigned_long_long],
      promote_type X Y = none ∧ promote_type Y X = none) := by
  decide

/-- C18 fails as stated: neither narrow float type has a promotion rule with
`long double`, in either argument order. -/
theorem C18_no_rule_for_long_double :
    promote_type .half .long_double = none ∧
    promote_type .long_double .half = none ∧
    promote_type .bfloat16 .long_double = none ∧
    promote_type .long_double .bfloat16 = none := by
  decide

/-- C18, amended: for each narrow float type `H` and each of `float`, `double`,
`promote(H, F) = promote(F, H) = F`; for every integer type `I`,
`promote(H, I) = promote(I, H) = H`. -/
theorem C18_narrow_float_promotion :
    ∀ H ∈ [ScalarType.half, .bfloat16],
      (∀ F ∈ [ScalarType.float, .double],
        promote_type H F = some F ∧ promote_type F H = some F) ∧
      (∀ I ∈ [ScalarType.char, .signed_char, .signed_short, .signed_int, .signed_long,
          .signed_long_long, .unsigned_char, .unsigned_short, .unsigned_int,
          .unsigned_long, .unsigned_long_long],
        promote_type H I = some H ∧ promote_type I H = some H) := by
  decide

/-- Witness for C18 (amended) at `H = __half`. -/
theorem C18_narrow_float_promotion_witness :
    promote_type .half .double = some .double ∧
    promote_type .unsigned_int .half = some .half :=
  have h := C18_narrow_float_promotion .half (by decide)
  ⟨(h.1 .double (by decide)).1, (h.2 .unsigned_int (by decide)).2⟩

/-! ## Claim C19: storage alignment -/

theorem pow_two_cases (k : Nat) (m : Nat) (h : m = 2 ^ k) :
    m = 1 ∨ m = 2 ∨ m = 4 ∨ m = 8 ∨ m = 16 ∨ 32 ∣ m := by
  subst h
  by_cases hk : k < 5
  · interval_cases k <;> simp
  · right; right; right; right; right
    exact pow_dvd_pow 2 (by omega : 5 ≤ k)

theorem pow_two_le_32_cases (j : Nat) (h : 2 ^ j ≤ 32) :
    2 ^ j = 1 ∨ 2 ^ j = 2 ∨ 2 ^ j = 4 ∨ 2 ^ j = 8 ∨ 2 ^ j = 16 ∨ 2 ^ j = 32 := by
  have hj : j < 6 := by
    by_contra hcon
    have : 2 ^ 6 ≤ 2 ^ j := Nat.pow_le_pow_right (by decide) (by omega)
    omega
  interval_cases j <;> simp

/-- C19: for every total byte size `total_size > 0` and every natural
alignment `min_align` that is a power of two dividing `total_size`,
`compute_max_alignment(total_size, min_align)` is the largest power of two
`p ≤ 32` that divides `total_size`: it is one of 1, 2, 4, 8, 16, 32, it
divides `total_size`, every power of two up to 32 that divides `total_size`
is at most the result, and the result is never smaller than
`min(min_align, 32)`. -/
theorem C19_compute_max_alignment (total_size min_align k : Nat) (_hpos : 0 < total_size)
    (hpow : min_align = 2 ^ k) (hdvd : min_align ∣ total_size) :
    compute_max_alignment total_size min_align ∈ [1, 2, 4, 8, 16, 32] ∧
    compute_max_alignment total_size min_align ∣ total_size ∧
    (∀ j, 2 ^ j ≤ 32 → 2 ^ j ∣ total_size →
      2 ^ j ≤ compute_max_alignment total_size min_align) ∧
    min min_align 32 ≤ compute_max_alignment total_size min_align := by
  have hmin := pow_two_cases k min_align hpow
  have hmpos : 0 < min_align := by
    rw [hpow]
    exact Nat.pow_pos (by decide)
  have h32 : 32 ∣ min_align → total_size % 32 = 0 := fun h =>
    Nat.mod_eq_zero_of_dvd (Dvd.dvd.trans h hdvd)
  have hlarge : 32 ≤ min_align → 32 ∣ min_align := by
    intro h
    rcases hmin with h1 | h1 | h1 | h1 | h1 | h1 <;> omega
  have hmod : total_size % min_align = 0 := Nat.mod_eq_zero_of_dvd hdvd
  have hval : ¬ (32 ≤ min_align) → min_align = 1 ∨ min_align = 2 ∨ min_align = 4 ∨
      min_align = 8 ∨ min_align = 16 := by
    intro h
    rcases hmin with h1 | h1 | h1 | h1 | h1 | h1
    · omega
    · omega
    · omega
    · omega
    · omega
    · exact absurd (Nat.le_of_dvd hmpos h1) h
  have hfacts : total_size % 32 = 0 ∨
      (min_align < 32 ∧ (min_align = 1 ∨ (min_align = 2 ∧ total_size % 2 = 0) ∨
        (min_align = 4 ∧ total_size % 4 = 0) ∨ (min_align = 8 ∧ total_size % 8 = 0) ∨
        (min_align = 16 ∧ total_size % 16 = 0))) := by
    by_cases h : 32 ≤ min_align
    · exact Or.inl (h32 (hlarge h))
    · right
      refine ⟨by omega, ?_⟩
      clear hmin h32 hlarge hpow hdvd hmpos
      rcases hval h with h1 | h1 | h1 | h1 | h1 <;> subst h1 <;> omega
  clear hmin h32 hlarge hval hpow hdvd hmod hmpos
  refine ⟨?_, ?_, ?_, ?_⟩
  · unfold compute_max_alignment
    split_ifs <;> simp
  · unfold compute_max_alignment
    split_ifs <;> omega
  · intro j hj hjd
    rcases pow_two_le_32_cases j hj with h | h | h | h | h | h <;> rw [h] at hjd ⊢ <;>
      unfold compute_max_alignment <;> split_ifs <;> omega
  · unfold compute_max_alignment
    split_ifs <;> omega

/-- Witness for C19: twelve bytes of `float` storage (`sizeof(float) * 3`,
`alignof(float) = 4`) are aligned to 4 bytes. -/
theorem C19_compute_max_alignment_witness :
    compute_max_alignment 12 4 ∈ [1, 2, 4, 8, 16, 32] ∧
    compute_max_alignment 12 4 ∣ 12 ∧
    (∀ j, 2 ^ j ≤ 32 → 2 ^ j ∣ 12 → 2 ^ j ≤ compute_max_alignment 12 4) ∧
    min 4 32 ≤ compute_max_alignment 12 4 :=
  C19_compute_max_alignment 12 4 2 (by decide) (by decide) (by decide)

/-! ## Claim C20: the cast functor and rounding modes -/

/-- C20 fails as stated: for distinct types and a rounding mode other than
`ANY`, the cast functor is declared without a definition, so
`ops::cast<int, float, DOWN>` (and likewise `UP`, `NEAREST`, `TOWARD_ZERO`) does
not exist. -/
theorem C20_no_generic_cast_with_rounding_mode :
    (ops_cast (fun _ _ (v : Int) => v) .signed_int .float .DOWN).isSome = false ∧
    (ops_cast (fun _ _ (v : Int) => v) .signed_int .float .UP).isSome = false ∧
    (ops_cast (fun _ _ (v : Int) => v) .signed_int .float .NEAREST).isSome = false ∧
    (ops_cast (fun _ _ (v : Int) => v) .signed_int .float .TOWARD_ZERO).isSome = false := by
  simp [ops_cast]

/-- C20, amended: for distinct scalar types `T ≠ R` the generic cast functor
`ops::cast<T, R, M>` is defined for `M = ANY` only, where it is the single
conversion `R(input)`; for `T = R` the cast is the identity for every rounding
mode. -/
theorem C20_generic_cast {V : Type} (conv : ScalarType → ScalarType → V → V)
    (T R : ScalarType) (hTR : T ≠ R) :
    ops_cast conv T R .ANY = some (conv T R) ∧
    (∀ M, M ≠ RoundingMode.ANY → ops_cast conv T R M = none) ∧
    (∀ M, ops_cast conv T T M = some (fun input => input)) ∧
    (∀ M, ops_cast conv R R M = some (fun input => input)) := by
  refine ⟨?_, ?_, ?_, ?_⟩
  · unfold ops_cast
    rw [if_neg hTR, if_pos rfl]
  · intro M hM
    unfold ops_cast
    rw [if_neg hTR, if_neg hM]
  · intro M
    unfold ops_cast
    rw [if_pos rfl]
  · intro M
    unfold ops_cast
    rw [if_pos rfl]

/-- Witness for C20 (amended) at `T = int`, `R = float`, with a conversion on
the integers that doubles its input. -/
theorem C20_generic_cast_witness :
    ops_cast (fun (_ _ : ScalarType) (v : Int) => 2 * v) .signed_int .float .ANY =
      some (fun v => 2 * v) ∧
    (∀ M, M ≠ RoundingMode.ANY →
      ops_cast (fun (_ _ : ScalarType) (v : Int) => 2 * v) .signed_int .float M = none) :=
  ⟨(C20_generic_cast (fun (_ _ : ScalarType) (v : Int) => 2 * v)
      ScalarType.signed_int ScalarType.float (by decide)).1,
    (C20_generic_cast (fun (_ _ : ScalarType) (v : Int) => 2 * v)
      ScalarType.signed_int ScalarType.float (by decide)).2.1⟩

/-! ## Claim C12: `fma` -/

/-- C12, evaluated on the code: the primary functor `ops::fma<T>`, the one used
for every integer type, returns `a + b * c`; `fma(2, 3, 4)` on `int` scalars is
`14` in both headers, where `a * b + c` is `10`, and on the vectors
`[2, 1, 0]`, `[3, 3, 3]`, `[4, 5, 6]` it is `[14, 16, 18]` instead of
`[10, 8, 6]`. -/
theorem C12_fma_multiplies_last_two_operands :
    (∀ a b c : Int, ops_fma a b c = a + b * c) ∧
    Single.fma (fun (_ _ : ScalarType) (v : Int) => v) 0 ops_fma
      .signed_int 1 [2] .signed_int 1 [3] .signed_int 1 [4] = .ok [14] ∧
    Tensor.fma (fun (_ _ : ScalarType) (v : Int) => v) 0 ops_fma
      .signed_int [] [2] .signed_int [] [3] .signed_int [] [4] = .ok [14] ∧
    Single.fma (fun (_ _ : ScalarType) (v : Int) => v) 0 ops_fma
      .signed_int 3 [2, 1, 0] .signed_int 3 [3, 3, 3] .signed_int 3 [4, 5, 6] =
      .ok [14, 16, 18] ∧
    ((2 : Int) * 3 + 4 = 10 ∧ [(2 : Int) * 3 + 4, 1 * 3 + 5, 0 * 3 + 6] = [10, 8, 6]) := by
  have hT : promote_t [.signed_int, .signed_int, .signed_int] = some .signed_int := by
    unfold promote_t
    rw [multi_promote_type_eq_fold]
    decide
  refine ⟨fun a b c => rfl, ?_, ?_, ?_, by decide⟩
  · have hE : (Single.broadcast_extent 1 1).bind (Single.broadcast_extent 1) = some 1 := by
      decide
    unfold Single.fma
    simp only [hT, hE]
    simp [Single.convert_helper, Single.apply_impl3, forLoop, rd, wr, ops_fma, bind,
      Except.bind]
  · have hE : (Tensor.broadcast_extents [] []).bind (Tensor.broadcast_extents []) =
        some [] := by
      simp [Tensor.broadcast_extents, Tensor.broadcast_extents_helper]
    unfold Tensor.fma
    simp only [hT, hE]
    simp [Tensor.convert_helper, Single.apply_impl3, forLoop, rd, wr, ops_fma, volume, bind,
      Except.bind]
  · have hE : (Single.broadcast_extent 3 3).bind (Single.broadcast_extent 3) = some 3 := by
      decide
    unfold Single.fma
    simp only [hT, hE]
    simp [Single.convert_helper, Single.apply_impl3, forLoop, rd, wr, ops_fma, bind,
      Except.bind]

/-! ## Claim C11: the four cases of `convert_helper` -/

/-- The broadcast of `broadcast.h` as an address remapping, for targets of rank
at most 3. -/
theorem Tensor.broadcast_impl_remap {α : Type} (d : α) (From To : List Nat)
    (input : List α) (hrank : To.length ≤ 3)
    (hb : Tensor.is_broadcastable From To = some true)
    (hlen : input.length = volume From) :
    ∃ out, Tensor.broadcast_impl d From To input = .ok out ∧ out.length = volume To ∧
      ∀ x, Inside x To →
        ∃ v, out[rowMajor To x]? = some v ∧
          input[rowMajor (padLeft From To.length)
            (zeroUnit (padLeft From To.length) x)]? = some v := by
  have hF := Tensor.broadcastable_forall2 From To hb
  have hlen2 : input.length = volume (padLeft From To.length) := by
    rw [volume_padLeft, hlen]
  have hfinish : ∀ out : List α, out.length = volume To →
      (∀ x, Inside x To → out[rowMajor To x]? =
        input[rowMajor (padLeft From To.length) (zeroUnit (padLeft From To.length) x)]?) →
      ∀ x, Inside x To →
        ∃ v, out[rowMajor To x]? = some v ∧
          input[rowMajor (padLeft From To.length)
            (zeroUnit (padLeft From To.length) x)]? = some v := by
    intro out hout hval x hx
    obtain ⟨v, hv⟩ : ∃ v, out[rowMajor To x]? = some v :=
      ⟨_, List.getElem?_eq_getElem (by rw [hout]; exact rowMajor_lt hx)⟩
    exact ⟨v, hv, by rw [← hval x hx, hv]⟩
  unfold Tensor.broadcast_impl
  by_cases hEq : From = To
  · subst hEq
    rw [if_pos rfl]
    refine ⟨input, rfl, hlen, hfinish input hlen ?_⟩
    intro x hx
    rw [padLeft_of_le From From.length (le_refl _), zeroUnit_self hx]
  · rw [if_neg hEq, if_pos hb, Tensor.extents_to_rank_eq]
    obtain ⟨out, h1, h2, h3, -⟩ :=
      copies_copy_helper (padLeft From To.length) To input hrank hF hlen2
        (List.replicate (volume To) d) (by simp)
    exact ⟨out, h1, h2, hfinish out h2 (fun x hx => (h3 _ _ ⟨x, hx, rfl, rfl⟩).2)⟩

theorem ops_cast_same {V : Type} (conv : ScalarType → ScalarType → V → V)
    (T : ScalarType) (M : RoundingMode) (cast : V → V)
    (h : ops_cast conv T T M = some cast) : cast = fun input => input := by
  unfold ops_cast at h
  rw [if_pos rfl] at h
  exact (Option.some.inj h).symm

/-- All four cases of the `convert_helper` of `broadcast.h` compute the cast of
every element followed by the broadcast. -/
theorem Tensor.convert_helper_eq_castThenBroadcast {V : Type}
    (conv : ScalarType → ScalarType → V → V) (d : V) (T : ScalarType) (E : List Nat)
    (T2 : ScalarType) (E2 : List Nat) (M : RoundingMode) (cast : V → V) (input : List V)
    (hcast : ops_cast conv T T2 M = some cast) (hlen : input.length = volume E) :
    Tensor.convert_helper conv d T E T2 E2 M input = castThenBroadcast d cast E E2 input := by
  unfold Tensor.convert_helper castThenBroadcast
  by_cases hT : T = T2
  · subst hT
    have hid := ops_cast_same conv T M cast hcast
    subst hid
    have hmap : input.map (fun input => input) = input := List.map_id input
    rw [hmap]
    by_cases hEq : E = E2
    · subst hEq
      rw [if_pos ⟨rfl, rfl⟩]
      unfold Tensor.broadcast_impl
      rw [if_pos rfl]
    · rw [if_neg (by tauto), if_pos rfl]
  · by_cases hEq : E = E2
    · subst hEq
      rw [if_neg (by tauto), if_neg hT, if_pos rfl, hcast]
      simp only [Single.apply_impl1_spec d (volume E) cast input hlen]
      unfold Tensor.broadcast_impl
      rw [if_pos rfl]
    · rw [if_neg (by tauto), if_neg hT, if_neg hEq, hcast]
      simp only [Single.apply_impl1_spec d (volume E) cast input hlen]
      rfl

/-- The conversion of `broadcast.h`, element by element, for targets of rank at
most 3. -/
theorem Tensor.convert_helper_remap {V : Type}
    (conv : ScalarType → ScalarType → V → V) (d : V) (T : ScalarType) (E : List Nat)
    (T2 : ScalarType) (E2 : List Nat) (M : RoundingMode) (cast : V → V) (input : List V)
    (hcast : ops_cast conv T T2 M = some cast) (hlen : input.length = volume E)
    (hrank : E2.length ≤ 3) (hb : Tensor.is_broadcastable E E2 = some true) :
    ∃ out, Tensor.convert_helper conv d T E T2 E2 M input = .ok out ∧
      out.length = volume E2 ∧
      ∀ x, Inside x E2 →
        ∃ a, input[rowMajor (padLeft E E2.length) (zeroUnit (padLeft E E2.length) x)]? =
            some a ∧
          out[rowMajor E2 x]? = some (cast a) := by
  rw [Tensor.convert_helper_eq_castThenBroadcast conv d T E T2 E2 M cast input hcast hlen]
  obtain ⟨out, h1, h2, h3⟩ := Tensor.broadcast_impl_remap d E E2 (input.map cast) hrank hb
    (by simpa using hlen)
  refine ⟨out, h1, h2, ?_⟩
  intro x hx
  obtain ⟨v, hv1, hv2⟩ := h3 x hx
  rw [List.getElem?_map] at hv2
  cases ha : input[rowMajor (padLeft E E2.length) (zeroUnit (padLeft E E2.length) x)]? with
  | none => simp [ha] at hv2
  | some a =>
    rw [ha] at hv2
    refine ⟨a, rfl, ?_⟩
    rw [hv1]
    exact hv2.symm

/-- The conversion of the single header, element by element, for any rounding
mode for which the cast functor exists. -/
theorem Single.convert_helper_cast_spec {V : Type} (conv : ScalarType → ScalarType → V → V)
    (d : V) (T : ScalarType) (E : Nat) (T2 : ScalarType) (E2 : Nat) (M : RoundingMode)
    (cast : V → V) (input : List V) (hcast : ops_cast conv T T2 M = some cast)
    (hlen : input.length = E) (hE : E = E2 ∨ (E = 1 ∧ E2 ≠ 1)) :
    ∃ out, Single.convert_helper conv d T E T2 E2 M input = .ok out ∧ out.length = E2 ∧
      ∀ p, p < E2 → ∃ a, input[if E = 1 then 0 else p]? = some a ∧
        out[p]? = some (cast a) := by
  have hidx : ∀ p, p < E2 → E = E2 → input[if E = 1 then 0 else p]? = input[p]? := by
    intro p hp hEq
    split_ifs with h1
    · have : p = 0 := by omega
      rw [this]
    · rfl
  unfold Single.convert_helper
  by_cases hT : T = T2
  · subst hT
    have hid := ops_cast_same conv T M cast hcast
    subst hid
    by_cases hEq : E = E2
    · rw [if_pos ⟨rfl, hEq⟩]
      refine ⟨input, rfl, by omega, ?_⟩
      intro p hp
      obtain ⟨a, ha⟩ : ∃ a, input[p]? = some a := ⟨_, List.getElem?_eq_getElem (by omega)⟩
      exact ⟨a, by rw [hidx p hp hEq, ha], ha⟩
    · rw [if_neg (by tauto), if_pos rfl]
      obtain ⟨h1, h2⟩ : E = 1 ∧ E2 ≠ 1 := by tauto
      subst h1
      obtain ⟨a, rfl⟩ : ∃ a, input = [a] := List.length_eq_one.1 hlen
      rw [Single.broadcast_impl_replicate d E2 a h2]
      refine ⟨_, rfl, by simp, ?_⟩
      intro p hp
      exact ⟨a, by simp, by simp [List.getElem?_replicate, hp]⟩
  · by_cases hEq : E = E2
    · rw [if_neg (by tauto), if_neg hT, if_pos hEq, hcast]
      simp only [Single.apply_impl1_spec d E cast input hlen]
      refine ⟨_, rfl, by simp; omega, ?_⟩
      intro p hp
      obtain ⟨a, ha⟩ : ∃ a, input[p]? = some a := ⟨_, List.getElem?_eq_getElem (by omega)⟩
      exact ⟨a, by rw [hidx p hp hEq, ha], by rw [List.getElem?_map, ha]; rfl⟩
    · rw [if_neg (by tauto), if_neg hT, if_neg hEq, hcast]
      obtain ⟨h1, h2⟩ : E = 1 ∧ E2 ≠ 1 := by tauto
      subst h1
      obtain ⟨a, rfl⟩ : ∃ a, input = [a] := List.length_eq_one.1 hlen
      simp only [Single.apply_impl1_spec d 1 cast [a] rfl, List.map_cons, List.map_nil]
      refine ⟨List.replicate E2 (cast a), ?_, by simp, ?_⟩
      · exact Single.broadcast_impl_replicate d E2 (cast a) h2
      · intro p hp
        exact ⟨a, by simp, by simp [List.getElem?_replicate, hp]⟩

theorem Single.is_broadcastable_cases (E E2 : Nat)
    (h : Single.is_broadcastable E E2 = some true) : E = E2 ∨ (E = 1 ∧ E2 ≠ 1) := by
  rw [Single.is_broadcastable1_eq_true, Single.broadcast_extent_eq_some] at h
  obtain ⟨-, hu⟩ := h
  unfold dimUnified at hu
  split_ifs at hu <;> omega

/-- C11 fails as stated: `extents<2>` is broadcastable to `extents<1, 1, 1, 2>`,
but the copy loops of `broadcast_impl` exist for ranks 0 to 3 only, so neither
the broadcast-only case nor the cast-then-broadcast case of `convert_helper`
has an instantiation for that target and no storage is returned. -/
theorem C11_no_conversion_to_rank_4 :
    Tensor.is_broadcastable [2] [1, 1, 1, 2] = some true ∧
    Tensor.convert_helper (fun (_ _ : ScalarType) (v : Int) => v) 0
      .float [2] .float [1, 1, 1, 2] .ANY [5, 7] = .error .ill_formed ∧
    Tensor.convert_helper (fun (_ _ : ScalarType) (v : Int) => v) 0
      .signed_int [2] .float [1, 1, 1, 2] .ANY [5, 7] = .error .ill_formed := by
  have hb : Tensor.is_broadcastable [2] [1, 1, 1, 2] = some true :=
    (Tensor.is_broadcastable_eq_true _ _).2 (by rw [Tensor.broadcast_extents_eq]; decide)
  have hbr : ∀ xs : List Int,
      Tensor.broadcast_impl 0 [2] [1, 1, 1, 2] xs = .error .ill_formed := by
    intro xs
    unfold Tensor.broadcast_impl
    rw [if_neg (by decide), if_pos hb]
    rfl
  refine ⟨hb, ?_, ?_⟩
  · unfold Tensor.convert_helper
    rw [if_neg (by decide), if_pos rfl]
    exact hbr _
  · rw [Tensor.convert_helper_eq_castThenBroadcast _ 0 .signed_int [2] .float [1, 1, 1, 2]
      .ANY (fun v => v) [5, 7] (by simp [ops_cast]) (by decide)]
    exact hbr _

/-- C11, amended: let `cast` be the functor `ops::cast<T, T2, M>` (the identity
when `T = T2`). In the single header, for every `E` broadcastable to `E2`, each
of the four cases of `convert_helper` returns the storage of `E2` elements
whose element `p` is `cast(input[src p])`, with `src p = 0` if `E = 1` and
`src p = p` otherwise. In `broadcast.h`, all four cases agree with the general
definition "cast every element, then broadcast" for every pair of extents,
and for every `E` broadcastable to a target `E2` of rank at most 3 they return
the storage of `volume E2` elements whose element at the row-major position of
`x` is `cast(input[src x])`, with `src` the address remapping of the
broadcast. -/
theorem C11_convert_helper_cases {V : Type} (conv : ScalarType → ScalarType → V → V)
    (d : V) (T T2 : ScalarType) (M : RoundingMode) (cast : V → V)
    (hcast : ops_cast conv T T2 M = some cast) :
    (T = T2 → ∀ v, cast v = v) ∧
    (∀ (E E2 : Nat) (input : List V),
      Single.is_broadcastable E E2 = some true → input.length = E →
      ∃ out, Single.convert_helper conv d T E T2 E2 M input = .ok out ∧ out.length = E2 ∧
        ∀ p, p < E2 → ∃ a, input[if E = 1 then 0 else p]? = some a ∧
          out[p]? = some (cast a)) ∧
    (∀ (E E2 : List Nat) (input : List V), input.length = volume E →
      Tensor.convert_helper conv d T E T2 E2 M input =
        castThenBroadcast d cast E E2 input) ∧
    (∀ (E E2 : List Nat) (input : List V), E2.length ≤ 3 →
      Tensor.is_broadcastable E E2 = some true → input.length = volume E →
      ∃ out, Tensor.convert_helper conv d T E T2 E2 M input = .ok out ∧
        out.length = volume E2 ∧
        ∀ x, Inside x E2 →
          ∃ a, input[rowMajor (padLeft E E2.length)
              (zeroUnit (padLeft E E2.length) x)]? = some a ∧
            out[rowMajor E2 x]? = some (cast a)) := by
  refine ⟨?_, ?_, ?_, ?_⟩
  · intro hT v
    subst hT
    rw [ops_cast_same conv T M cast hcast]
  · intro E E2 input hb hlen
    exact Single.convert_helper_cast_spec conv d T E T2 E2 M cast input hcast hlen
      (Single.is_broadcastable_cases E E2 hb)
  · intro E E2 input hlen
    exact Tensor.convert_helper_eq_castThenBroadcast conv d T E T2 E2 M cast input hcast hlen
  · intro E E2 input hrank hb hlen
    exact Tensor.convert_helper_remap conv d T E T2 E2 M cast input hcast hlen hrank hb

/-- Witness for C11 (amended): an `int` storage converted to `float` with a
conversion on the integers that doubles its input. -/
theorem C11_convert_helper_cases_witness :
    ops_cast (fun (_ _ : ScalarType) (v : Int) => 2 * v) .signed_int .float .ANY =
      some (fun v => 2 * v) ∧
    (∃ out, Single.convert_helper (fun (_ _ : ScalarType) (v : Int) => 2 * v) 0
        .signed_int 1 .float 3 .ANY [7] = .ok out ∧ out.length = 3 ∧
      ∀ p, p < 3 → ∃ a, [(7 : Int)][if 1 = 1 then 0 else p]? = some a ∧
        out[p]? = some (2 * a)) ∧
    Tensor.convert_helper (fun (_ _ : ScalarType) (v : Int) => 2 * v) 0
        .signed_int [2, 1] .float [2, 3] .ANY [5, 7] =
      castThenBroadcast 0 (fun v => 2 * v) [2, 1] [2, 3] [5, 7] :=
  have hcast : ops_cast (fun (_ _ : ScalarType) (v : Int) => 2 * v) .signed_int .float .ANY =
      some (fun v => 2 * v) := by simp [ops_cast]
  have h := C11_convert_helper_cases (fun (_ _ : ScalarType) (v : Int) => 2 * v) 0
    ScalarType.signed_int ScalarType.float RoundingMode.ANY (fun v => 2 * v) hcast
  ⟨hcast, h.2.1 1 3 [7] (by decide) rfl, h.2.2.1 [2, 1] [2, 3] [5, 7] (by decide)⟩

/-! ## Claim C13: `where` -/

theorem ops_cast_any {V : Type} (conv : ScalarType → ScalarType → V → V) (T R : ScalarType) :
    ops_cast conv T R .ANY = some (castTo conv T R) := by
  unfold ops_cast
  by_cases h : T = R
  · rw [if_pos h]
    congr 1
    funext v
    simp [castTo, h]
  · rw [if_neg h, if_pos rfl]
    congr 1
    funext v
    simp [castTo, h]

theorem Single.apply_impl3_spec {α β γ δ : Type} (d : δ) (N : Nat) (fn : α → β → γ → δ)
    (xa : List α) (xb : List β) (xc : List γ)
    (ha : xa.length = N) (hb : xb.length = N) (hc : xc.length = N) :
    ∃ out, Single.apply_impl3 d N fn xa xb xc = .ok out ∧ out.length = N ∧
      ∀ i, i < N → ∃ x y z, xa[i]? = some x ∧ xb[i]? = some y ∧ xc[i]? = some z ∧
        out[i]? = some (fn x y z) := by
  obtain ⟨out, h1, h2, h3, -⟩ := forLoop_writes
    (fun i result => do
      let x ← rd xa i
      let y ← rd xb i
      let z ← rd xc i
      wr result i (fn x y z))
    (fun i => match xa[i]?, xb[i]?, xc[i]? with
      | some x, some y, some z => fn x y z
      | _, _, _ => d) N (List.replicate N d)
    (by
      intro i hi r
      have hga : xa[i]? = some xa[i] := List.getElem?_eq_getElem (by omega)
      have hgb : xb[i]? = some xb[i] := List.getElem?_eq_getElem (by omega)
      have hgc : xc[i]? = some xc[i] := List.getElem?_eq_getElem (by omega)
      simp only [rd_eq_ok xa i _ hga, rd_eq_ok xb i _ hgb, rd_eq_ok xc i _ hgc, hga, hgb, hgc]
      rfl)
    (by simp)
  refine ⟨out, h1, by simpa using h2, ?_⟩
  intro i hi
  have hga : xa[i]? = some xa[i] := List.getElem?_eq_getElem (by omega)
  have hgb : xb[i]? = some xb[i] := List.getElem?_eq_getElem (by omega)
  have hgc : xc[i]? = some xc[i] := List.getElem?_eq_getElem (by omega)
  refine ⟨xa[i], xb[i], xc[i], hga, hgb, hgc, ?_⟩
  rw [h3 i hi, hga, hgb, hgc]

/-- Both operands of a unification are broadcastable to the unified extent. -/
theorem Tensor.broadcastable_to_unified (A B C : List Nat)
    (h : Tensor.broadcast_extents A B = some C) :
    Tensor.is_broadcastable A C = some true ∧ Tensor.is_broadcastable B C = some true := by
  rw [Tensor.broadcast_extents_eq, Tensor.unify_extents_helper_eq_some] at h
  obtain ⟨-, hClen, hdim⟩ := h
  rw [length_padLeft] at hClen
  have hsome : ∀ (L : List Nat) (i : Nat), i < L.length → ∃ v, L[i]? = some v :=
    fun L i hi => ⟨_, List.getElem?_eq_getElem hi⟩
  constructor
  · rw [Tensor.is_broadcastable_eq_true, Tensor.broadcast_extents_eq_target]
    refine ⟨by omega, ?_⟩
    intro j a ha
    have hj : j < A.length := (List.getElem?_eq_some_iff.1 ha).1
    have hA : (padLeft A B.length)[j + (C.length - A.length)]? = some a := by
      rw [getElem?_padLeft, if_neg (by omega)]
      rw [show j + (C.length - A.length) - (B.length - A.length) = j by omega]
      exact ha
    obtain ⟨b, hb⟩ := hsome (padLeft B A.length) (j + (C.length - A.length))
      (by rw [length_padLeft]; omega)
    obtain ⟨-, hu⟩ := hdim _ a b hA hb
    by_cases h1 : a = 1
    · exact Or.inl h1
    · right
      rw [hu]
      simp [dimUnified, h1]
  · rw [Tensor.is_broadcastable_eq_true, Tensor.broadcast_extents_eq_target]
    refine ⟨by omega, ?_⟩
    intro j b hb
    have hj : j < B.length := (List.getElem?_eq_some_iff.1 hb).1
    have hB : (padLeft B A.length)[j + (C.length - B.length)]? = some b := by
      rw [getElem?_padLeft, if_neg (by omega)]
      rw [show j + (C.length - B.length) - (A.length - B.length) = j by omega]
      exact hb
    obtain ⟨a, ha⟩ := hsome (padLeft A B.length) (j + (C.length - B.length))
      (by rw [length_padLeft]; omega)
    obtain ⟨hc, hu⟩ := hdim _ a b ha hB
    rw [hu]
    unfold dimCompatible at hc
    unfold dimUnified
    by_cases h1 : a = 1
    · right
      rw [if_pos h1]
    · rw [if_neg h1]
      rcases hc with h2 | h2 | h2
      · right
        rw [h2]
      · exact absurd h2 h1
      · exact Or.inl h2

/-- Broadcastability is transitive. -/
theorem Tensor.is_broadcastable_trans (A B C : List Nat)
    (hAB : Tensor.is_broadcastable A B = some true)
    (hBC : Tensor.is_broadcastable B C = some true) :
    Tensor.is_broadcastable A C = some true := by
  rw [Tensor.is_broadcastable_eq_true, Tensor.broadcast_extents_eq_target] at *
  obtain ⟨h1, h2⟩ := hAB
  obtain ⟨h3, h4⟩ := hBC
  refine ⟨by omega, ?_⟩
  intro j a ha
  have hj : j < A.length := (List.getElem?_eq_some_iff.1 ha).1
  rcases h2 j a ha with h | h
  · exact Or.inl h
  · rcases h4 _ a h with h5 | h5
    · exact Or.inl h5
    · right
      rw [show j + (C.length - A.length) =
        j + (B.length - A.length) + (C.length - B.length) by omega]
      exact h5

theorem promote_t_pair (A B : ScalarType) : promote_t [A, B] = promote_type A B := by
  simp [promote_t, multi_promote_type]

/-- The `where` of the single header, element by element. -/
theorem Single.where_spec {V : Type} (conv : ScalarType → ScalarType → V → V) (d : V)
    (truthy : V → Bool) (TC TL TR T : ScalarType) (EC EL ER ELR E : Nat)
    (cond true_values false_values : List V)
    (hT : promote_type TL TR = some T)
    (hELR : Single.broadcast_extent EL ER = some ELR)
    (hE : Single.broadcast_extent EC ELR = some E)
    (hc : cond.length = EC) (hl : true_values.length = EL) (hr : false_values.length = ER) :
    ∃ out, Single.where_ conv d truthy TC EC cond TL EL true_values TR ER false_values =
        .ok out ∧ out.length = E ∧
      ∀ p, p < E → ∃ c l r,
        cond[if EC = 1 then 0 else p]? = some c ∧
        true_values[if EL = 1 then 0 else p]? = some l ∧
        false_values[if ER = 1 then 0 else p]? = some r ∧
        out[p]? = some (if truthy (castTo conv TC .bool c) then castTo conv TL T l
          else castTo conv TR T r) := by
  obtain ⟨hc1, hu1⟩ := (Single.broadcast_extent_eq_some EL ER ELR).1 hELR
  obtain ⟨hc2, hu2⟩ := (Single.broadcast_extent_eq_some EC ELR E).1 hE
  have hEC : EC = E ∨ (EC = 1 ∧ E ≠ 1) := by
    unfold dimCompatible dimUnified at *
    split_ifs at hu1 hu2 <;> omega
  have hEL : EL = E ∨ (EL = 1 ∧ E ≠ 1) := by
    unfold dimCompatible dimUnified at *
    split_ifs at hu1 hu2 <;> omega
  have hER : ER = E ∨ (ER = 1 ∧ E ≠ 1) := by
    unfold dimCompatible dimUnified at *
    split_ifs at hu1 hu2 <;> omega
  obtain ⟨xc, hxc1, hxc2, hxc3⟩ := Single.convert_helper_cast_spec conv d TC EC .bool E .ANY
    (castTo conv TC .bool) cond (ops_cast_any conv TC .bool) hc hEC
  obtain ⟨xl, hxl1, hxl2, hxl3⟩ := Single.convert_helper_cast_spec conv d TL EL T E .ANY
    (castTo conv TL T) true_values (ops_cast_any conv TL T) hl hEL
  obtain ⟨xr, hxr1, hxr2, hxr3⟩ := Single.convert_helper_cast_spec conv d TR ER T E .ANY
    (castTo conv TR T) false_values (ops_cast_any conv TR T) hr hER
  obtain ⟨out, ho1, ho2, ho3⟩ := Single.apply_impl3_spec d E (ops_conditional truthy)
    xc xl xr hxc2 hxl2 hxr2
  refine ⟨out, ?_, ho2, ?_⟩
  · unfold Single.where_
    have hbind : (Single.broadcast_extent EL ER).bind (Single.broadcast_extent EC) =
        some E := by
      rw [hELR]
      exact hE
    simp only [promote_t_pair, hT, hbind, hxc1, hxl1, hxr1, bind, Except.bind]
    exact ho1
  · intro p hp
    obtain ⟨c, hc3, hc4⟩ := hxc3 p hp
    obtain ⟨l, hl3, hl4⟩ := hxl3 p hp
    obtain ⟨r, hr3, hr4⟩ := hxr3 p hp
    obtain ⟨x, y, z, hx, hy, hz, hout⟩ := ho3 p hp
    rw [hc4] at hx
    rw [hl4] at hy
    rw [hr4] at hz
    cases hx
    cases hy
    cases hz
    exact ⟨c, l, r, hc3, hl3, hr3, hout⟩

/-- The `where` of `triops.h`, element by element, for a unified extent of rank
at most 3. -/
theorem Tensor.where_remap_spec {V : Type} (conv : ScalarType → ScalarType → V → V) (d : V)
    (truthy : V → Bool) (TC TL TR T : ScalarType) (EC EL ER ELR E : List Nat)
    (cond true_values false_values : List V)
    (hT : promote_type TL TR = some T)
    (hELR : Tensor.broadcast_extents EL ER = some ELR)
    (hE : Tensor.broadcast_extents EC ELR = some E) (hrank : E.length ≤ 3)
    (hc : cond.length = volume EC) (hl : true_values.length = volume EL)
    (hr : false_values.length = volume ER) :
    ∃ out, Tensor.where_ conv d truthy TC EC cond TL EL true_values TR ER false_values =
        .ok out ∧ out.length = volume E ∧
      ∀ x, Inside x E → ∃ c l r,
        cond[srcIndex EC E x]? = some c ∧
        true_values[srcIndex EL E x]? = some l ∧
        false_values[srcIndex ER E x]? = some r ∧
        out[rowMajor E x]? = some (if truthy (castTo conv TC .bool c) then castTo conv TL T l
          else castTo conv TR T r) := by
  obtain ⟨hbEL0, hbER0⟩ := Tensor.broadcastable_to_unified EL ER ELR hELR
  obtain ⟨hbEC, hbELR⟩ := Tensor.broadcastable_to_unified EC ELR E hE
  have hbEL := Tensor.is_broadcastable_trans EL ELR E hbEL0 hbELR
  have hbER := Tensor.is_broadcastable_trans ER ELR E hbER0 hbELR
  obtain ⟨xc, hxc1, hxc2, hxc3⟩ := Tensor.convert_helper_remap conv d TC EC .bool E .ANY
    (castTo conv TC .bool) cond (ops_cast_any conv TC .bool) hc hrank hbEC
  obtain ⟨xl, hxl1, hxl2, hxl3⟩ := Tensor.convert_helper_remap conv d TL EL T E .ANY
    (castTo conv TL T) true_values (ops_cast_any conv TL T) hl hrank hbEL
  obtain ⟨xr, hxr1, hxr2, hxr3⟩ := Tensor.convert_helper_remap conv d TR ER T E .ANY
    (castTo conv TR T) false_values (ops_cast_any conv TR T) hr hrank hbER
  obtain ⟨out, ho1, ho2, ho3⟩ := Single.apply_impl3_spec d (volume E)
    (ops_conditional truthy) xc xl xr hxc2 hxl2 hxr2
  refine ⟨out, ?_, ho2, ?_⟩
  · unfold Tensor.where_
    have hbind : (Tensor.broadcast_extents EL ER).bind (Tensor.broadcast_extents EC) =
        some E := by
      rw [hELR]
      exact hE
    simp only [promote_t_pair, hT, hbind, hxc1, hxl1, hxr1, bind, Except.bind]
    exact ho1
  · intro x hx
    obtain ⟨c, hc3, hc4⟩ := hxc3 x hx
    obtain ⟨l, hl3, hl4⟩ := hxl3 x hx
    obtain ⟨r, hr3, hr4⟩ := hxr3 x hx
    obtain ⟨a, b, z, ha, hb, hz, hout⟩ := ho3 (rowMajor E x) (rowMajor_lt hx)
    rw [hc4] at ha
    rw [hl4] at hb
    rw [hr4] at hz
    cases ha
    cases hb
    cases hz
    exact ⟨c, l, r, hc3, hl3, hr3, hout⟩

/-- C13 fails as stated: a condition of extent `extents<2>` and values of extent
`extents<1, 1, 1, 2>` unify to `extents<1, 1, 1, 2>`, but the condition cannot be
broadcast to that extent (the copy loops exist for ranks 0 to 3 only), so
`where` has no instantiation for these operands. -/
theorem C13_where_rejects_rank_4 :
    (Tensor.broadcast_extents [1, 1, 1, 2] [1, 1, 1, 2]).bind (Tensor.broadcast_extents [2]) =
      some [1, 1, 1, 2] ∧
    Tensor.where_ (fun (_ R : ScalarType) (v : Int) => if R = .bool ∧ v ≠ 0 then 1 else v) 0
      (fun v => decide (v ≠ 0))
      .signed_int [2] [1, 0] .signed_int [1, 1, 1, 2] [10, 20]
      .signed_int [1, 1, 1, 2] [100, 200] = .error .ill_formed := by
  have hE : (Tensor.broadcast_extents [1, 1, 1, 2] [1, 1, 1, 2]).bind
      (Tensor.broadcast_extents [2]) = some [1, 1, 1, 2] := by
    rw [Tensor.broadcast_extents_eq, Tensor.unify_extents_helper_self, Option.some_bind,
      Tensor.broadcast_extents_eq]
    decide
  have hb : Tensor.is_broadcastable [2] [1, 1, 1, 2] = some true :=
    (Tensor.is_broadcastable_eq_true _ _).2 (by rw [Tensor.broadcast_extents_eq]; decide)
  have hbr : ∀ xs : List Int,
      Tensor.broadcast_impl 0 [2] [1, 1, 1, 2] xs = .error .ill_formed := by
    intro xs
    unfold Tensor.broadcast_impl
    rw [if_neg (by decide), if_pos hb]
    rfl
  refine ⟨hE, ?_⟩
  unfold Tensor.where_
  simp only [promote_t_pair, hE, show promote_type .signed_int .signed_int =
    some .signed_int from by decide]
  rw [Tensor.convert_helper_eq_castThenBroadcast _ 0 .signed_int [2] .bool [1, 1, 1, 2]
    .ANY _ [1, 0] (ops_cast_any _ _ _) (by decide)]
  unfold castThenBroadcast
  rw [hbr]
  rfl

/-- C13, amended: let `T = promote(TL, TR)` and
`E = unify(extent(cond), unify(extent(true_values), extent(false_values)))`.
In the single header, and in `triops.h` when `E` has rank at most 3,
`where(cond, true_values, false_values)` returns a storage of extent `E`
whose element at every position is `cast_T` of the broadcast element of
`true_values` if the broadcast element of `cond`, cast to `bool`, is true,
and `cast_T` of the broadcast element of `false_values` otherwise. Witness:
`where([1,0,1], [10,20,30], [100,200,300]) = [10,200,30]`. -/
theorem C13_where_selects_elementwise {V : Type} (conv : ScalarType → ScalarType → V → V)
    (d : V) (truthy : V → Bool) (TC TL TR T : ScalarType)
    (hT : promote_type TL TR = some T) :
    (∀ (EC EL ER ELR E : Nat) (cond true_values false_values : List V),
      Single.broadcast_extent EL ER = some ELR → Single.broadcast_extent EC ELR = some E →
      cond.length = EC → true_values.length = EL → false_values.length = ER →
      ∃ out, Single.where_ conv d truthy TC EC cond TL EL true_values TR ER false_values =
          .ok out ∧ out.length = E ∧
        ∀ p, p < E → ∃ c l r,
          cond[if EC = 1 then 0 else p]? = some c ∧
          true_values[if EL = 1 then 0 else p]? = some l ∧
          false_values[if ER = 1 then 0 else p]? = some r ∧
          out[p]? = some (if truthy (castTo conv TC .bool c) then castTo conv TL T l
            else castTo conv TR T r)) ∧
    (∀ (EC EL ER ELR E : List Nat) (cond true_values false_values : List V),
      Tensor.broadcast_extents EL ER = some ELR → Tensor.broadcast_extents EC ELR = some E →
      E.length ≤ 3 →
      cond.length = volume EC → true_values.length = volume EL →
      false_values.length = volume ER →
      ∃ out, Tensor.where_ conv d truthy TC EC cond TL EL true_values TR ER false_values =
          .ok out ∧ out.length = volume E ∧
        ∀ x, Inside x E → ∃ c l r,
          cond[srcIndex EC E x]? = some c ∧
          true_values[srcIndex EL E x]? = some l ∧
          false_values[srcIndex ER E x]? = some r ∧
          out[rowMajor E x]? = some (if truthy (castTo conv TC .bool c)
            then castTo conv TL T l else castTo conv TR T r)) ∧
    Single.where_ (fun (_ R : ScalarType) (v : Int) => if R = .bool ∧ v ≠ 0 then 1 else v) 0
      (fun v => decide (v ≠ 0))
      .signed_int 3 [1, 0, 1] .signed_int 3 [10, 20, 30] .signed_int 3 [100, 200, 300] =
      .ok [10, 200, 30] ∧
    Tensor.where_ (fun (_ R : ScalarType) (v : Int) => if R = .bool ∧ v ≠ 0 then 1 else v) 0
      (fun v => decide (v ≠ 0))
      .signed_int [3] [1, 0, 1] .signed_int [3] [10, 20, 30] .signed_int [3] [100, 200, 300] =
      .ok [10, 200, 30] := by
  refine ⟨?_, ?_, ?_, ?_⟩
  · intro EC EL ER ELR E cond tv fv hELR hE hc hl hr
    exact Single.where_spec conv d truthy TC TL TR T EC EL ER ELR E cond tv fv hT hELR hE
      hc hl hr
  · intro EC EL ER ELR E cond tv fv hELR hE hrank hc hl hr
    exact Tensor.where_remap_spec conv d truthy TC TL TR T EC EL ER ELR E cond tv fv hT hELR hE
      hrank hc hl hr
  · have hE : (Single.broadcast_extent 3 3).bind (Single.broadcast_extent 3) = some 3 := by
      decide
    unfold Single.where_
    simp only [promote_t_pair, hE, show promote_type .signed_int .signed_int =
      some .signed_int from by decide]
    simp [Single.convert_helper, ops_cast, Single.apply_impl1, Single.apply_impl3, forLoop, rd,
      wr, ops_conditional, bind, Except.bind]
  · have hE : (Tensor.broadcast_extents [3] [3]).bind (Tensor.broadcast_extents [3]) =
        some [3] := by
      simp [Tensor.broadcast_extents, Tensor.broadcast_extents_helper]
    unfold Tensor.where_
    simp only [promote_t_pair, hE, show promote_type .signed_int .signed_int =
      some .signed_int from by decide]
    simp [Tensor.convert_helper, ops_cast, Single.apply_impl1, Single.apply_impl3, forLoop, rd,
      wr, ops_conditional, volume, bind, Except.bind]

/-- Witness for C13 (amended): scalar condition and scalar values of types
`int`, `int`, `float` give `promote(int, float) = float` and select the true
value. -/
theorem C13_where_selects_elementwise_witness :
    promote_type .signed_int .float = some .float ∧
    ∃ out, Single.where_ (fun (_ R : ScalarType) (v : Int) => if R = .bool ∧ v ≠ 0 then 1
          else v) 0 (fun v => decide (v ≠ 0))
        .signed_int 1 [5] .signed_int 3 [10, 20, 30] .float 1 [7] = .ok out ∧
      out.length = 3 ∧
      ∀ p, p < 3 → ∃ c l r,
        [(5 : Int)][if 1 = 1 then 0 else p]? = some c ∧
        [(10 : Int), 20, 30][if 3 = 1 then 0 else p]? = some l ∧
        [(7 : Int)][if 1 = 1 then 0 else p]? = some r ∧
        out[p]? = some (if (fun v => decide (v ≠ 0))
            (castTo (fun (_ R : ScalarType) (v : Int) => if R = .bool ∧ v ≠ 0 then 1 else v)
              .signed_int .bool c)
          then castTo (fun (_ R : ScalarType) (v : Int) => if R = .bool ∧ v ≠ 0 then 1 else v)
            .signed_int .float l
          else castTo (fun (_ R : ScalarType) (v : Int) => if R = .bool ∧ v ≠ 0 then 1 else v)
            .float .float r) :=
  ⟨by decide,
    (C13_where_selects_elementwise
      (fun (_ R : ScalarType) (v : Int) => if R = .bool ∧ v ≠ 0 then 1 else v) 0
      (fun v => decide (v ≠ 0)) ScalarType.signed_int ScalarType.signed_int ScalarType.float
      ScalarType.float (by decide)).1 1 3 1 3 3 [5] [10, 20, 30] [7]
      (by decide) (by decide) rfl rfl rfl⟩

/-! ## Claim C21: unification is reflexive -/

/-- C21: for every extent `E` of any rank, `broadcast_extents<E, E>` (the `<E, E>`
specialisation) is defined and equals `E`, and so is the dimension-wise
`unify_extents_helper<E, E>`; for every length `N` of the single header,
`broadcast_extent<extent<N>, extent<N>>` is defined and equals `extent<N>`. -/
theorem C21_unify_is_reflexive (E : List Nat) (N : Nat) :
    Tensor.broadcast_extents E E = some E ∧
    Tensor.unify_extents_helper E E = some E ∧
    (∀ n ∈ E, Tensor.unify_dimension_helper n n = some n) ∧
    Single.broadcast_extent N N = some N := by
  refine ⟨?_, Tensor.unify_extents_helper_self E, ?_, ?_⟩
  · simp [Tensor.broadcast_extents, Tensor.broadcast_extents_helper]
  · intro n _
    unfold Tensor.unify_dimension_helper
    by_cases h : n = 1 <;> simp [h]
  · rw [Single.broadcast_extent_eq_some]
    exact ⟨Or.inl rfl, by simp [dimUnified]⟩

/-! ## Claim C22: broadcasting twice -/

/-- C22: for every extent `A` broadcastable to `B` and every storage `x` of
extent `A`, broadcasting `broadcast(x, B)` again to `B` gives `broadcast(x, B)`
itself, in both headers; where the first broadcast has an instantiation (in
`broadcast.h`: target of rank at most 3 or `A = B`; in the single header:
`B` other than `extent<1>`) it returns a storage `y` of `volume B` elements
and the second broadcast returns `y`. -/
theorem C22_broadcast_is_idempotent {α : Type} (d : α) (A B : List Nat) (x : List α)
    (A1 B1 : Nat) (x1 : List α)
    (hb : Tensor.is_broadcastable A B = some true) (hx : x.length = volume A)
    (hb1 : Single.is_broadcastable A1 B1 = some true) (hx1 : x1.length = A1) :
    (Tensor.broadcast_impl d A B x >>= fun y => Tensor.broadcast_impl d B B y) =
      Tensor.broadcast_impl d A B x ∧
    (B.length ≤ 3 ∨ A = B →
      ∃ y, Tensor.broadcast_impl d A B x = .ok y ∧ y.length = volume B ∧
        Tensor.broadcast_impl d B B y = .ok y) ∧
    (Single.broadcast_impl d A1 B1 x1 >>= fun y => Single.broadcast_impl d B1 B1 y) =
      Single.broadcast_impl d A1 B1 x1 ∧
    (B1 ≠ 1 →
      ∃ y, Single.broadcast_impl d A1 B1 x1 = .ok y ∧ y.length = B1 ∧
        Single.broadcast_impl d B1 B1 y = .ok y) := by
  have hself : ∀ y : List α, Tensor.broadcast_impl d B B y = .ok y := by
    intro y
    unfold Tensor.broadcast_impl
    rw [if_pos rfl]
  have hself1 : B1 ≠ 1 → ∀ y : List α, Single.broadcast_impl d B1 B1 y = .ok y := by
    intro h1 y
    unfold Single.broadcast_impl
    rw [if_neg (by simp [h1]), if_neg h1, if_pos rfl]
  refine ⟨?_, ?_, ?_, ?_⟩
  · cases h : Tensor.broadcast_impl d A B x with
    | error e => rfl
    | ok y => exact hself y
  · rintro (hrank | hEq)
    · obtain ⟨y, hy, hlen, -⟩ := Tensor.broadcast_impl_remap d A B x hrank hb hx
      exact ⟨y, hy, hlen, hself y⟩
    · subst hEq
      exact ⟨x, hself x, hx, hself x⟩
  · by_cases h1 : B1 = 1
    · have herr : Single.broadcast_impl d A1 B1 x1 = .error .ill_formed := by
        unfold Single.broadcast_impl
        by_cases hA : A1 = 1
        · rw [if_pos ⟨hA, h1⟩]
        · rw [if_neg (by simp [hA]), if_neg hA]
          by_cases hAB : A1 = B1
          · exact absurd (hAB.trans h1) hA
          · rw [if_neg hAB]
      rw [herr]
      rfl
    · cases h : Single.broadcast_impl d A1 B1 x1 with
      | error e => rfl
      | ok y => exact hself1 h1 y
  · intro h1
    rcases Single.is_broadcastable_cases A1 B1 hb1 with hEq | ⟨hA, -⟩
    · subst hEq
      exact ⟨x1, hself1 h1 x1, hx1, hself1 h1 x1⟩
    · subst hA
      obtain ⟨a, rfl⟩ : ∃ a, x1 = [a] := List.length_eq_one.mp hx1
      refine ⟨List.replicate B1 a, Single.broadcast_impl_replicate d B1 a h1, by simp, ?_⟩
      exact hself1 h1 _

/-- Witness for C22: `[7]` of extent `extents<1>` to `extents<2, 2>`, and `[7]` of
`extent<1>` to `extent<4>`. -/
theorem C22_broadcast_is_idempotent_witness :
    (Tensor.broadcast_impl (0 : Int) [1] [2, 2] [7] >>=
        fun y => Tensor.broadcast_impl 0 [2, 2] [2, 2] y) =
      Tensor.broadcast_impl 0 [1] [2, 2] [7] ∧
    (Single.broadcast_impl (0 : Int) 1 4 [7] >>= fun y => Single.broadcast_impl 0 4 4 y) =
      Single.broadcast_impl 0 1 4 [7] :=
  have h := C22_broadcast_is_idempotent (0 : Int) [1] [2, 2] [7] 1 4 [7]
    (by rw [Tensor.is_broadcastable_eq_true, Tensor.broadcast_extents_eq]; decide)
    (by decide) (by decide) (by decide)
  ⟨h.1, h.2.2.1⟩

/-! ## Claims C23 and C24: broadcasting one value, and the fast path -/

theorem rowMajor_surj (E : List Nat) (p : Nat) (h : p < volume E) :
    ∃ x, Inside x E ∧ rowMajor E x = p := by
  induction E generalizing p with
  | nil =>
    have hp : p = 0 := by
      simp [volume] at h
      exact h
    exact ⟨[], List.Forall₂.nil, by simp [rowMajor, hp]⟩
  | cons n ns ih =>
    rw [volume_cons] at h
    have hpos : 0 < volume ns := by
      rcases Nat.eq_zero_or_pos (volume ns) with h0 | h0
      · rw [h0] at h
        simp at h
      · exact h0
    obtain ⟨xs, hxs, hr⟩ := ih (p % volume ns) (Nat.mod_lt _ hpos)
    refine ⟨p / volume ns :: xs, List.Forall₂.cons ?_ hxs, ?_⟩
    · exact Nat.div_lt_of_lt_mul (by rwa [Nat.mul_comm] at h)
    · simp only [rowMajor, hr]
      exact Nat.div_add_mod' p (volume ns)

theorem Tensor.unify_ones (To : List Nat) :
    Tensor.unify_extents_helper (List.replicate To.length 1) To = some To := by
  induction To with
  | nil => rfl
  | cons m ms ih =>
    have hd : Tensor.unify_dimension_helper 1 m = some m := by
      unfold Tensor.unify_dimension_helper
      by_cases h : m = 1
      · simp [h]
      · have h2 : ¬ (1 = m) := fun e => h e.symm
        simp [h, h2]
    simp only [List.length_cons, List.replicate_succ, Tensor.unify_extents_helper, hd, ih]

theorem Tensor.scalar_is_broadcastable (To : List Nat) :
    Tensor.is_broadcastable [] To = some true := by
  rw [Tensor.is_broadcastable_eq_true, Tensor.broadcast_extents_eq]
  have h1 : padLeft [] To.length = List.replicate To.length 1 := by
    simp [padLeft]
  have h2 : padLeft To ([] : List Nat).length = To :=
    padLeft_of_le To _ (Nat.zero_le _)
  rw [h1, h2]
  exact Tensor.unify_ones To

theorem Tensor.fill_spec {α : Type} (d : α) (To : List Nat) (v : α) (hrank : To.length ≤ 3) :
    Tensor.fill d To v = .ok (List.replicate (volume To) v) := by
  obtain ⟨out, hout, hlen, hval⟩ :=
    Tensor.broadcast_impl_remap d [] To [v] hrank (Tensor.scalar_is_broadcastable To)
      (by simp [volume])
  unfold Tensor.fill
  rw [hout]
  congr 1
  apply List.ext_getElem?
  intro p
  by_cases hp : p < volume To
  · obtain ⟨x, hx, rfl⟩ := rowMajor_surj To p hp
    obtain ⟨w, hw1, hw2⟩ := hval x hx
    have hw : w = v := by
      have hmem : w ∈ [v] := List.mem_iff_getElem?.mpr ⟨_, hw2⟩
      simpa using hmem
    rw [hw1, hw]
    simp [List.getElem?_replicate, hp]
  · rw [List.getElem?_eq_none (by omega), List.getElem?_eq_none (by simp; omega)]

/-- C23, evaluated on the code: `fill<1>(v)` (and `broadcast<1>` of a length-1
vector, `zeros<T, 1>()`, `ones<T, 1>()`) names `broadcast_impl<T, extent<1>, extent<1>>`,
which matches both partial specialisations with neither more specialised, so it
has no instantiation; for every other length `N` the single value is written to
all `N` positions, `[7]` to length 4 gives `[7, 7, 7, 7]`, and in `broadcast.h`
a scalar fills every extent of rank at most 3 with `volume` copies. -/
theorem C23_fill_of_length_1_has_no_instantiation :
    (∀ (α : Type) (d v : α), Single.fill d 1 v = .error .ill_formed) ∧
    (∀ (α : Type) (d v : α) (N : Nat), N ≠ 1 →
      Single.fill d N v = .ok (List.replicate N v)) ∧
    (∀ (α : Type) (d v : α) (To : List Nat), To.length ≤ 3 →
      Tensor.fill d To v = .ok (List.replicate (volume To) v)) ∧
    Single.fill (0 : Int) 4 7 = .ok [7, 7, 7, 7] ∧
    Single.broadcast_impl (0 : Int) 1 4 [7] = .ok [7, 7, 7, 7] ∧
    Tensor.fill (0 : Int) [2, 2] 7 = .ok [7, 7, 7, 7] := by
  refine ⟨?_, ?_, ?_, ?_, ?_, ?_⟩
  · intro α d v
    simp [Single.fill, Single.broadcast_impl]
  · intro α d v N hN
    exact Single.broadcast_impl_replicate d N v hN
  · intro α d v To hrank
    exact Tensor.fill_spec d To v hrank
  · exact Single.broadcast_impl_replicate 0 4 7 (by decide)
  · exact Single.broadcast_impl_replicate 0 4 7 (by decide)
  · exact Tensor.fill_spec 0 [2, 2] 7 (by decide)

/-- The generic copy path over one extent `E` of rank at most 3 returns its
input. -/
theorem Tensor.copy_helper_same {α : Type} (d : α) (E : List Nat) (x : List α)
    (hrank : E.length ≤ 3) (hx : x.length = volume E) :
    Tensor.copy_helper E (Tensor.strides_helper E) (Tensor.strides_helper E)
      (List.replicate (volume E) d) x = .ok x := by
  have hF : List.Forall₂ (fun f t => f = 1 ∨ f = t) E E :=
    List.forall₂_same.mpr (fun _ _ => Or.inr rfl)
  obtain ⟨out, h1, h2, h3, -⟩ :=
    copies_copy_helper E E x hrank hF hx (List.replicate (volume E) d) (by simp)
  simp only [] at h1
  rw [h1]
  congr 1
  apply List.ext_getElem?
  intro p
  by_cases hp : p < volume E
  · obtain ⟨y, hy, rfl⟩ := rowMajor_surj E p hp
    have h := (h3 (rowMajor E y) (rowMajor E (zeroUnit E y)) ⟨y, hy, rfl, rfl⟩).2
    rw [zeroUnit_self hy] at h
    exact h
  · rw [List.getElem?_eq_none (by omega), List.getElem?_eq_none (by omega)]

/-! ## Claim C24: the fast path of `broadcast_impl` -/

/-- C24: for every extent `E` of rank at most 3 and every storage `x` of extent
`E`, the `<T, E, E>` specialisation of `broadcast_impl` returns `x`, and the
primary template (the address-remapping `copy_helper` with the strides of `E`
for input and output) applied to the same `x` returns `x` as well; in the
single header the body of the `<extent<1>, extent<N>>` specialisation at
`N = 1` and the body of the `<extent<N>, extent<N>>` specialisation return the
same storage for every one-element input. -/
theorem C24_fast_path_is_invisible {α : Type} (d : α) (E : List Nat) (x : List α)
    (hrank : E.length ≤ 3) (hx : x.length = volume E) :
    Tensor.broadcast_impl d E E x = .ok x ∧
    Tensor.broadcast_impl_primary d E E x = .ok x ∧
    Tensor.copy_helper E (Tensor.strides_helper E) (Tensor.strides_helper E)
      (List.replicate (volume E) d) x = .ok x ∧
    (∀ a : α, Single.broadcast_impl_replicate_path d 1 [a] = .ok [a] ∧
      Single.broadcast_impl_identity_path [a] = .ok [a]) := by
  refine ⟨?_, ?_, Tensor.copy_helper_same d E x hrank hx, ?_⟩
  · unfold Tensor.broadcast_impl
    rw [if_pos rfl]
  · have hb : Tensor.is_broadcastable E E = some true := by
      simp [Tensor.is_broadcastable, Tensor.broadcast_extents, Tensor.broadcast_extents_helper]
    unfold Tensor.broadcast_impl_primary
    rw [if_pos hb, Tensor.extents_to_rank_eq, padLeft_of_le E E.length (le_refl _)]
    exact Tensor.copy_helper_same d E x hrank hx
  · intro a
    constructor
    · simp [Single.broadcast_impl_replicate_path, forLoop, rd, wr, bind, Except.bind]
    · rfl

/-- Witness for C24: the extent `extents<2, 2>` with the storage `[1, 2, 3, 4]`. -/
theorem C24_fast_path_is_invisible_witness :
    Tensor.broadcast_impl (0 : Int) [2, 2] [2, 2] [1, 2, 3, 4] = .ok [1, 2, 3, 4] ∧
    Tensor.broadcast_impl_primary (0 : Int) [2, 2] [2, 2] [1, 2, 3, 4] = .ok [1, 2, 3, 4] :=
  have h := C24_fast_path_is_invisible (0 : Int) [2, 2] [1, 2, 3, 4] (by decide) (by decide)
  ⟨h.1, h.2.1⟩

/-! ## Claim C25: conversion to the same type and extent -/

/-- C25: for every storage `x`, element type `T`, extent `E` and rounding mode
`M`, `convert_helper<T, E, T, E, M>` returns `x` itself in both headers (whatever
the cast functor would do and whether or not a cast or a copy loop exists for
`T`, `E` and `M`), and so do `convert_storage` of the single header and
`convert` of `broadcast.h`. -/
theorem C25_convert_to_same_is_identity {V : Type} (conv : ScalarType → ScalarType → V → V)
    (d : V) (T : ScalarType) (E : List Nat) (N : Nat) (M : RoundingMode) (x : List V) :
    Tensor.convert_helper conv d T E T E M x = .ok x ∧
    Tensor.convert conv d T E T E M x = .ok x ∧
    Single.convert_helper conv d T N T N M x = .ok x ∧
    Single.convert_storage conv d T N T N M x = .ok x := by
  refine ⟨?_, ?_, ?_, ?_⟩
  · unfold Tensor.convert_helper
    rw [if_pos ⟨rfl, rfl⟩]
  · unfold Tensor.convert Tensor.convert_helper
    rw [if_pos ⟨rfl, rfl⟩]
  · unfold Single.convert_helper
    rw [if_pos ⟨rfl, rfl⟩]
  · unfold Single.convert_storage Single.convert_helper
    rw [if_pos ⟨rfl, rfl⟩]

/-! ## Claims C26 to C30: `sum`, `min`, `max`, `dot`, `count`, `all` -/

theorem Single.reduce_primary {V : Type} (T : ScalarType) (fn : V → V → V)
    (zipx2 : V × V → V × V → V × V) (v0 : V) (rest : List V)
    (hT : ¬ (T = .half ∨ T = .bfloat16)) (h17 : rest.length + 1 ≤ 17) :
    Single.reduce T (rest.length + 1) fn zipx2 (v0 :: rest) = .ok (rest.foldl fn v0) := by
  unfold Single.reduce
  rw [if_neg hT]
  exact Single.reduce_loop_spec fn v0 rest h17

theorem Single.reduce_too_long {V : Type} (T : ScalarType) (N : Nat) (fn : V → V → V)
    (zipx2 : V × V → V × V → V × V) (input : List V)
    (hT : ¬ (T = .half ∨ T = .bfloat16)) (h17 : 17 < N) :
    Single.reduce T N fn zipx2 input = .error .ill_formed := by
  unfold Single.reduce Single.reduce_helper
  rw [if_neg hT, make_index_sequence_large N h17]

theorem Tensor.reduce_recursion_too_long {V : Type} (fn : V → V → V) (input : List V)
    (h17 : 17 < input.length) : Tensor.reduce_helper fn input = .error .ill_formed := by
  unfold Tensor.reduce_helper
  rw [make_index_sequence_large _ h17]

/-! ### Conversion to an integer type -/

theorem two_pow_succ_pred (w : Nat) (hw : 1 ≤ w) :
    (2 : Int) ^ w = 2 ^ (w - 1) + 2 ^ (w - 1) := by
  obtain ⟨k, rfl⟩ : ∃ k, w = k + 1 := ⟨w - 1, by omega⟩
  rw [Nat.add_sub_cancel, pow_succ]
  ring

/-- Converting an intermediate sum first changes nothing. -/
theorem integer_conversion_add (is_signed : Bool) (w : Nat) (a b : Int) :
    integer_conversion is_signed w (integer_conversion is_signed w a + b) =
      integer_conversion is_signed w (a + b) := by
  unfold integer_conversion
  cases is_signed
  · simp only [Bool.false_eq_true, if_false]
    rw [Int.emod_add_emod]
  · simp only [if_true]
    have h : (a + 2 ^ (w - 1)) % 2 ^ w - 2 ^ (w - 1) + b + 2 ^ (w - 1) =
        (a + 2 ^ (w - 1)) % 2 ^ w + b := by ring
    rw [h, Int.emod_add_emod]
    congr 2
    ring

theorem integer_conversion_idem (is_signed : Bool) (w : Nat) (a : Int) :
    integer_conversion is_signed w (integer_conversion is_signed w a) =
      integer_conversion is_signed w a := by
  have h := integer_conversion_add is_signed w a 0
  simpa using h

theorem integer_conversion_add_right (is_signed : Bool) (w : Nat) (a b : Int) :
    integer_conversion is_signed w (a + integer_conversion is_signed w b) =
      integer_conversion is_signed w (a + b) := by
  rw [Int.add_comm, integer_conversion_add, Int.add_comm]

/-- The converted value is congruent to the exact one modulo `2 ^ w`. -/
theorem integer_conversion_emod (is_signed : Bool) (w : Nat) (x : Int) :
    integer_conversion is_signed w x % 2 ^ w = x % 2 ^ w := by
  unfold integer_conversion
  cases is_signed
  · simp only [Bool.false_eq_true, if_false]
    exact Int.emod_emod_of_dvd x (dvd_refl _)
  · simp only [if_true]
    rw [Int.sub_emod, Int.emod_emod_of_dvd _ (dvd_refl _), ← Int.sub_emod]
    congr 1
    ring

/-- The converted value is a value of the type. -/
theorem integer_conversion_representable (is_signed : Bool) (w : Nat) (hw : 1 ≤ w) (x : Int) :
    representable is_signed w (integer_conversion is_signed w x) := by
  have hpos : (0 : Int) < 2 ^ w := by positivity
  unfold representable integer_conversion
  cases is_signed
  · simp only [Bool.false_eq_true, if_false]
    exact ⟨Int.emod_nonneg _ (ne_of_gt hpos), Int.emod_lt_of_pos _ hpos⟩
  · simp only [if_true]
    have h1 := Int.emod_nonneg (x + 2 ^ (w - 1)) (ne_of_gt hpos)
    have h2 := Int.emod_lt_of_pos (x + 2 ^ (w - 1)) hpos
    have hM := two_pow_succ_pred w hw
    constructor <;> omega

/-- A value of the type is converted to itself, and no other value is. -/
theorem integer_conversion_eq_self_iff (is_signed : Bool) (w : Nat) (hw : 1 ≤ w) (x : Int) :
    integer_conversion is_signed w x = x ↔ representable is_signed w x := by
  constructor
  · intro h
    rw [← h]
    exact integer_conversion_representable is_signed w hw x
  · intro h
    have hpos : (0 : Int) < 2 ^ w := by positivity
    unfold representable at h
    unfold integer_conversion
    cases is_signed
    · simp only [Bool.false_eq_true, if_false] at h ⊢
      exact Int.emod_eq_of_lt h.1 h.2
    · simp only [if_true] at h ⊢
      have hM := two_pow_succ_pred w hw
      rw [Int.emod_eq_of_lt (by omega) (by omega)]
      ring

theorem foldl_ops_add (is_signed : Bool) (w : Nat) (l : List Int) (a : Int)
    (ha : integer_conversion is_signed w a = a) :
    l.foldl (ops_add (integer_conversion is_signed w)) a =
      integer_conversion is_signed w (a + l.sum) := by
  induction l generalizing a with
  | nil => simpa using ha.symm
  | cons b bs ih =>
    have hstep : ops_add (integer_conversion is_signed w) a b =
        integer_conversion is_signed w (a + b) := rfl
    rw [List.foldl_cons, hstep, ih _ (integer_conversion_idem is_signed w (a + b)),
      List.sum_cons, integer_conversion_add, Int.add_assoc]

theorem integer_conversion_sum_map (is_signed : Bool) (w : Nat) (l : List Int) :
    integer_conversion is_signed w (l.map (integer_conversion is_signed w)).sum =
      integer_conversion is_signed w l.sum := by
  induction l with
  | nil => rfl
  | cons b bs ih =>
    rw [List.map_cons, List.sum_cons, List.sum_cons, integer_conversion_add,
      ← integer_conversion_add_right is_signed w b (List.map _ bs).sum, ih,
      integer_conversion_add_right]
theorem foldl_ops_add_unsigned (w : Nat) (l : List Nat) (a : Nat) (ha : a < 2 ^ w) :
    l.foldl (ops_add_unsigned w) a = (a + l.sum) % 2 ^ w := by
  induction l generalizing a with
  | nil => simp [Nat.mod_eq_of_lt ha]
  | cons b bs ih =>
    have hpos : 0 < 2 ^ w := Nat.pow_pos (by decide)
    have hlt : ops_add_unsigned w a b < 2 ^ w := Nat.mod_lt _ hpos
    rw [List.foldl_cons, ih _ hlt, List.sum_cons]
    unfold ops_add_unsigned
    rw [Nat.add_mod, Nat.mod_mod, ← Nat.add_mod, Nat.add_assoc]

theorem foldl_ops_min (l : List Int) (a : Int) :
    (l.foldl ops_min a ≤ a ∧ ∀ b ∈ l, l.foldl ops_min a ≤ b) ∧
    (l.foldl ops_min a = a ∨ l.foldl ops_min a ∈ l) := by
  induction l generalizing a with
  | nil => simp
  | cons b bs ih =>
    obtain ⟨⟨h1, h2⟩, h3⟩ := ih (ops_min a b)
    have ha : ops_min a b ≤ a := min_le_left a b
    have hb : ops_min a b ≤ b := min_le_right a b
    refine ⟨⟨le_trans h1 ha, ?_⟩, ?_⟩
    · intro c hc
      rcases List.mem_cons.mp hc with rfl | hc
      · exact le_trans h1 hb
      · exact h2 c hc
    · rw [List.foldl_cons]
      rcases h3 with h3 | h3
      · rcases min_choice a b with hm | hm
        · left
          rw [h3]
          exact hm
        · right
          rw [h3]
          exact List.mem_cons.mpr (Or.inl hm)
      · right
        exact List.mem_cons_of_mem _ h3

theorem foldl_ops_max (l : List Int) (a : Int) :
    (a ≤ l.foldl ops_max a ∧ ∀ b ∈ l, b ≤ l.foldl ops_max a) ∧
    (l.foldl ops_max a = a ∨ l.foldl ops_max a ∈ l) := by
  induction l generalizing a with
  | nil => simp
  | cons b bs ih =>
    obtain ⟨⟨h1, h2⟩, h3⟩ := ih (ops_max a b)
    have ha : a ≤ ops_max a b := le_max_left a b
    have hb : b ≤ ops_max a b := le_max_right a b
    refine ⟨⟨le_trans ha h1, ?_⟩, ?_⟩
    · intro c hc
      rcases List.mem_cons.mp hc with rfl | hc
      · exact le_trans hb h1
      · exact h2 c hc
    · rw [List.foldl_cons]
      rcases h3 with h3 | h3
      · rcases max_choice a b with hm | hm
        · left
          rw [h3]
          exact hm
        · right
          rw [h3]
          exact List.mem_cons.mpr (Or.inl hm)
      · right
        exact List.mem_cons_of_mem _ h3

theorem foldl_ops_bit_and_bool (l : List Bool) (a : Bool) :
    l.foldl ops_bit_and_bool a = (a && l.all id) := by
  induction l generalizing a with
  | nil => simp
  | cons b bs ih =>
    rw [List.foldl_cons, ih]
    simp [ops_bit_and_bool, Bool.and_assoc]

theorem sum_of_flags {V : Type} (to_bool : V → Bool) (l : List V) :
    List.sum ((l.map to_bool).map (fun b : Bool => if b then (1 : Int) else 0)) =
      ((l.countP to_bool : Nat) : Int) := by
  induction l with
  | nil => simp
  | cons a as ih =>
    rw [List.map_cons, List.map_cons, List.sum_cons, ih, List.countP_cons]
    cases to_bool a <;> simp
    omega
theorem integer_type_not_packed (T : ScalarType) (hT : T ∈ integer_types) :
    ¬ (T = .half ∨ T = .bfloat16) := by
  rintro (rfl | rfl) <;> simp [integer_types] at hT

theorem Single.sum_spec (T : ScalarType) (addx2 : Int × Int → Int × Int → Int × Int)
    (is_signed : Bool) (w : Nat) (v : List Int) (hT : ¬ (T = .half ∨ T = .bfloat16))
    (hv : 1 ≤ v.length ∧ v.length ≤ 17)
    (hrange : ∀ a ∈ v, integer_conversion is_signed w a = a) :
    Single.sum T v.length (ops_add (integer_conversion is_signed w)) addx2 v =
      .ok (integer_conversion is_signed w v.sum) := by
  obtain ⟨v0, rest, rfl⟩ := List.exists_cons_of_ne_nil (List.ne_nil_of_length_pos hv.1)
  unfold Single.sum
  rw [List.sum_cons, ← foldl_ops_add is_signed w rest v0 (hrange v0 (List.mem_cons_self _ _))]
  exact Single.reduce_primary T _ addx2 v0 rest hT hv.2

theorem Tensor.sum_recursion_spec (is_signed : Bool) (w : Nat) (v : List Int)
    (hv : 1 ≤ v.length ∧ v.length ≤ 17)
    (hrange : ∀ a ∈ v, integer_conversion is_signed w a = a) :
    Tensor.sum (ops_add (integer_conversion is_signed w)) v =
      .ok (integer_conversion is_signed w v.sum) := by
  obtain ⟨v0, rest, rfl⟩ := List.exists_cons_of_ne_nil (List.ne_nil_of_length_pos hv.1)
  unfold Tensor.sum
  rw [List.sum_cons, ← foldl_ops_add is_signed w rest v0 (hrange v0 (List.mem_cons_self _ _))]
  exact Tensor.reduce_recursion_spec _ v0 rest hv.2

/-- C26 as stated fails for long vectors: `sum` of a vector of 18 `int`
elements has no instantiation in either header, since the index sequence that
`reduce_helper::call` asks for is predefined for lengths 0 to 17 only. -/
theorem C26_sum_of_18_elements_is_rejected :
    Single.sum .signed_int 18 (ops_add (integer_conversion true 32))
      (Single.zip_halfx2 (ops_add (integer_conversion true 32)))
      (List.replicate 18 (1 : Int)) = .error .ill_formed ∧
    Tensor.sum (ops_add (integer_conversion true 32)) (List.replicate 18 (1 : Int)) =
      .error .ill_formed :=
  ⟨Single.reduce_too_long _ 18 _ _ _ (by decide) (by decide),
    Tensor.reduce_recursion_too_long _ _ (by simp)⟩

/-- C26, amended: for every vector `v` of `N` elements, `1 ≤ N ≤ 17`, of an integer
type of `w` bits (signed or unsigned; the elements are values of that type),
`sum(v)`, computed with `ops::add<T>` = `T(left + right)`, is in both headers
the value of the type that is congruent to `v[0] + v[1] + ... + v[N-1]` modulo
`2 ^ w`; it is that sum exactly whenever the sum is a value of the type.
`sum([5,0,2,1,0]) = 8`; for `signed char`, `sum([100, 100]) = -56`; for
`unsigned char`, `sum([200, 100, 7]) = 51`. -/
theorem C26_sum_adds_all_elements (T : ScalarType)
    (addx2 : Int × Int → Int × Int → Int × Int) (is_signed : Bool) (w : Nat) (v : List Int)
    (hT : T ∈ integer_types) (hw : 1 ≤ w) (hv : 1 ≤ v.length ∧ v.length ≤ 17)
    (hrange : ∀ a ∈ v, representable is_signed w a) :
    Single.sum T v.length (ops_add (integer_conversion is_signed w)) addx2 v =
      .ok (integer_conversion is_signed w v.sum) ∧
    Tensor.sum (ops_add (integer_conversion is_signed w)) v =
      .ok (integer_conversion is_signed w v.sum) ∧
    integer_conversion is_signed w v.sum % 2 ^ w = v.sum % 2 ^ w ∧
    representable is_signed w (integer_conversion is_signed w v.sum) ∧
    (representable is_signed w v.sum →
      Single.sum T v.length (ops_add (integer_conversion is_signed w)) addx2 v = .ok v.sum ∧
      Tensor.sum (ops_add (integer_conversion is_signed w)) v = .ok v.sum) ∧
    Single.sum .signed_int 5 (ops_add (integer_conversion true 32))
      (Single.zip_halfx2 (ops_add (integer_conversion true 32))) [5, 0, 2, 1, 0] = .ok 8 ∧
    Tensor.sum (ops_add (integer_conversion true 32)) [5, 0, 2, 1, 0] = .ok 8 ∧
    Single.sum .signed_char 2 (ops_add (integer_conversion true 8))
      (Single.zip_halfx2 (ops_add (integer_conversion true 8))) [100, 100] = .ok (-56) ∧
    Single.sum .unsigned_char 3 (ops_add (integer_conversion false 8))
      (Single.zip_halfx2 (ops_add (integer_conversion false 8))) [200, 100, 7] = .ok 51 ∧
    Single.sum .unsigned_char 3 (ops_add_unsigned 8)
      (Single.zip_halfx2 (ops_add_unsigned 8)) [200, 100, 7] = .ok 51 := by
  have hprim := integer_type_not_packed T hT
  have hself : ∀ a ∈ v, integer_conversion is_signed w a = a :=
    fun a ha => (integer_conversion_eq_self_iff is_signed w hw a).2 (hrange a ha)
  have h1 := Single.sum_spec T addx2 is_signed w v hprim hv hself
  have h2 := Tensor.sum_recursion_spec is_signed w v hv hself
  refine ⟨h1, h2, integer_conversion_emod is_signed w v.sum,
    integer_conversion_representable is_signed w hw v.sum, ?_,
    Single.sum_spec .signed_int _ true 32 [5, 0, 2, 1, 0] (by decide) (by decide) (by decide),
    Tensor.sum_recursion_spec true 32 [5, 0, 2, 1, 0] (by decide) (by decide),
    Single.sum_spec .signed_char _ true 8 [100, 100] (by decide) (by decide) (by decide),
    Single.sum_spec .unsigned_char _ false 8 [200, 100, 7] (by decide) (by decide)
      (by decide), ?_⟩
  · intro hsum
    rw [h1, h2, (integer_conversion_eq_self_iff is_signed w hw v.sum).2 hsum]
    exact ⟨rfl, rfl⟩
  · unfold Single.sum
    rw [show ([200, 100, 7] : List Nat) = 200 :: [100, 7] from rfl]
    exact Single.reduce_primary .unsigned_char (ops_add_unsigned 8) _ 200 [100, 7]
      (by decide) (by decide)

/-- Witness for C26 (amended): `[100, 100, 100]` of `signed char` sums to
`300 - 256 = 44`, and `[3, -1, 4]` of `long` (64 bits) sums to 6 exactly. -/
theorem C26_sum_adds_all_elements_witness :
    Single.sum .signed_char 3 (ops_add (integer_conversion true 8))
      (Single.zip_halfx2 (ops_add (integer_conversion true 8))) [100, 100, 100] = .ok 44 ∧
    Tensor.sum (ops_add (integer_conversion true 8)) [100, 100, 100] = .ok 44 ∧
    Single.sum .signed_long 3 (ops_add (integer_conversion true 64))
      (Single.zip_halfx2 (ops_add (integer_conversion true 64))) [3, -1, 4] = .ok 6 :=
  have h8 : ∀ a ∈ ([100, 100, 100] : List Int), integer_conversion true 8 a = a := by decide
  have h64 : ∀ a ∈ ([3, -1, 4] : List Int), integer_conversion true 64 a = a := by decide
  have hc := C26_sum_adds_all_elements .signed_char
    (Single.zip_halfx2 (ops_add (integer_conversion true 8))) true 8 [100, 100, 100]
    (by decide) (by decide) (by decide)
    (fun a ha => (integer_conversion_eq_self_iff true 8 (by decide) a).1 (h8 a ha))
  have hl := C26_sum_adds_all_elements .signed_long
    (Single.zip_halfx2 (ops_add (integer_conversion true 64))) true 64 [3, -1, 4]
    (by decide) (by decide) (by decide)
    (fun a ha => (integer_conversion_eq_self_iff true 64 (by decide) a).1 (h64 a ha))
  ⟨hc.1, hc.2.1, hl.1⟩
/-- C27 as stated fails for long vectors: `min` and `max` of a vector of 18 `int`
elements have no instantiation in either header (no index sequence of length
18). -/
theorem C27_min_max_of_18_elements_are_rejected :
    Single.min .signed_int 18 ops_min (Single.zip_halfx2 ops_min)
      (List.replicate 18 (1 : Int)) = .error .ill_formed ∧
    Single.max .signed_int 18 ops_max (Single.zip_halfx2 ops_max)
      (List.replicate 18 (1 : Int)) = .error .ill_formed ∧
    Tensor.min ops_min (List.replicate 18 (1 : Int)) = .error .ill_formed ∧
    Tensor.max ops_max (List.replicate 18 (1 : Int)) = .error .ill_formed :=
  ⟨Single.reduce_too_long _ 18 _ _ _ (by decide) (by decide),
    Single.reduce_too_long _ 18 _ _ _ (by decide) (by decide),
    Tensor.reduce_recursion_too_long _ _ (by simp), Tensor.reduce_recursion_too_long _ _ (by simp)⟩

/-- C27, amended: for every integer vector `v` of `N` elements with
`1 ≤ N ≤ 17`, `min(v)` and `max(v)` return values `lo` and `hi` (the same in both
headers) with `lo ≤ v[i] ≤ hi` for every index `i`, and both `lo` and `hi` occur
in `v`; for `[5,0,2,1,0]`, `min = 0` and `max = 5`. -/
theorem C27_min_and_max_bound_the_vector (T : ScalarType)
    (minx2 maxx2 : Int × Int → Int × Int → Int × Int) (v : List Int)
    (hT : T ∈ integer_types) (hv : 1 ≤ v.length ∧ v.length ≤ 17) :
    (∃ lo hi : Int,
      Single.min T v.length ops_min minx2 v = .ok lo ∧ Tensor.min ops_min v = .ok lo ∧
      Single.max T v.length ops_max maxx2 v = .ok hi ∧ Tensor.max ops_max v = .ok hi ∧
      (∀ (i : Nat) (a : Int), v[i]? = some a → lo ≤ a ∧ a ≤ hi) ∧ lo ∈ v ∧ hi ∈ v) ∧
    Single.min .signed_int 5 ops_min (Single.zip_halfx2 ops_min) ([5, 0, 2, 1, 0] : List Int) =
      .ok 0 ∧
    Single.max .signed_int 5 ops_max (Single.zip_halfx2 ops_max) ([5, 0, 2, 1, 0] : List Int) =
      .ok 5 ∧
    Tensor.min ops_min ([5, 0, 2, 1, 0] : List Int) = .ok 0 ∧
    Tensor.max ops_max ([5, 0, 2, 1, 0] : List Int) = .ok 5 := by
  have hprim := integer_type_not_packed T hT
  have h5 : ¬ (ScalarType.signed_int = .half ∨ ScalarType.signed_int = .bfloat16) := by
    decide
  refine ⟨?_, Single.reduce_primary .signed_int ops_min _ 5 [0, 2, 1, 0] h5 (by decide),
    Single.reduce_primary .signed_int ops_max _ 5 [0, 2, 1, 0] h5 (by decide),
    Tensor.reduce_recursion_spec ops_min 5 [0, 2, 1, 0] (by decide),
    Tensor.reduce_recursion_spec ops_max 5 [0, 2, 1, 0] (by decide)⟩
  obtain ⟨v0, rest, rfl⟩ := List.exists_cons_of_ne_nil (List.ne_nil_of_length_pos hv.1)
  obtain ⟨⟨hlo0, hlo⟩, hlomem⟩ := foldl_ops_min rest v0
  obtain ⟨⟨hhi0, hhi⟩, hhimem⟩ := foldl_ops_max rest v0
  refine ⟨rest.foldl ops_min v0, rest.foldl ops_max v0,
    Single.reduce_primary T ops_min minx2 v0 rest hprim hv.2,
    Tensor.reduce_recursion_spec ops_min v0 rest hv.2,
    Single.reduce_primary T ops_max maxx2 v0 rest hprim hv.2,
    Tensor.reduce_recursion_spec ops_max v0 rest hv.2, ?_, ?_, ?_⟩
  · intro i a hi
    have hmem : a ∈ v0 :: rest := List.mem_iff_getElem?.mpr ⟨i, hi⟩
    rcases List.mem_cons.mp hmem with rfl | hmem
    · exact ⟨hlo0, hhi0⟩
    · exact ⟨hlo a hmem, hhi a hmem⟩
  · rcases hlomem with h | h
    · rw [h]
      exact List.mem_cons_self _ _
    · exact List.mem_cons_of_mem _ h
  · rcases hhimem with h | h
    · rw [h]
      exact List.mem_cons_self _ _
    · exact List.mem_cons_of_mem _ h

/-- Witness for C27 (amended): the vector `[3, -1, 4]` of `long`. -/
theorem C27_min_and_max_bound_the_vector_witness :
    ∃ lo hi : Int,
      Single.min .signed_long 3 ops_min (Single.zip_halfx2 ops_min) [3, -1, 4] = .ok lo ∧
      Tensor.min ops_min [3, -1, 4] = .ok lo ∧
      Single.max .signed_long 3 ops_max (Single.zip_halfx2 ops_max) [3, -1, 4] = .ok hi ∧
      Tensor.max ops_max [3, -1, 4] = .ok hi ∧
      (∀ (i : Nat) (a : Int), [3, -1, 4][i]? = some a → lo ≤ a ∧ a ≤ hi) ∧
      lo ∈ [3, -1, 4] ∧ hi ∈ [3, -1, 4] :=
  (C27_min_and_max_bound_the_vector .signed_long (Single.zip_halfx2 ops_min)
    (Single.zip_halfx2 ops_max) [3, -1, 4] (by simp [integer_types]) (by decide)).1

/-! ### `dot` -/

theorem Single.convert_helper_same_extent {V : Type} (conv : ScalarType → ScalarType → V → V)
    (d : V) (T T2 : ScalarType) (E : Nat) (input : List V) (hlen : input.length = E) :
    Single.convert_helper conv d T E T2 E .ANY input =
      .ok (input.map (castTo conv T T2)) := by
  unfold Single.convert_helper
  by_cases hT : T = T2
  · rw [if_pos ⟨hT, rfl⟩]
    have hid : castTo conv T T2 = fun a => a := by
      funext a
      simp [castTo, hT]
    rw [hid, List.map_id']
  · rw [if_neg (fun h => hT h.1), if_neg hT, if_pos rfl, ops_cast_any]
    exact Single.apply_impl1_spec d E _ input hlen

theorem Single.dot_products_spec {V : Type} [Mul V]
    (conv : ScalarType → ScalarType → V → V) (d : V) (to_T : V → V)
    (multiplyx2 : V × V → V × V → V × V) (TL TR T : ScalarType)
    (l r : List V) (hT : promote_type TL TR = some T)
    (hprim : ¬ (T = .half ∨ T = .bfloat16)) (hr : r.length = l.length) :
    Single.zip_common conv d (fun O => O) multiplyx2 (ops_multiply to_T)
        TL l.length l TR l.length r =
      .ok (List.zipWith (fun a b => to_T (castTo conv TL T a * castTo conv TR T b)) l r) := by
  have hE : Single.broadcast_extent l.length l.length = some l.length := by
    rw [Single.broadcast_extent_eq_some]
    exact ⟨Or.inl rfl, by simp [dimUnified]⟩
  unfold Single.zip_common
  simp only [hT, hE]
  rw [Single.convert_helper_same_extent conv d TL T l.length l rfl,
    Single.convert_helper_same_extent conv d TR T l.length r hr]
  have hsel : ¬ ((T = .half ∧ T = .half ∧ T = .half) ∨
      (T = .bfloat16 ∧ T = .bfloat16 ∧ T = .bfloat16)) := by
    rintro (⟨h, -, -⟩ | ⟨h, -, -⟩)
    · exact hprim (Or.inl h)
    · exact hprim (Or.inr h)
  simp only [bind, Except.bind, Single.apply_impl_zip]
  rw [if_neg hsel, Single.apply_impl2_spec d l.length (ops_multiply to_T)
    (l.map (castTo conv TL T)) (r.map (castTo conv TR T)) (by simp) (by simp [hr])]
  congr 1
  rw [List.zipWith_map]
  rfl

theorem Single.dot_eq_reduce {V : Type} [Mul V]
    (conv : ScalarType → ScalarType → V → V) (d : V) (to_T : V → V) (add : V → V → V)
    (addx2 multiplyx2 : V × V → V × V → V × V) (TL TR T : ScalarType)
    (l r : List V) (hT : promote_type TL TR = some T)
    (hprim : ¬ (T = .half ∨ T = .bfloat16)) (hr : r.length = l.length) :
    Single.dot conv d add addx2 (ops_multiply to_T) multiplyx2 TL l.length l TR l.length r =
      Single.reduce T l.length add addx2
        (List.zipWith (fun a b => to_T (castTo conv TL T a * castTo conv TR T b)) l r) := by
  have hE : Single.broadcast_extent l.length l.length = some l.length := by
    rw [Single.broadcast_extent_eq_some]
    exact ⟨Or.inl rfl, by simp [dimUnified]⟩
  unfold Single.dot
  simp only [promote_t_pair, hT, hE,
    Single.dot_products_spec conv d to_T multiplyx2 TL TR T l r hT hprim hr, bind, Except.bind]

theorem promote_type_int_int : promote_type .signed_int .signed_int = some .signed_int := by
  unfold promote_type
  rw [if_pos rfl]

theorem zipWith_conversion (is_signed : Bool) (w : Nat) (f g : Int → Int) (l r : List Int) :
    List.zipWith (fun a b => integer_conversion is_signed w (f a * g b)) l r =
      (List.zipWith (fun a b => f a * g b) l r).map (integer_conversion is_signed w) := by
  rw [List.map_zipWith]

/-- The value of `dot` on two vectors of the same length from 1 to 17 whose
promoted type is an integer type of `w` bits. -/
theorem Single.dot_spec (conv : ScalarType → ScalarType → Int → Int) (d : Int)
    (addx2 multiplyx2 : Int × Int → Int × Int → Int × Int) (is_signed : Bool) (w : Nat)
    (TL TR T : ScalarType) (l r : List Int) (hT : promote_type TL TR = some T)
    (hprim : ¬ (T = .half ∨ T = .bfloat16))
    (hl : 1 ≤ l.length ∧ l.length ≤ 17) (hr : r.length = l.length) :
    Single.dot conv d (ops_add (integer_conversion is_signed w)) addx2
        (ops_multiply (integer_conversion is_signed w)) multiplyx2
        TL l.length l TR l.length r =
      .ok (integer_conversion is_signed w (List.sum
        (List.zipWith (fun a b => castTo conv TL T a * castTo conv TR T b) l r))) := by
  rw [Single.dot_eq_reduce conv d (integer_conversion is_signed w) _ addx2 multiplyx2
    TL TR T l r hT hprim hr, zipWith_conversion]
  have hlen : ((List.zipWith (fun a b => castTo conv TL T a * castTo conv TR T b) l r).map
      (integer_conversion is_signed w)).length = l.length := by
    simp [hr]
  have h := Single.sum_spec T addx2 is_signed w _ hprim (by rw [hlen]; exact hl)
    (by
      intro a ha
      obtain ⟨b, -, rfl⟩ := List.mem_map.1 ha
      exact integer_conversion_idem is_signed w b)
  rw [hlen, integer_conversion_sum_map] at h
  exact h

/-- C28 as stated fails for long vectors, for vectors without a promoted type
and on overflow: `dot` of two vectors of 18 `int` elements has no instantiation
(no index sequence of length 18); `dot` of an `int` vector with an
`unsigned int` vector has none either, since the promotion table has no rule
for that pair; and `dot` of `[65536, 65536]` with itself, in `int` of 32 bits,
is `0`, not the sum of products `2 ^ 33`. -/
theorem C28_dot_rejects_or_wraps :
    Single.dot (fun (_ _ : ScalarType) (v : Int) => v) 0
      (ops_add (integer_conversion true 32))
      (Single.zip_halfx2 (ops_add (integer_conversion true 32)))
      (ops_multiply (integer_conversion true 32))
      (Single.zip_halfx2 (ops_multiply (integer_conversion true 32)))
      .signed_int 18 (List.replicate 18 1) .signed_int 18 (List.replicate 18 1) =
      .error .ill_formed ∧
    promote_type .signed_int .unsigned_int = none ∧
    Single.dot (fun (_ _ : ScalarType) (v : Int) => v) 0
      (ops_add (integer_conversion true 32))
      (Single.zip_halfx2 (ops_add (integer_conversion true 32)))
      (ops_multiply (integer_conversion true 32))
      (Single.zip_halfx2 (ops_multiply (integer_conversion true 32)))
      .signed_int 3 [1, 2, 3] .unsigned_int 3 [4, 5, 6] = .error .ill_formed ∧
    Single.dot (fun (_ _ : ScalarType) (v : Int) => v) 0
      (ops_add (integer_conversion true 32))
      (Single.zip_halfx2 (ops_add (integer_conversion true 32)))
      (ops_multiply (integer_conversion true 32))
      (Single.zip_halfx2 (ops_multiply (integer_conversion true 32)))
      .signed_int 2 [65536, 65536] .signed_int 2 [65536, 65536] = .ok 0 ∧
    (65536 : Int) * 65536 + 65536 * 65536 = 2 ^ 33 ∧
    (∀ a ∈ ([65536, 65536] : List Int), representable true 32 a) := by
  have hnone : promote_type .signed_int .unsigned_int = none := by decide
  refine ⟨?_, hnone, ?_, ?_, by decide, ?_⟩
  · have h := Single.dot_eq_reduce (fun (_ _ : ScalarType) (v : Int) => v) 0
      (integer_conversion true 32) (ops_add (integer_conversion true 32))
      (Single.zip_halfx2 (ops_add (integer_conversion true 32)))
      (Single.zip_halfx2 (ops_multiply (integer_conversion true 32)))
      .signed_int .signed_int .signed_int (List.replicate 18 1) (List.replicate 18 1)
      promote_type_int_int (by decide) rfl
    rw [List.length_replicate] at h
    rw [h]
    exact Single.reduce_too_long _ 18 _ _ _ (by decide) (by decide)
  · unfold Single.dot
    simp only [promote_t_pair, hnone]
  · exact Single.dot_spec (fun (_ _ : ScalarType) (v : Int) => v) 0 _ _ true 32
      .signed_int .signed_int .signed_int [65536, 65536] [65536, 65536]
      promote_type_int_int (by decide) (by decide) rfl
  · intro a ha
    exact (integer_conversion_eq_self_iff true 32 (by decide) a).1
      ((by decide : ∀ a ∈ ([65536, 65536] : List Int), integer_conversion true 32 a = a) a ha)

/-- C28, amended: for every two integer vectors `l` and `r` of the same length
`N` with `1 ≤ N ≤ 17` whose element types have a promoted type `T`, an integer
type of `w` bits, `dot(l, r)` is `reduce(add, zip_common(multiply, l, r))` with
`multiply` = `T(left * right)` and `add` = `T(left + right)`, and it returns the
value of `T` congruent modulo `2 ^ w` to the sum over `i` in `[0, N)` of
`cast_T(l[i]) * cast_T(r[i])`: exactly that sum whenever the sum is a value of
`T`, and the sum of `l[i] * r[i]` when moreover the casts keep the values; and
`dot([1,2,3], [4,5,6]) = 32`. -/
theorem C28_dot_is_the_sum_of_products (conv : ScalarType → ScalarType → Int → Int) (d : Int)
    (addx2 multiplyx2 : Int × Int → Int × Int → Int × Int) (is_signed : Bool) (w : Nat)
    (TL TR T : ScalarType) (l r : List Int) (hT : promote_type TL TR = some T)
    (hprim : ¬ (T = .half ∨ T = .bfloat16)) (hw : 1 ≤ w)
    (hl : 1 ≤ l.length ∧ l.length ≤ 17) (hr : r.length = l.length) :
    Single.dot conv d (ops_add (integer_conversion is_signed w)) addx2
        (ops_multiply (integer_conversion is_signed w)) multiplyx2
        TL l.length l TR l.length r =
      (Single.zip_common conv d (fun O => O) multiplyx2
          (ops_multiply (integer_conversion is_signed w)) TL l.length l TR l.length r >>=
        fun products =>
          Single.reduce T l.length (ops_add (integer_conversion is_signed w)) addx2 products) ∧
    Single.dot conv d (ops_add (integer_conversion is_signed w)) addx2
        (ops_multiply (integer_conversion is_signed w)) multiplyx2
        TL l.length l TR l.length r =
      .ok (integer_conversion is_signed w (List.sum
        (List.zipWith (fun a b => castTo conv TL T a * castTo conv TR T b) l r))) ∧
    integer_conversion is_signed w (List.sum
        (List.zipWith (fun a b => castTo conv TL T a * castTo conv TR T b) l r)) % 2 ^ w =
      List.sum (List.zipWith (fun a b => castTo conv TL T a * castTo conv TR T b) l r) %
        2 ^ w ∧
    (representable is_signed w (List.sum
        (List.zipWith (fun a b => castTo conv TL T a * castTo conv TR T b) l r)) →
      Single.dot conv d (ops_add (integer_conversion is_signed w)) addx2
          (ops_multiply (integer_conversion is_signed w)) multiplyx2
          TL l.length l TR l.length r =
        .ok (List.sum
          (List.zipWith (fun a b => castTo conv TL T a * castTo conv TR T b) l r))) ∧
    ((∀ a, castTo conv TL T a = a) → (∀ b, castTo conv TR T b = b) →
      representable is_signed w (List.sum (List.zipWith (fun a b => a * b) l r)) →
      Single.dot conv d (ops_add (integer_conversion is_signed w)) addx2
          (ops_multiply (integer_conversion is_signed w)) multiplyx2
          TL l.length l TR l.length r =
        .ok (List.sum (List.zipWith (fun a b => a * b) l r))) ∧
    Single.dot (fun (_ _ : ScalarType) (v : Int) => v) 0
      (ops_add (integer_conversion true 32))
      (Single.zip_halfx2 (ops_add (integer_conversion true 32)))
      (ops_multiply (integer_conversion true 32))
      (Single.zip_halfx2 (ops_multiply (integer_conversion true 32)))
      .signed_int 3 [1, 2, 3] .signed_int 3 [4, 5, 6] = .ok 32 := by
  have hdot := Single.dot_spec conv d addx2 multiplyx2 is_signed w TL TR T l r hT hprim hl hr
  refine ⟨?_, hdot, integer_conversion_emod is_signed w _, ?_, ?_, ?_⟩
  · rw [Single.dot_eq_reduce conv d (integer_conversion is_signed w) _ addx2 multiplyx2
        TL TR T l r hT hprim hr,
      Single.dot_products_spec conv d (integer_conversion is_signed w) multiplyx2
        TL TR T l r hT hprim hr]
    rfl
  · intro hrep
    rw [hdot, (integer_conversion_eq_self_iff is_signed w hw _).2 hrep]
  · intro ha hb hrep
    rw [hdot]
    simp only [ha, hb]
    rw [(integer_conversion_eq_self_iff is_signed w hw _).2 hrep]
  · exact Single.dot_spec (fun (_ _ : ScalarType) (v : Int) => v) 0 _ _ true 32
      .signed_int .signed_int .signed_int [1, 2, 3] [4, 5, 6]
      promote_type_int_int (by decide) (by decide) rfl

/-- Witness for C28 (amended): an `int` vector with a `long` vector (64 bits),
`dot([2, -1], [3, 5]) = 1`. -/
theorem C28_dot_is_the_sum_of_products_witness :
    Single.dot (fun (_ _ : ScalarType) (v : Int) => v) 0
      (ops_add (integer_conversion true 64))
      (Single.zip_halfx2 (ops_add (integer_conversion true 64)))
      (ops_multiply (integer_conversion true 64))
      (Single.zip_halfx2 (ops_multiply (integer_conversion true 64)))
      .signed_int 2 [2, -1] .signed_long 2 [3, 5] = .ok 1 :=
  (C28_dot_is_the_sum_of_products (fun (_ _ : ScalarType) (v : Int) => v) 0
    (Single.zip_halfx2 (ops_add (integer_conversion true 64)))
    (Single.zip_halfx2 (ops_multiply (integer_conversion true 64))) true 64
    .signed_int .signed_long .signed_long [2, -1] [3, 5]
    (by decide) (by decide) (by decide) (by decide) rfl).2.1
/-! ### `count` and `all` -/

theorem flags_representable {V : Type} (to_bool : V → Bool) (v : List V) :
    ∀ a ∈ (v.map to_bool).map (fun b : Bool => if b then (1 : Int) else 0),
      integer_conversion true 32 a = a := by
  intro a ha
  obtain ⟨b, -, rfl⟩ := List.mem_map.1 ha
  cases b <;> decide

/-- A count of at most 17 elements is a value of `int`. -/
theorem count_representable {V : Type} (to_bool : V → Bool) (v : List V)
    (hv : v.length ≤ 17) :
    integer_conversion true 32 ((v.countP to_bool : Nat) : Int) =
      ((v.countP to_bool : Nat) : Int) := by
  rw [integer_conversion_eq_self_iff true 32 (by decide)]
  have h17 : v.countP to_bool ≤ 17 := le_trans (List.countP_le_length _) hv
  have e : (2 : Int) ^ (32 - 1) = 2147483648 := by norm_num
  unfold representable
  rw [if_pos rfl, e]
  constructor <;> omega

theorem Single.count_spec {V : Type} (to_bool : V → Bool) (v : List V)
    (hv : 1 ≤ v.length ∧ v.length ≤ 17) :
    Single.count to_bool v.length v = .ok ((v.countP to_bool : Nat) : Int) := by
  unfold Single.count
  rw [Single.apply_impl1_spec false v.length to_bool v rfl]
  simp only [bind, Except.bind]
  rw [Single.apply_impl1_spec (0 : Int) v.length _ (v.map to_bool) (by simp)]
  simp only []
  have hlen : ((v.map to_bool).map (fun b : Bool => if b then (1 : Int) else 0)).length =
      v.length := by
    simp
  have h := Single.sum_spec .signed_int
    (Single.zip_halfx2 (ops_add (integer_conversion true 32))) true 32 _ (by decide)
    (by rw [hlen]; exact hv) (flags_representable to_bool v)
  rw [hlen, sum_of_flags, count_representable to_bool v hv.2] at h
  exact h

theorem Tensor.count_recursion_spec {V : Type} (to_bool : V → Bool) (v : List V)
    (hv : 1 ≤ v.length ∧ v.length ≤ 17) :
    Tensor.count to_bool v = .ok ((v.countP to_bool : Nat) : Int) := by
  unfold Tensor.count
  rw [Single.apply_impl1_spec false v.length to_bool v rfl]
  simp only [bind, Except.bind]
  rw [Single.apply_impl1_spec (0 : Int) v.length _ (v.map to_bool) (by simp)]
  simp only []
  have hlen : ((v.map to_bool).map (fun b : Bool => if b then (1 : Int) else 0)).length =
      v.length := by
    simp
  have h := Tensor.sum_recursion_spec true 32 _ (by rw [hlen]; exact hv)
    (flags_representable to_bool v)
  rw [sum_of_flags, count_representable to_bool v hv.2] at h
  exact h

theorem all_map_id {V : Type} (to_bool : V → Bool) (l : List V) :
    (l.map to_bool).all id = l.all to_bool := by
  induction l with
  | nil => rfl
  | cons a as ih => simp only [List.map_cons, List.all_cons, ih, id]

theorem Single.all_spec {V : Type} (to_bool : V → Bool) (v : List V)
    (hv : 1 ≤ v.length ∧ v.length ≤ 17) :
    Single.all to_bool v.length v = .ok (v.all to_bool) := by
  obtain ⟨v0, rest, rfl⟩ := List.exists_cons_of_ne_nil (List.ne_nil_of_length_pos hv.1)
  unfold Single.all
  rw [Single.apply_impl1_spec false _ to_bool (v0 :: rest) rfl]
  simp only [bind, Except.bind, List.map_cons]
  have h := Single.reduce_loop_spec ops_bit_and_bool (to_bool v0) (rest.map to_bool)
    (by simpa using hv.2)
  rw [List.length_map] at h
  rw [List.length_cons, h, foldl_ops_bit_and_bool]
  rw [all_map_id, List.all_cons]

theorem Tensor.all_recursion_spec {V : Type} (to_bool : V → Bool) (v : List V)
    (hv : 1 ≤ v.length ∧ v.length ≤ 17) :
    Tensor.all to_bool v = .ok (v.all to_bool) := by
  obtain ⟨v0, rest, rfl⟩ := List.exists_cons_of_ne_nil (List.ne_nil_of_length_pos hv.1)
  unfold Tensor.all
  rw [Single.apply_impl1_spec false _ to_bool (v0 :: rest) rfl]
  simp only [bind, Except.bind, List.map_cons]
  rw [Tensor.reduce_recursion_spec ops_bit_and_bool (to_bool v0) (rest.map to_bool)
    (by simpa using hv.2), foldl_ops_bit_and_bool]
  rw [all_map_id, List.all_cons]
/-- C29 as stated fails for long vectors: `count` of a vector of 18 elements has
no instantiation in either header (the `sum` it ends with has no index
sequence of length 18). -/
theorem C29_count_of_18_elements_is_rejected :
    Single.count (fun v : Int => decide (v ≠ 0)) 18 (List.replicate 18 1) =
      .error .ill_formed ∧
    Tensor.count (fun v : Int => decide (v ≠ 0)) (List.replicate 18 1) =
      .error .ill_formed := by
  constructor
  · unfold Single.count
    rw [Single.apply_impl1_spec false 18 _ _ (by simp)]
    simp only [bind, Except.bind]
    rw [Single.apply_impl1_spec (0 : Int) 18 _ _ (by simp)]
    exact Single.reduce_too_long _ 18 _ _ _ (by decide) (by decide)
  · unfold Tensor.count
    rw [Single.apply_impl1_spec false _ _ _ rfl]
    simp only [bind, Except.bind]
    rw [Single.apply_impl1_spec (0 : Int) _ _ _ (by simp)]
    exact Tensor.reduce_recursion_too_long _ _ (by simp)

/-- C29, amended: for every vector `v` of `N` elements with `1 ≤ N ≤ 17`,
`count(v)` equals the number of elements `v[i]` whose conversion `bool(v[i])`
is `true`, in both headers; hence `0 ≤ count(v) ≤ N`; and
`count([5,0,2,1,0]) = 3`. -/
theorem C29_count_counts_the_nonzero_elements {V : Type} (to_bool : V → Bool) (v : List V)
    (hv : 1 ≤ v.length ∧ v.length ≤ 17) :
    Single.count to_bool v.length v = .ok ((v.countP to_bool : Nat) : Int) ∧
    Tensor.count to_bool v = .ok ((v.countP to_bool : Nat) : Int) ∧
    v.countP to_bool = (v.filter (fun a => to_bool a = true)).length ∧
    (0 : Int) ≤ ((v.countP to_bool : Nat) : Int) ∧
    ((v.countP to_bool : Nat) : Int) ≤ (v.length : Int) ∧
    Single.count (fun a : Int => decide (a ≠ 0)) 5 [5, 0, 2, 1, 0] = .ok 3 ∧
    Tensor.count (fun a : Int => decide (a ≠ 0)) [5, 0, 2, 1, 0] = .ok 3 := by
  refine ⟨Single.count_spec to_bool v hv, Tensor.count_recursion_spec to_bool v hv, ?_,
    Int.natCast_nonneg _, Int.ofNat_le.mpr (List.countP_le_length _),
    Single.count_spec _ [5, 0, 2, 1, 0] (by decide),
    Tensor.count_recursion_spec _ [5, 0, 2, 1, 0] (by decide)⟩
  rw [List.countP_eq_length_filter]
  simp

/-- Witness for C29 (amended): `count([0, 0, 4]) = 1`. -/
theorem C29_count_counts_the_nonzero_elements_witness :
    Single.count (fun a : Int => decide (a ≠ 0)) 3 [0, 0, 4] = .ok 1 ∧
    Tensor.count (fun a : Int => decide (a ≠ 0)) [0, 0, 4] = .ok 1 :=
  have h := C29_count_counts_the_nonzero_elements (fun a : Int => decide (a ≠ 0)) [0, 0, 4]
    (by decide)
  ⟨h.1, h.2.1⟩

/-- C30 as stated fails for long vectors: `all` of a vector of 18 elements has no
instantiation in either header (no index sequence of length 18). -/
theorem C30_all_of_18_elements_is_rejected :
    Single.all (fun v : Int => decide (v ≠ 0)) 18 (List.replicate 18 1) =
      .error .ill_formed ∧
    Tensor.all (fun v : Int => decide (v ≠ 0)) (List.replicate 18 1) =
      .error .ill_formed := by
  constructor
  · unfold Single.all
    rw [Single.apply_impl1_spec false 18 _ _ (by simp)]
    simp only [bind, Except.bind, Single.reduce_helper]
    rw [make_index_sequence_large 18 (by decide)]
  · unfold Tensor.all
    rw [Single.apply_impl1_spec false _ _ _ rfl]
    simp only [bind, Except.bind]
    refine Tensor.reduce_recursion_too_long _ _ ?_
    simp

/-- C30, amended: for every vector `v` of `N` elements with `1 ≤ N ≤ 17`,
`all(v)` returns a boolean (the same in both headers) that is `true` if and
only if `bool(v[i])` is `true` for every index `i`; and
`all([5,0,2,1,0]) = false`. -/
theorem C30_all_iff_every_element_is_nonzero {V : Type} (to_bool : V → Bool) (v : List V)
    (hv : 1 ≤ v.length ∧ v.length ≤ 17) :
    (∃ b : Bool, Single.all to_bool v.length v = .ok b ∧ Tensor.all to_bool v = .ok b ∧
      (b = true ↔ ∀ (i : Nat) (a : V), v[i]? = some a → to_bool a = true)) ∧
    Single.all (fun a : Int => decide (a ≠ 0)) 5 [5, 0, 2, 1, 0] = .ok false ∧
    Tensor.all (fun a : Int => decide (a ≠ 0)) [5, 0, 2, 1, 0] = .ok false ∧
    Single.all (fun a : Int => decide (a ≠ 0)) 3 [5, 2, 1] = .ok true := by
  refine ⟨⟨v.all to_bool, Single.all_spec to_bool v hv, Tensor.all_recursion_spec to_bool v hv, ?_⟩,
    Single.all_spec _ [5, 0, 2, 1, 0] (by decide), Tensor.all_recursion_spec _ [5, 0, 2, 1, 0] (by decide),
    Single.all_spec _ [5, 2, 1] (by decide)⟩
  rw [List.all_eq_true]
  constructor
  · intro h i a hi
    exact h a (List.mem_iff_getElem?.mpr ⟨i, hi⟩)
  · intro h a ha
    obtain ⟨i, hi⟩ := List.mem_iff_getElem?.mp ha
    exact h i a hi

/-- Witness for C30 (amended): `all([0, 0, 4])` returns a boolean that is `true`
exactly when every element converts to `true`. -/
theorem C30_all_iff_every_element_is_nonzero_witness :
    ∃ b : Bool, Single.all (fun a : Int => decide (a ≠ 0)) 3 [0, 0, 4] = .ok b ∧
      Tensor.all (fun a : Int => decide (a ≠ 0)) [0, 0, 4] = .ok b ∧
      (b = true ↔ ∀ (i : Nat) (a : Int), [0, 0, 4][i]? = some a →
        (fun a : Int => decide (a ≠ 0)) a = true) :=
  (C30_all_iff_every_element_is_nonzero (fun a : Int => decide (a ≠ 0)) [0, 0, 4]
    (by decide)).1

/-! ## Claim C31: `any` -/

theorem foldl_ops_bit_or_bool (l : List Bool) (a : Bool) :
    l.foldl ops_bit_or_bool a = (a || l.any id) := by
  induction l generalizing a with
  | nil => simp
  | cons b bs ih =>
    rw [List.foldl_cons, ih]
    simp [ops_bit_or_bool, Bool.or_assoc]

theorem any_map_id {V : Type} (to_bool : V → Bool) (l : List V) :
    (l.map to_bool).any id = l.any to_bool := by
  induction l with
  | nil => rfl
  | cons a as ih => simp only [List.map_cons, List.any_cons, ih, id]

theorem Single.any_spec {V : Type} (to_bool : V → Bool) (v : List V)
    (hv : 1 ≤ v.length ∧ v.length ≤ 17) :
    Single.any to_bool v.length v = .ok (v.any to_bool) := by
  obtain ⟨v0, rest, rfl⟩ := List.exists_cons_of_ne_nil (List.ne_nil_of_length_pos hv.1)
  unfold Single.any
  rw [Single.apply_impl1_spec false _ to_bool (v0 :: rest) rfl]
  simp only [bind, Except.bind, List.map_cons]
  have h := Single.reduce_loop_spec ops_bit_or_bool (to_bool v0) (rest.map to_bool)
    (by simpa using hv.2)
  rw [List.length_map] at h
  rw [List.length_cons, h, foldl_ops_bit_or_bool]
  rw [any_map_id, List.any_cons]

theorem Tensor.any_recursion_spec {V : Type} (to_bool : V → Bool) (v : List V)
    (hv : 1 ≤ v.length ∧ v.length ≤ 17) :
    Tensor.any to_bool v = .ok (v.any to_bool) := by
  obtain ⟨v0, rest, rfl⟩ := List.exists_cons_of_ne_nil (List.ne_nil_of_length_pos hv.1)
  unfold Tensor.any
  rw [Single.apply_impl1_spec false _ to_bool (v0 :: rest) rfl]
  simp only [bind, Except.bind, List.map_cons]
  rw [Tensor.reduce_recursion_spec ops_bit_or_bool (to_bool v0) (rest.map to_bool)
    (by simpa using hv.2), foldl_ops_bit_or_bool]
  rw [any_map_id, List.any_cons]

/-- C31 as stated fails for long vectors: `any` of a vector of 18 elements has no
instantiation in either header (no index sequence of length 18). -/
theorem C31_any_of_18_elements_is_rejected :
    Single.any (fun v : Int => decide (v ≠ 0)) 18 (List.replicate 18 1) =
      .error .ill_formed ∧
    Tensor.any (fun v : Int => decide (v ≠ 0)) (List.replicate 18 1) =
      .error .ill_formed := by
  constructor
  · unfold Single.any
    rw [Single.apply_impl1_spec false 18 _ _ (by simp)]
    simp only [bind, Except.bind, Single.reduce_helper]
    rw [make_index_sequence_large 18 (by decide)]
  · unfold Tensor.any
    rw [Single.apply_impl1_spec false _ _ _ rfl]
    simp only [bind, Except.bind]
    refine Tensor.reduce_recursion_too_long _ _ ?_
    simp

/-- C31, amended: for every vector `v` of `N` elements with `1 ≤ N ≤ 17`,
`any(v)` returns a boolean (the same in both headers) that is `true` if and
only if `bool(v[i])` is `true` for some index `i`; and
`any([5,0,2,1,0]) = true`. -/
theorem C31_any_iff_some_element_is_nonzero {V : Type} (to_bool : V → Bool) (v : List V)
    (hv : 1 ≤ v.length ∧ v.length ≤ 17) :
    (∃ b : Bool, Single.any to_bool v.length v = .ok b ∧ Tensor.any to_bool v = .ok b ∧
      (b = true ↔ ∃ (i : Nat) (a : V), v[i]? = some a ∧ to_bool a = true)) ∧
    Single.any (fun a : Int => decide (a ≠ 0)) 5 [5, 0, 2, 1, 0] = .ok true ∧
    Tensor.any (fun a : Int => decide (a ≠ 0)) [5, 0, 2, 1, 0] = .ok true ∧
    Single.any (fun a : Int => decide (a ≠ 0)) 3 [0, 0, 0] = .ok false := by
  refine ⟨⟨v.any to_bool, Single.any_spec to_bool v hv, Tensor.any_recursion_spec to_bool v hv,
      ?_⟩,
    Single.any_spec _ [5, 0, 2, 1, 0] (by decide),
    Tensor.any_recursion_spec _ [5, 0, 2, 1, 0] (by decide),
    Single.any_spec _ [0, 0, 0] (by decide)⟩
  rw [List.any_eq_true]
  constructor
  · rintro ⟨a, ha, hta⟩
    obtain ⟨i, hi⟩ := List.mem_iff_getElem?.mp ha
    exact ⟨i, a, hi, hta⟩
  · rintro ⟨i, a, hi, hta⟩
    exact ⟨a, List.mem_iff_getElem?.mpr ⟨i, hi⟩, hta⟩

/-- Witness for C31 (amended): `any([0, 0, 4])` returns a boolean that is `true`
exactly when some element converts to `true`. -/
theorem C31_any_iff_some_element_is_nonzero_witness :
    ∃ b : Bool, Single.any (fun a : Int => decide (a ≠ 0)) 3 [0, 0, 4] = .ok b ∧
      Tensor.any (fun a : Int => decide (a ≠ 0)) [0, 0, 4] = .ok b ∧
      (b = true ↔ ∃ (i : Nat) (a : Int), [0, 0, 4][i]? = some a ∧
        (fun a : Int => decide (a ≠ 0)) a = true) :=
  (C31_any_iff_some_element_is_nonzero (fun a : Int => decide (a ≠ 0)) [0, 0, 4]
    (by decide)).1
/-! ## Claim C34: comparison functors of the narrow float types -/

/-- C34, evaluated on the code: the rows for `not_equal_to` name `__heq` and
`__heq2`, so for `__half` and `__nv_bfloat16` `not_equal_to(a, b)` returns what
`equal_to(a, b)` returns, for all ordered operands (`not_equal_to(1, 1)` is
true, `not_equal_to(1, 2)` is false); the rows for `greater_equal` name `__hge`
with the paired `__hgt2`, so the paired `greater_equal` is false in a lane with
equal operands where the scalar one is true. The rows of `equal_to`, `less`,
`less_equal` and `greater` name the intrinsics of their own comparison and
agree with the generic functor `T(left OP right)` in the scalar and in the
paired form. -/
theorem C34_comparisons_wired_to_other_intrinsics :
    KERNEL_FLOAT_FP16_BINARY_FUN .not_equal_to = (.__heq, .__heq2) ∧
    KERNEL_FLOAT_BF16_BINARY_FUN .not_equal_to = (.__heq, .__heq2) ∧
    KERNEL_FLOAT_FP16_BINARY_FUN .greater_equal = (.__hge, .__hgt2) ∧
    KERNEL_FLOAT_BF16_BINARY_FUN .greater_equal = (.__hge, .__hgt2) ∧
    (∀ (V : Type) [LinearOrder V] (a b : V),
      ops_compare_half .not_equal_to a b = ops_compare_half .equal_to a b ∧
      ops_compare_bfloat16 .not_equal_to a b = ops_compare_bfloat16 .equal_to a b ∧
      ops_compare_half .not_equal_to a b = !(ops_compare .not_equal_to a b)) ∧
    ops_compare_half .not_equal_to (1 : Int) 1 = true ∧
    ops_compare_half .equal_to (1 : Int) 1 = true ∧
    ops_compare .not_equal_to (1 : Int) 1 = false ∧
    ops_compare_half .not_equal_to (1 : Int) 2 = false ∧
    ops_compare_bfloat16 .not_equal_to (1 : Int) 1 = true ∧
    (∀ (V : Type) [LinearOrder V] (a b c e : V),
      zip_halfx2_compare .not_equal_to (a, b) (c, e) =
        zip_halfx2_compare .equal_to (a, b) (c, e)) ∧
    (∀ (V : Type) [LinearOrder V] (a b : V), ops_compare_half .greater_equal a a = true ∧
      zip_halfx2_compare .greater_equal (a, b) (a, b) = (false, false) ∧
      zip_bfloat16x2_compare .greater_equal (a, b) (a, b) = (false, false)) ∧
    zip_halfx2_compare .greater_equal ((1 : Int), 2) (1, 2) = (false, false) ∧
    (ops_compare .greater_equal (1 : Int) 1, ops_compare .greater_equal (2 : Int) 2) =
      (true, true) ∧
    (∀ NAME : Comparison, NAME ≠ .not_equal_to → ∀ (V : Type) [LinearOrder V] (a b : V),
      ops_compare_half NAME a b = ops_compare NAME a b ∧
      ops_compare_bfloat16 NAME a b = ops_compare NAME a b) ∧
    (∀ NAME : Comparison, NAME ≠ .not_equal_to → NAME ≠ .greater_equal →
      ∀ (V : Type) [LinearOrder V] (a b c e : V),
      zip_halfx2_compare NAME (a, b) (c, e) = (ops_compare NAME a c, ops_compare NAME b e) ∧
      zip_bfloat16x2_compare NAME (a, b) (c, e) =
        (ops_compare NAME a c, ops_compare NAME b e)) := by
  refine ⟨rfl, rfl, rfl, rfl, ?_, by decide, by decide, by decide, by decide, by decide,
    ?_, ?_, by decide, by decide, ?_, ?_⟩
  · intro V _ a b
    refine ⟨rfl, rfl, ?_⟩
    simp [ops_compare_half, KERNEL_FLOAT_FP16_BINARY_FUN, Intrinsic.call, ops_compare]
  · intro V _ a b c e
    rfl
  · intro V _ a b
    simp [ops_compare_half, zip_halfx2_compare, zip_bfloat16x2_compare,
      KERNEL_FLOAT_FP16_BINARY_FUN, KERNEL_FLOAT_BF16_BINARY_FUN, Intrinsic.call,
      Intrinsic2.call]
  · intro NAME h V _ a b
    cases NAME <;> first | exact absurd rfl h | exact ⟨rfl, rfl⟩
  · intro NAME h1 h2 V _ a b c e
    cases NAME <;> first | exact absurd rfl h1 | exact absurd rfl h2 | exact ⟨rfl, rfl⟩

/-! ## Claim C40: `complex_type` -/

/-- C40, evaluated on the code: the constructor `complex_type(real, imag)`
initialises the base with `(real, im)`, the member `im` of the object under
construction, so `real()` returns `real` but `imag()` returns whatever that
member held before (here the `im` of `storage`), never the argument `imag`:
built over a member holding 7, `complex_type(1, 2)` has `imag() = 7`; two
different `imag` arguments give the same object; `conj()` builds its result
with the same constructor, so the `-im` it passes is lost as well, and `norm()`
is `re*re + im*im` of the stored members. -/
theorem C40_constructor_ignores_imag :
    (∀ (T : Type) (storage : complex_type_storage T) (re im : T),
      (complex_type storage re im).real = re ∧
      (complex_type storage re im).imag = storage.im) ∧
    (∀ (T : Type) (storage : complex_type_storage T) (re im1 im2 : T),
      complex_type storage re im1 = complex_type storage re im2) ∧
    (complex_type ⟨9, 7⟩ (1 : Int) 2).real = 1 ∧
    (complex_type ⟨9, 7⟩ (1 : Int) 2).imag = 7 ∧
    (complex_type ⟨9, 7⟩ (1 : Int) 2).imag ≠ 2 ∧
    (complex_type ⟨9, 7⟩ (1 : Int) 2).norm = 50 ∧
    (1 : Int) * 1 + 2 * 2 = 5 ∧
    (∀ (storage z : complex_type_storage Int),
      (complex_type_storage.conj storage z).real = z.re ∧
      (complex_type_storage.conj storage z).imag = storage.im) ∧
    (complex_type_storage.conj ⟨9, 7⟩ (⟨1, 2⟩ : complex_type_storage Int)).imag = 7 := by
  refine ⟨fun T storage re im => ⟨rfl, rfl⟩, fun T storage re im1 im2 => rfl, rfl, rfl,
    by decide, by decide, by decide, fun storage z => ⟨rfl, rfl⟩, rfl⟩

/-! ## Claim C33: promotion does not depend on the order of the arguments -/

theorem promote_type_mem (A B C : ScalarType) (h : promote_type A B = some C) :
    C = A ∨ C = B := by
  unfold promote_type at h
  split_ifs at h with h1 h2 h3
  · exact Or.inl (Option.some.inj h).symm
  · exact Or.inl (Option.some.inj h).symm
  · exact Or.inr (Option.some.inj h).symm
  · split at h
    · split_ifs at h
      exact Or.inl (Option.some.inj h).symm
    · split_ifs at h
      exact Or.inr (Option.some.inj h).symm
    · exact absurd h (by simp)

theorem promote_type_self (A : ScalarType) : promote_type A A = some A := by
  unfold promote_type
  rw [if_pos rfl]

theorem promote_type_base_pairs :
    ∀ A ∈ base_scalar_types, ∀ B ∈ base_scalar_types,
      promote_type A B = promote_type B A ∧
      (promote_type A B = some A → A ≠ B → latticeRank B < latticeRank A) := by
  decide

/-- A defined fold of the promotion over base types ends at a type of the list
that lies at or above every type of the list, and strictly above all others. -/
theorem promoteFold_is_top (Ts : List ScalarType) (acc R : ScalarType)
    (hacc : acc ∈ base_scalar_types) (hTs : ∀ T ∈ Ts, T ∈ base_scalar_types)
    (h : promoteFold acc Ts = some R) :
    R ∈ acc :: Ts ∧
    ∀ X ∈ acc :: Ts, latticeRank X ≤ latticeRank R ∧ (latticeRank X = latticeRank R → X = R) := by
  induction Ts generalizing acc with
  | nil =>
    simp only [promoteFold, Option.some.injEq] at h
    subst h
    refine ⟨List.mem_singleton.mpr rfl, ?_⟩
    intro X hX
    rw [List.mem_singleton.mp hX]
    exact ⟨le_refl _, fun _ => rfl⟩
  | cons T Ts ih =>
    have hT : T ∈ base_scalar_types := hTs T (List.mem_cons_self _ _)
    cases hstep : promote_type acc T with
    | none => simp [promoteFold, hstep] at h
    | some next =>
      simp only [promoteFold, hstep] at h
      have hpair := promote_type_base_pairs acc hacc T hT
      have hpair2 := promote_type_base_pairs T hT acc hacc
      have hnext : next ∈ base_scalar_types := by
        rcases promote_type_mem acc T next hstep with e | e <;> rw [e] <;> assumption
      obtain ⟨hmem, htop⟩ :=
        ih next hnext (fun X hX => hTs X (List.mem_cons_of_mem _ hX)) h
      -- both `acc` and `T` lie at or below `next`, strictly unless equal to it
      have hlow : ∀ X, X = acc ∨ X = T →
          latticeRank X ≤ latticeRank next ∧ (latticeRank X = latticeRank next → X = next) := by
        intro X hX
        by_cases hXn : X = next
        · rw [hXn]
          exact ⟨le_refl _, fun _ => rfl⟩
        · have hlt : latticeRank X < latticeRank next := by
            rcases promote_type_mem acc T next hstep with e | e
            · -- next = acc, so X = T
              have hXT : X = T := by
                rcases hX with hX | hX
                · exact absurd (hX.trans e.symm) hXn
                · exact hX
              rw [hXT, e]
              refine hpair.2 (by rw [hstep, e]) ?_
              intro hEq
              exact hXn (by rw [hXT, e, hEq])
            · -- next = T, so X = acc
              have hXa : X = acc := by
                rcases hX with hX | hX
                · exact hX
                · exact absurd (hX.trans e.symm) hXn
              rw [hXa, e]
              refine hpair2.2 (by rw [← hpair.1, hstep, e]) ?_
              intro hEq
              exact hXn (by rw [hXa, e, hEq])
          exact ⟨le_of_lt hlt, fun hEq => absurd hEq (ne_of_lt hlt)⟩
      have hnextR := htop next (List.mem_cons_self _ _)
      refine ⟨?_, ?_⟩
      · rcases List.mem_cons.mp hmem with e | e
        · rcases promote_type_mem acc T next hstep with e2 | e2
          · rw [e, e2]
            exact List.mem_cons_self _ _
          · rw [e, e2]
            exact List.mem_cons_of_mem _ (List.mem_cons_self _ _)
        · exact List.mem_cons_of_mem _ (List.mem_cons_of_mem _ e)
      · intro X hX
        have hcase : X = acc ∨ X = T ∨ X ∈ Ts := by
          rcases List.mem_cons.mp hX with e | e
          · exact Or.inl e
          · exact Or.inr (List.mem_cons.mp e)
        rcases hcase with e | e | e
        · obtain ⟨h1, h2⟩ := hlow X (Or.inl e)
          refine ⟨le_trans h1 hnextR.1, fun hEq => ?_⟩
          have hXn : X = next := h2 (le_antisymm h1 (by rw [hEq]; exact hnextR.1))
          rw [hXn]
          exact hnextR.2 (by rw [← hXn]; exact hEq)
        · obtain ⟨h1, h2⟩ := hlow X (Or.inr e)
          refine ⟨le_trans h1 hnextR.1, fun hEq => ?_⟩
          have hXn : X = next := h2 (le_antisymm h1 (by rw [hEq]; exact hnextR.1))
          rw [hXn]
          exact hnextR.2 (by rw [← hXn]; exact hEq)
        · exact htop X (List.mem_cons_of_mem _ e)

/-- Two defined promotions of lists with the same base types agree. -/
theorem promote_t_same_types (Ts Us : List ScalarType) (R1 R2 : ScalarType)
    (hbase : ∀ T ∈ Ts, T ∈ base_scalar_types) (hsame : ∀ T, T ∈ Ts ↔ T ∈ Us)
    (h1 : promote_t Ts = some R1) (h2 : promote_t Us = some R2) : R1 = R2 := by
  cases Ts with
  | nil => simp [promote_t, multi_promote_type] at h1
  | cons T1 Ts =>
    cases Us with
    | nil => simp [promote_t, multi_promote_type] at h2
    | cons U1 Us =>
      unfold promote_t at h1 h2
      rw [multi_promote_type_eq_fold] at h1 h2
      have hbaseU : ∀ U ∈ U1 :: Us, U ∈ base_scalar_types :=
        fun U hU => hbase U ((hsame U).2 hU)
      obtain ⟨hm1, ht1⟩ := promoteFold_is_top Ts T1 R1 (hbase T1 (List.mem_cons_self _ _))
        (fun X hX => hbase X (List.mem_cons_of_mem _ hX)) h1
      obtain ⟨hm2, ht2⟩ := promoteFold_is_top Us U1 R2 (hbaseU U1 (List.mem_cons_self _ _))
        (fun X hX => hbaseU X (List.mem_cons_of_mem _ hX)) h2
      have h12 := ht2 R1 ((hsame R1).1 hm1)
      have h21 := ht1 R2 ((hsame R2).2 hm2)
      exact h12.2 (le_antisymm h12.1 h21.1)

/-- C33: for every list `Ts` of base scalar types and every permutation `Us` of
it, if the left-fold promotion is defined for both orders then both yield the
same type; for base types `A`, `B`, `C`,
`promote(promote(A, B), C) = promote(A, promote(B, C))` whenever both sides are
defined, `promote(A, B) = promote(B, A)` (defined or not), and `promote(A, B)`,
when defined, is `A` or `B`. -/
theorem C33_promotion_is_order_independent (Ts Us : List ScalarType) (R1 R2 : ScalarType)
    (hbase : ∀ T ∈ Ts, T ∈ base_scalar_types) (hperm : Ts.Perm Us)
    (h1 : promote_t Ts = some R1) (h2 : promote_t Us = some R2) :
    R1 = R2 ∧
    (∀ A ∈ base_scalar_types, ∀ B ∈ base_scalar_types, ∀ C ∈ base_scalar_types,
      ∀ X Y : ScalarType,
        (promote_type A B).bind (fun AB => promote_type AB C) = some X →
        (promote_type B C).bind (fun BC => promote_type A BC) = some Y → X = Y) ∧
    (∀ A ∈ base_scalar_types, ∀ B ∈ base_scalar_types,
      promote_type A B = promote_type B A) ∧
    (∀ A B C : ScalarType, promote_type A B = some C → C = A ∨ C = B) := by
  refine ⟨promote_t_same_types Ts Us R1 R2 hbase (fun T => hperm.mem_iff) h1 h2, ?_,
    fun A hA B hB => (promote_type_base_pairs A hA B hB).1, promote_type_mem⟩
  intro A hA B hB C hC X Y hX hY
  cases hAB : promote_type A B with
  | none => simp [hAB] at hX
  | some AB =>
    cases hBC : promote_type B C with
    | none => simp [hBC] at hY
    | some BC =>
      simp only [hAB, hBC, Option.some_bind] at hX hY
      have hBCbase : BC ∈ base_scalar_types := by
        rcases promote_type_mem B C BC hBC with e | e <;> rw [e] <;> assumption
      rw [(promote_type_base_pairs A hA BC hBCbase).1] at hY
      have hbase3 : ∀ T ∈ [A, B, C], T ∈ base_scalar_types := by
        intro T hT
        simp only [List.mem_cons, List.mem_singleton, List.not_mem_nil, or_false] at hT
        rcases hT with e | e | e <;> rw [e] <;> assumption
      refine promote_t_same_types [A, B, C] [B, C, A] X Y hbase3 ?_ ?_ ?_
      · intro T
        simp only [List.mem_cons, List.mem_singleton, List.not_mem_nil, or_false]
        tauto
      · simp [promote_t, multi_promote_type, hAB, hX]
      · simp [promote_t, multi_promote_type, hBC, hY]

/-- Witness for C33: `(bool, int, float)` and its permutation `(float, bool, int)`
both promote to `float`. -/
theorem C33_promotion_is_order_independent_witness :
    (ScalarType.float = ScalarType.float) ∧
    [ScalarType.bool, .signed_int, .float].Perm [.float, .bool, .signed_int] ∧
    promote_t [.bool, .signed_int, .float] = some .float ∧
    promote_t [.float, .bool, .signed_int] = some .float :=
  have h1 : promote_t [.bool, .signed_int, .float] = some .float := by
    unfold promote_t
    rw [multi_promote_type_eq_fold]
    decide
  have h2 : promote_t [.float, .bool, .signed_int] = some .float := by
    unfold promote_t
    rw [multi_promote_type_eq_fold]
    decide
  ⟨(C33_promotion_is_order_independent [.bool, .signed_int, .float]
      [.float, .bool, .signed_int] .float .float (by decide) (by decide) h1 h2).1,
    by decide, h1, h2⟩

/-! ## Claim C35: compound assignment -/

/-- With an odd length, the pair loop of the two-input specialisation reaches
the last element as the first half of a pair and reads one element past the
end of the left input. -/
theorem forLoopBy2_zip_overrun {α : Type} (N : Nat) (zipx2 : α × α → α × α → α × α)
    (left right : List α) (hl : left.length = N) (hr : right.length = N)
    (k i : Nat) (hk : N = i + 2 * k + 1) (s : List α) (hs : s.length = N) :
    forLoopBy2 N (fun i result => do
      let a0 ← rd left i
      let a1 ← rd left (i + 1)
      let b0 ← rd right i
      let b1 ← rd right (i + 1)
      let c := zipx2 (a0, a1) (b0, b1)
      let result ← wr result (i + 0) c.1
      wr result (i + 1) c.2) i s = .error (.read_out_of_bounds N) := by
  induction k generalizing i s with
  | zero =>
    rw [forLoopBy2, if_pos (by omega)]
    have h1 : i + 1 = N := by omega
    simp only [rd_eq_getElem left i (by omega), h1, rd_eq_error left N (by omega)]
    rfl
  | succ k ih =>
    rw [forLoopBy2, if_pos (by omega)]
    simp only [rd_eq_getElem left i (by omega), rd_eq_getElem left (i + 1) (by omega),
      rd_eq_getElem right i (by omega), rd_eq_getElem right (i + 1) (by omega), Nat.add_zero]
    have hw1 : ∀ v, wr s i v = .ok (s.set i v) := fun v => wr_eq_ok s i v (by omega)
    have hw2 : ∀ v w, wr (s.set i v) (i + 1) w = .ok ((s.set i v).set (i + 1) w) :=
      fun v w => wr_eq_ok _ _ _ (by simp; omega)
    simp only [bind, Except.bind, hw1, hw2]
    exact ih (i + 2) (by omega) _ (by simp [hs])

/-- With an even length, the pair loop of the two-input specialisation writes
to every pair of positions the paired functor of the two pairs of inputs. -/
theorem forLoopBy2_zip_pairs {α : Type} (N : Nat) (zipx2 : α × α → α × α → α × α)
    (left right : List α) (hl : left.length = N) (hr : right.length = N)
    (k i : Nat) (hk : N = i + 2 * k) (s : List α) (hs : s.length = N) :
    ∃ out, forLoopBy2 N (fun i result => do
        let a0 ← rd left i
        let a1 ← rd left (i + 1)
        let b0 ← rd right i
        let b1 ← rd right (i + 1)
        let c := zipx2 (a0, a1) (b0, b1)
        let result ← wr result (i + 0) c.1
        wr result (i + 1) c.2) i s = .ok out ∧ out.length = N ∧
      (∀ p, p < i → out[p]? = s[p]?) ∧
      (∀ j a0 a1 b0 b1, j < k →
        left[i + 2 * j]? = some a0 → left[i + 2 * j + 1]? = some a1 →
        right[i + 2 * j]? = some b0 → right[i + 2 * j + 1]? = some b1 →
        out[i + 2 * j]? = some (zipx2 (a0, a1) (b0, b1)).1 ∧
        out[i + 2 * j + 1]? = some (zipx2 (a0, a1) (b0, b1)).2) := by
  induction k generalizing i s with
  | zero =>
    rw [forLoopBy2, if_neg (by omega)]
    exact ⟨s, rfl, hs, fun _ _ => rfl, fun j _ _ _ _ hj => absurd hj (by omega)⟩
  | succ k ih =>
    obtain ⟨x0, hx0⟩ : ∃ a, left[i]? = some a := ⟨_, List.getElem?_eq_getElem (by omega)⟩
    obtain ⟨x1, hx1⟩ : ∃ a, left[i + 1]? = some a := ⟨_, List.getElem?_eq_getElem (by omega)⟩
    obtain ⟨y0, hy0⟩ : ∃ a, right[i]? = some a := ⟨_, List.getElem?_eq_getElem (by omega)⟩
    obtain ⟨y1, hy1⟩ : ∃ a, right[i + 1]? = some a :=
      ⟨_, List.getElem?_eq_getElem (by omega)⟩
    rw [forLoopBy2, if_pos (by omega)]
    simp only [rd_eq_ok left i x0 hx0, rd_eq_ok left (i + 1) x1 hx1, rd_eq_ok right i y0 hy0,
      rd_eq_ok right (i + 1) y1 hy1, Nat.add_zero]
    have hw1 : ∀ v, wr s i v = .ok (s.set i v) := fun v => wr_eq_ok s i v (by omega)
    have hw2 : ∀ v w, wr (s.set i v) (i + 1) w = .ok ((s.set i v).set (i + 1) w) :=
      fun v w => wr_eq_ok _ _ _ (by simp; omega)
    simp only [bind, Except.bind, hw1, hw2]
    obtain ⟨out, hout, hlen, hlow, hpairs⟩ := ih (i + 2) (by omega)
      ((s.set i (zipx2 (x0, x1) (y0, y1)).1).set (i + 1) (zipx2 (x0, x1) (y0, y1)).2)
      (by simp [hs])
    refine ⟨out, hout, hlen, ?_, ?_⟩
    · intro p hp
      rw [hlow p (by omega), List.getElem?_set_ne (by omega), List.getElem?_set_ne (by omega)]
    · intro j a0 a1 b0 b1 hj ha0 ha1 hb0 hb1
      cases j with
      | zero =>
        simp only [Nat.mul_zero, Nat.add_zero] at ha0 ha1 hb0 hb1 ⊢
        rw [hx0] at ha0
        rw [hx1] at ha1
        rw [hy0] at hb0
        rw [hy1] at hb1
        cases ha0
        cases ha1
        cases hb0
        cases hb1
        constructor
        · rw [hlow i (by omega), List.getElem?_set_ne (by omega),
            List.getElem?_set_self (by omega)]
        · rw [hlow (i + 1) (by omega), List.getElem?_set_self (by simp; omega)]
      | succ j =>
        have e : i + 2 * (j + 1) = i + 2 + 2 * j := by omega
        rw [e] at ha0 ha1 hb0 hb1 ⊢
        exact hpairs j a0 a1 b0 b1 (by omega) ha0 ha1 hb0 hb1

theorem Single.apply_impl_half2_odd {α : Type} (d : α) (N : Nat)
    (zipx2 : α × α → α × α → α × α) (fn : α → α → α) (left right : List α)
    (hl : left.length = N) (hr : right.length = N) (hodd : N % 2 = 1) :
    Single.apply_impl_half2 d N zipx2 fn left right = .error (.read_out_of_bounds N) := by
  unfold Single.apply_impl_half2
  rw [forLoopBy2_zip_overrun N zipx2 left right hl hr (N / 2) 0 (by omega) _ (by simp)]
  rfl

theorem Single.apply_impl_half2_even {α : Type} (d : α) (N : Nat)
    (zipx2 : α × α → α × α → α × α) (fn : α → α → α) (left right : List α)
    (hl : left.length = N) (hr : right.length = N) (heven : N % 2 = 0) :
    ∃ out, Single.apply_impl_half2 d N zipx2 fn left right = .ok out ∧ out.length = N ∧
      ∀ j a0 a1 b0 b1, 2 * j + 1 < N →
        left[2 * j]? = some a0 → left[2 * j + 1]? = some a1 →
        right[2 * j]? = some b0 → right[2 * j + 1]? = some b1 →
        out[2 * j]? = some (zipx2 (a0, a1) (b0, b1)).1 ∧
        out[2 * j + 1]? = some (zipx2 (a0, a1) (b0, b1)).2 := by
  obtain ⟨out, hout, hlen, -, hpairs⟩ :=
    forLoopBy2_zip_pairs N zipx2 left right hl hr (N / 2) 0 (by omega)
      (List.replicate N d) (by simp)
  refine ⟨out, ?_, hlen, ?_⟩
  · unfold Single.apply_impl_half2
    rw [hout]
    simp only [bind, Except.bind]
    rw [if_neg (by omega)]
    rfl
  · intro j a0 a1 b0 b1 hj ha0 ha1 hb0 hb1
    have h := hpairs j a0 a1 b0 b1 (by omega) (by simpa using ha0) (by simpa using ha1)
      (by simpa using hb0) (by simpa using hb1)
    simpa using h

theorem Single.is_vector_assign_allowed_iff (T R : ScalarType) (E E2 : Nat)
    (hT : T ∈ base_scalar_types) (hR : R ∈ base_scalar_types) :
    Single.is_vector_assign_allowed T E R E2 = some true ↔
      Single.is_broadcastable E2 E = some true ∧ promote_type T R = some T := by
  unfold Single.is_vector_assign_allowed
  rw [promote_t_pair]
  cases hb : Single.is_broadcastable E2 E with
  | none => simp
  | some b =>
    cases hp : promote_type T R with
    | none => simp
    | some C =>
      simp only [Option.some.injEq, Bool.and_eq_true, is_implicit_convertible,
        decide_eq_true_eq]
      constructor
      · rintro ⟨h1, h2⟩
        refine ⟨h1, ?_⟩
        rcases promote_type_mem T R C hp with e | e
        · exact e
        · -- `C = R`: then `promote(R, T) = T` and `promote(T, R) = R` force `R = T`
          rw [e] at h2 hp
          rw [(promote_type_base_pairs T hT R hR).1, h2] at hp
          rw [e]
          exact (Option.some.inj hp).symm
      · rintro ⟨h1, h2⟩
        rw [h2]
        exact ⟨h1, promote_type_self T⟩

theorem Single.zip_common_packed {V : Type} (conv : ScalarType → ScalarType → V → V) (d : V)
    (zipx2 : V × V → V × V → V × V) (fn : V → V → V)
    (T R : ScalarType) (E E2 : Nat) (lhs rhs : List V)
    (hp : promote_type T R = some T) (hE : Single.broadcast_extent E E2 = some E)
    (hb : E2 = E ∨ (E2 = 1 ∧ E ≠ 1)) (hl : lhs.length = E) (hr : rhs.length = E2)
    (hpacked : T = .half ∨ T = .bfloat16) :
    (E % 2 = 1 →
      Single.zip_common conv d (fun O => O) zipx2 fn T E lhs R E2 rhs =
        .error (.read_out_of_bounds E)) ∧
    (E % 2 = 0 →
      ∃ out, Single.zip_common conv d (fun O => O) zipx2 fn T E lhs R E2 rhs = .ok out ∧
        out.length = E ∧
        ∀ j a0 a1 b0 b1, 2 * j + 1 < E →
          lhs[2 * j]? = some a0 → lhs[2 * j + 1]? = some a1 →
          rhs[if E2 = 1 then 0 else 2 * j]? = some b0 →
          rhs[if E2 = 1 then 0 else 2 * j + 1]? = some b1 →
          out[2 * j]? =
            some (zipx2 (a0, a1) (castTo conv R T b0, castTo conv R T b1)).1 ∧
          out[2 * j + 1]? =
            some (zipx2 (a0, a1) (castTo conv R T b0, castTo conv R T b1)).2) := by
  have hlc : Single.convert_helper conv d T E T E .ANY lhs = .ok lhs := by
    unfold Single.convert_helper
    rw [if_pos ⟨rfl, rfl⟩]
  obtain ⟨r2, hr2, hr2len, hr2val⟩ := Single.convert_helper_spec conv d R E2 T E rhs hr hb
  have hsel : (T = .half ∧ T = .half ∧ T = .half) ∨
      (T = .bfloat16 ∧ T = .bfloat16 ∧ T = .bfloat16) := by
    rcases hpacked with h | h
    · exact Or.inl ⟨h, h, h⟩
    · exact Or.inr ⟨h, h, h⟩
  have hzip : Single.zip_common conv d (fun O => O) zipx2 fn T E lhs R E2 rhs =
      Single.apply_impl_half2 d E zipx2 fn lhs r2 := by
    unfold Single.zip_common
    simp only [hp, hE]
    rw [hlc, hr2]
    simp only [bind, Except.bind, Single.apply_impl_zip]
    rw [if_pos hsel]
  rw [hzip]
  refine ⟨fun hodd => Single.apply_impl_half2_odd d E zipx2 fn lhs r2 hl hr2len hodd, ?_⟩
  intro heven
  obtain ⟨out, hout, hlen, hpairs⟩ :=
    Single.apply_impl_half2_even d E zipx2 fn lhs r2 hl hr2len heven
  refine ⟨out, hout, hlen, ?_⟩
  intro j a0 a1 b0 b1 hj ha0 ha1 hb0 hb1
  obtain ⟨x0, hx0, hy0⟩ := hr2val (2 * j) (by omega)
  obtain ⟨x1, hx1, hy1⟩ := hr2val (2 * j + 1) (by omega)
  rw [hb0] at hx0
  rw [hb1] at hx1
  cases hx0
  cases hx1
  exact hpairs j a0 a1 _ _ hj ha0 ha1 hy0 hy1

/-- C35: for a vector `lhs` of base element type `T` and extent `E` and a right
operand of base element type `R` and extent `E2`, `is_vector_assign_allowed` is
`true` if and only if `E2` is broadcastable to `E` and `promote(T, R) = T`.
When it is, `lhs op= rhs` leaves in `lhs` what `zip_common(F, lhs, rhs)`
returns, of element type `T` and extent `broadcast_extent<E, E2> = E`, so every
storage it returns has exactly `E` elements: for `T` other than `__half` and
`__nv_bfloat16`, element `p` is `F(lhs[p], cast_T(rhs[p]))` (with `rhs[0]` for a
right operand of one element); for these two types and even `E`, each pair of
elements is the paired functor of the pairs of `lhs` and of the cast `rhs`;
for these two types and odd `E` the packed loop reads `lhs[E]`, past the end.
When it is not, the operator does not exist. `vec<float> += int` is enabled
and `vec<int> += float` is not. -/
theorem C35_compound_assignment_enabled_iff {V : Type}
    (conv : ScalarType → ScalarType → V → V) (d : V)
    (zipx2 : V × V → V × V → V × V) (fn : V → V → V)
    (T R : ScalarType) (E E2 : Nat) (lhs rhs : List V)
    (hT : T ∈ base_scalar_types) (hR : R ∈ base_scalar_types)
    (hl : lhs.length = E) (hr : rhs.length = E2) :
    (Single.is_vector_assign_allowed T E R E2 = some true ↔
      Single.is_broadcastable E2 E = some true ∧ promote_type T R = some T) ∧
    (Single.is_vector_assign_allowed T E R E2 = some true →
      promote_t [T, R] = some T ∧ Single.broadcast_extent E E2 = some E ∧
      Single.binary_assign_op conv d zipx2 fn T E lhs R E2 rhs =
        Single.zip_common conv d (fun O => O) zipx2 fn T E lhs R E2 rhs ∧
      (∀ out, Single.binary_assign_op conv d zipx2 fn T E lhs R E2 rhs = .ok out →
        out.length = E) ∧
      (¬ (T = .half ∨ T = .bfloat16) →
        ∃ out, Single.binary_assign_op conv d zipx2 fn T E lhs R E2 rhs = .ok out ∧
          out.length = E ∧
          ∀ p, p < E → ∃ a b, lhs[p]? = some a ∧
            rhs[if E2 = 1 then 0 else p]? = some b ∧
            out[p]? = some (fn a (castTo conv R T b))) ∧
      (T = .half ∨ T = .bfloat16 → E % 2 = 0 →
        ∃ out, Single.binary_assign_op conv d zipx2 fn T E lhs R E2 rhs = .ok out ∧
          out.length = E ∧
          ∀ j a0 a1 b0 b1, 2 * j + 1 < E →
            lhs[2 * j]? = some a0 → lhs[2 * j + 1]? = some a1 →
            rhs[if E2 = 1 then 0 else 2 * j]? = some b0 →
            rhs[if E2 = 1 then 0 else 2 * j + 1]? = some b1 →
            out[2 * j]? =
              some (zipx2 (a0, a1) (castTo conv R T b0, castTo conv R T b1)).1 ∧
            out[2 * j + 1]? =
              some (zipx2 (a0, a1) (castTo conv R T b0, castTo conv R T b1)).2) ∧
      (T = .half ∨ T = .bfloat16 → E % 2 = 1 →
        Single.binary_assign_op conv d zipx2 fn T E lhs R E2 rhs =
          .error (.read_out_of_bounds E))) ∧
    (Single.is_vector_assign_allowed T E R E2 ≠ some true →
      Single.binary_assign_op conv d zipx2 fn T E lhs R E2 rhs = .error .ill_formed) ∧
    (∀ N : Nat, Single.is_vector_assign_allowed .float N .signed_int 1 = some true ∧
      Single.is_vector_assign_allowed .signed_int N .float 1 = some false) := by
  have hiff := Single.is_vector_assign_allowed_iff T R E E2 hT hR
  refine ⟨hiff, ?_, ?_, ?_⟩
  · intro hallowed
    obtain ⟨hb, hp⟩ := hiff.1 hallowed
    have hcases := Single.is_broadcastable_cases E2 E hb
    have hE : Single.broadcast_extent E E2 = some E := by
      rw [Single.is_broadcastable1_eq_true, Single.broadcast_extent_eq_some] at hb
      rw [Single.broadcast_extent_eq_some]
      obtain ⟨hc, hu⟩ := hb
      unfold dimCompatible dimUnified at *
      split_ifs at hu ⊢ <;> omega
    have hop : Single.binary_assign_op conv d zipx2 fn T E lhs R E2 rhs =
        Single.zip_common conv d (fun O => O) zipx2 fn T E lhs R E2 rhs := by
      unfold Single.binary_assign_op
      rw [if_pos hallowed]
    have hprimary : ¬ (T = .half ∨ T = .bfloat16) →
        ∃ out, Single.binary_assign_op conv d zipx2 fn T E lhs R E2 rhs = .ok out ∧
          out.length = E ∧
          ∀ p, p < E → ∃ a b, lhs[p]? = some a ∧
            rhs[if E2 = 1 then 0 else p]? = some b ∧
            out[p]? = some (fn a (castTo conv R T b)) := by
      intro hprim
      obtain ⟨out, hout, hlen, hval⟩ :=
        Single.zip_common_primary conv d (fun O => O) zipx2 fn T E lhs R E2 rhs T E hp hE
          hl hr
          (by
            rintro (⟨h, -⟩ | ⟨h, -⟩)
            · exact hprim (Or.inl h)
            · exact hprim (Or.inr h))
      refine ⟨out, by rw [hop]; exact hout, hlen, ?_⟩
      intro p hpE
      obtain ⟨a, b, ha, hb2, hres⟩ := hval p hpE
      have hidx : (if E = 1 then 0 else p) = p := by
        split_ifs with h1
        · omega
        · rfl
      rw [hidx] at ha
      refine ⟨a, b, ha, hb2, ?_⟩
      rw [hres, if_pos rfl]
      rfl
    have hpacked := fun h : T = .half ∨ T = .bfloat16 =>
      Single.zip_common_packed conv d zipx2 fn T R E E2 lhs rhs hp hE hcases hl hr h
    refine ⟨by rw [promote_t_pair, hp], hE, hop, ?_, hprimary, ?_, ?_⟩
    · intro out hout
      by_cases hprim : T = .half ∨ T = .bfloat16
      · rcases Nat.mod_two_eq_zero_or_one E with heven | hodd
        · obtain ⟨o2, ho2, hlen2, -⟩ := (hpacked hprim).2 heven
          rw [hop, ho2] at hout
          rw [← Except.ok.inj hout]
          exact hlen2
        · rw [hop, (hpacked hprim).1 hodd] at hout
          exact absurd hout (by simp)
      · obtain ⟨o2, ho2, hlen2, -⟩ := hprimary hprim
        rw [ho2] at hout
        rw [← Except.ok.inj hout]
        exact hlen2
    · intro hprim heven
      rw [hop]
      exact (hpacked hprim).2 heven
    · intro hprim hodd
      rw [hop]
      exact (hpacked hprim).1 hodd
  · intro hnot
    unfold Single.binary_assign_op
    rw [if_neg hnot]
  · intro N
    have h1 : Single.is_broadcastable 1 N = some true := by
      rw [Single.is_broadcastable1_eq_true, Single.broadcast_extent_eq_some]
      exact ⟨Or.inr (Or.inl rfl), by simp [dimUnified]⟩
    have hfi : promote_type .float .signed_int = some .float := by decide
    have hif : promote_type .signed_int .float = some .float := by decide
    constructor
    · unfold Single.is_vector_assign_allowed
      rw [promote_t_pair, h1, hfi]
      decide
    · unfold Single.is_vector_assign_allowed
      rw [promote_t_pair, h1, hif]
      decide

/-- Witness for C35: `vec<float, 3> += int` is enabled and is the `zip_common`
of the two operands, which adds the one right element to each of the three
elements of `lhs`. -/
theorem C35_compound_assignment_enabled_iff_witness :
    Single.is_vector_assign_allowed .float 3 .signed_int 1 = some true ∧
    Single.binary_assign_op (fun (_ _ : ScalarType) (v : Int) => v) 0
        (Single.zip_halfx2 (fun a b : Int => a + b)) (fun a b : Int => a + b)
        .float 3 [1, 2, 3] .signed_int 1 [10] =
      Single.zip_common (fun (_ _ : ScalarType) (v : Int) => v) 0 (fun O => O)
        (Single.zip_halfx2 (fun a b : Int => a + b)) (fun a b : Int => a + b)
        .float 3 [1, 2, 3] .signed_int 1 [10] ∧
    ∃ out, Single.binary_assign_op (fun (_ _ : ScalarType) (v : Int) => v) 0
        (Single.zip_halfx2 (fun a b : Int => a + b)) (fun a b : Int => a + b)
        .float 3 [1, 2, 3] .signed_int 1 [10] = .ok out ∧
      out.length = 3 ∧
      ∀ p, p < 3 → ∃ a b, [1, 2, 3][p]? = some a ∧
        [10][if 1 = 1 then 0 else p]? = some b ∧
        out[p]? = some ((fun a b : Int => a + b) a
          (castTo (fun (_ _ : ScalarType) (v : Int) => v) .signed_int .float b)) :=
  have h := C35_compound_assignment_enabled_iff (fun (_ _ : ScalarType) (v : Int) => v) 0
    (Single.zip_halfx2 (fun a b : Int => a + b)) (fun a b : Int => a + b)
    .float .signed_int 3 1 [1, 2, 3] [10] (by decide) (by decide) rfl rfl
  have hallowed := (h.2.2.2 3).1
  ⟨hallowed, (h.2.1 hallowed).2.2.1, (h.2.1 hallowed).2.2.2.2.1 (by decide)⟩

/-! ## Claim C36: operands are broadcastable to the unified extent -/

theorem Tensor.broadcastable_to_extentOf3 (A B C E : List Nat)
    (h : extentOf3 A B C = some E) :
    Tensor.is_broadcastable A E = some true ∧ Tensor.is_broadcastable B E = some true ∧
    Tensor.is_broadcastable C E = some true := by
  unfold extentOf3 at h
  cases hBC : Tensor.broadcast_extents B C with
  | none => simp [hBC] at h
  | some BC =>
    rw [hBC, Option.some_bind] at h
    obtain ⟨hA, hBCE⟩ := Tensor.broadcastable_to_unified A BC E h
    obtain ⟨hB, hC⟩ := Tensor.broadcastable_to_unified B C BC hBC
    exact ⟨hA, Tensor.is_broadcastable_trans B BC E hB hBCE,
      Tensor.is_broadcastable_trans C BC E hC hBCE⟩

theorem Single.broadcastable_to_unified1 (a b e : Nat)
    (h : Single.broadcast_extent a b = some e) :
    Single.is_broadcastable a e = some true ∧ Single.is_broadcastable b e = some true := by
  rw [Single.broadcast_extent_eq_some] at h
  obtain ⟨hc, hu⟩ := h
  rw [Single.is_broadcastable1_eq_true, Single.is_broadcastable1_eq_true,
    Single.broadcast_extent_eq_some, Single.broadcast_extent_eq_some]
  unfold dimCompatible dimUnified at *
  split_ifs at hu ⊢ <;> refine ⟨⟨?_, ?_⟩, ?_, ?_⟩ <;> omega

/-- C36: whenever the extent `E = unify(A, unify(B, C))` of `where` or `fma`
(`triops.h`) is defined, each of `A`, `B`, `C` is broadcastable to `E`, so the
primary `broadcast_impl<T, A, E>` (and likewise for `B`, `C`) passes its
`static_assert` and runs its copy loops; the same holds for two operands with
`E = unify(A, B)`, and for `zip_common`, `where` and `fma` of the single header
with `broadcast_extent`. -/
theorem C36_operands_broadcast_to_unified_extent (A B C E : List Nat)
    (h : extentOf3 A B C = some E) :
    (Tensor.broadcast_extents B C).bind (Tensor.broadcast_extents A) = some E ∧
    (Tensor.is_broadcastable A E = some true ∧ Tensor.is_broadcastable B E = some true ∧
      Tensor.is_broadcastable C E = some true) ∧
    (∀ (α : Type) (d : α) (x : List α), ∀ X ∈ [A, B, C],
      Tensor.broadcast_impl_primary d X E x =
        Tensor.copy_helper E (Tensor.strides_helper (Tensor.extents_to_rank X E.length))
          (Tensor.strides_helper E) (List.replicate (volume E) d) x) ∧
    (∀ A2 B2 E2 : List Nat, Tensor.broadcast_extents A2 B2 = some E2 →
      Tensor.is_broadcastable A2 E2 = some true ∧ Tensor.is_broadcastable B2 E2 = some true) ∧
    (∀ a b e : Nat, Single.broadcast_extent a b = some e →
      Single.is_broadcastable a e = some true ∧ Single.is_broadcastable b e = some true) ∧
    (∀ a b c e : Nat, (Single.broadcast_extent b c).bind (Single.broadcast_extent a) = some e →
      Single.is_broadcastable a e = some true ∧ Single.is_broadcastable b e = some true ∧
      Single.is_broadcastable c e = some true) := by
  have h3 := Tensor.broadcastable_to_extentOf3 A B C E h
  refine ⟨h, h3, ?_, Tensor.broadcastable_to_unified, Single.broadcastable_to_unified1, ?_⟩
  · intro α d x X hX
    have hXE : Tensor.is_broadcastable X E = some true := by
      simp only [List.mem_cons, List.mem_singleton, List.not_mem_nil, or_false] at hX
      rcases hX with e | e | e <;> rw [e]
      · exact h3.1
      · exact h3.2.1
      · exact h3.2.2
    unfold Tensor.broadcast_impl_primary
    rw [if_pos hXE]
  · intro a b c e he
    cases hbc : Single.broadcast_extent b c with
    | none => simp [hbc] at he
    | some bc =>
      rw [hbc, Option.some_bind] at he
      obtain ⟨ha, hbce⟩ := Single.broadcastable_to_unified1 a bc e he
      obtain ⟨hb, hc⟩ := Single.broadcastable_to_unified1 b c bc hbc
      have htrans : ∀ x y z : Nat, Single.is_broadcastable x y = some true →
          Single.is_broadcastable y z = some true → Single.is_broadcastable x z = some true := by
        intro x y z hxy hyz
        rcases Single.is_broadcastable_cases x y hxy with e1 | ⟨e1, -⟩
        · rw [e1]
          exact hyz
        · rw [e1, Single.is_broadcastable1_eq_true, Single.broadcast_extent_eq_some]
          exact ⟨Or.inr (Or.inl rfl), by simp [dimUnified]⟩
      exact ⟨ha, htrans b bc e hb hbce, htrans c bc e hc hbce⟩

/-- Witness for C36: a condition of extent `[2, 1]` with values of extents `[3]`
and `[4, 1, 1]`, unified to `[4, 2, 3]`. -/
theorem C36_operands_broadcast_to_unified_extent_witness :
    Tensor.is_broadcastable [2, 1] [4, 2, 3] = some true ∧
    Tensor.is_broadcastable [3] [4, 2, 3] = some true ∧
    Tensor.is_broadcastable [4, 1, 1] [4, 2, 3] = some true :=
  (C36_operands_broadcast_to_unified_extent [2, 1] [3] [4, 1, 1] [4, 2, 3]
    (by
      unfold extentOf3
      rw [Tensor.broadcast_extents_eq]
      have h1 : Tensor.unify_extents_helper (padLeft [3] [4, 1, 1].length)
          (padLeft [4, 1, 1] [3].length) = some [4, 1, 3] := by decide
      rw [h1, Option.some_bind, Tensor.broadcast_extents_eq]
      decide)).2.1

/-! ## Claim C37: the copy loops stay in bounds -/

/-- C37: for every target extent `To` of rank at most 3 and every `From`
broadcastable to `To`: `strides_helper<To>` maps every index inside `To` to its
row-major position, below `volume(To)`; distinct indices go to distinct
positions and every position below `volume(To)` is reached, so each output
element is written exactly once; the padded `From` has the volume of `From`
and its `strides_helper` maps every index inside `To` to a position below
`volume(From)`; and on an input of `volume(From)` elements `broadcast_impl`
runs without a fault and returns `volume(To)` elements, each of them an input
element. -/
theorem C37_copy_loops_stay_in_bounds {α : Type} (d : α) (From To : List Nat)
    (input : List α) (hrank : To.length ≤ 3)
    (hb : Tensor.is_broadcastable From To = some true)
    (hlen : input.length = volume From) :
    (∀ x, Inside x To →
      Tensor.strides_helper To x = .ok (rowMajor To x) ∧ rowMajor To x < volume To) ∧
    (∀ x y, Inside x To → Inside y To →
      Tensor.strides_helper To x = Tensor.strides_helper To y → x = y) ∧
    (∀ p, p < volume To → ∃ x, Inside x To ∧ Tensor.strides_helper To x = .ok p) ∧
    volume (Tensor.extents_to_rank From To.length) = volume From ∧
    (∀ x, Inside x To →
      ∃ i, Tensor.strides_helper (Tensor.extents_to_rank From To.length) x = .ok i ∧
        i < volume From) ∧
    (∃ out, Tensor.broadcast_impl d From To input = .ok out ∧ out.length = volume To ∧
      ∀ p, p < volume To → ∃ i v, i < volume From ∧ input[i]? = some v ∧ out[p]? = some v) := by
  have hF := Tensor.broadcastable_forall2 From To hb
  have hstr : ∀ x, Inside x To → Tensor.strides_helper To x = .ok (rowMajor To x) := by
    intro x hx
    rw [strides_helper_eq To x hrank (inside_length hx), zeroUnit_self hx]
  have hsrc : ∀ x, Inside x To →
      rowMajor (padLeft From To.length) (zeroUnit (padLeft From To.length) x) < volume From := by
    intro x hx
    have h := rowMajor_lt (zeroUnit_inside hF hx)
    rwa [volume_padLeft] at h
  refine ⟨fun x hx => ⟨hstr x hx, rowMajor_lt hx⟩, ?_, ?_, ?_, ?_, ?_⟩
  · intro x y hx hy hxy
    rw [hstr x hx, hstr y hy] at hxy
    exact rowMajor_inj hx hy (Except.ok.inj hxy)
  · intro p hp
    obtain ⟨x, hx, hxp⟩ := rowMajor_surj To p hp
    exact ⟨x, hx, by rw [hstr x hx, hxp]⟩
  · rw [Tensor.extents_to_rank_eq, volume_padLeft]
  · intro x hx
    refine ⟨_, ?_, hsrc x hx⟩
    rw [Tensor.extents_to_rank_eq]
    have hpl : (padLeft From To.length).length = To.length := List.Forall₂.length_eq hF
    exact strides_helper_eq _ x (by rw [hpl]; exact hrank) (by rw [hpl, inside_length hx])
  · obtain ⟨out, hout, holen, hval⟩ := Tensor.broadcast_impl_remap d From To input hrank hb hlen
    refine ⟨out, hout, holen, ?_⟩
    intro p hp
    obtain ⟨x, hx, rfl⟩ := rowMajor_surj To p hp
    obtain ⟨v, hv1, hv2⟩ := hval x hx
    exact ⟨_, v, hsrc x hx, hv2, hv1⟩

/-- Witness for C37: the column `[10, 20]` of extent `[2, 1]` broadcast to
`[2, 3]`. -/
theorem C37_copy_loops_stay_in_bounds_witness :
    ∃ out, Tensor.broadcast_impl (0 : Int) [2, 1] [2, 3] [10, 20] = .ok out ∧
      out.length = volume [2, 3] ∧
      ∀ p, p < volume [2, 3] →
        ∃ i v, i < volume [2, 1] ∧ [10, 20][i]? = some v ∧ out[p]? = some v :=
  (C37_copy_loops_stay_in_bounds (0 : Int) [2, 1] [2, 3] [10, 20] (by decide)
    (by rw [Tensor.is_broadcastable_eq_true, Tensor.broadcast_extents_eq]; decide)
    (by decide)).2.2.2.2.2

/-! ## Claim C39: mapping commutes with broadcasting -/

theorem Tensor.copy_helper_rank4 {α : Type} (E : List Nat) (hE : 3 < E.length)
    (IS OS : List Nat → Except Fault Nat) (output input : List α) :
    Tensor.copy_helper E IS OS output input = .error .ill_formed := by
  rcases E with _ | ⟨a, _ | ⟨b, _ | ⟨c, _ | ⟨e, E⟩⟩⟩⟩
  · simp at hE
  · simp at hE
  · simp at hE
  · simp at hE
  · rfl

/-- Two storages of `volume E` elements that agree at the row-major position of
every index inside `E` are equal. -/
theorem ext_rowMajor {α : Type} (E : List Nat) (xs ys : List α)
    (hx : xs.length = volume E) (hy : ys.length = volume E)
    (h : ∀ x, Inside x E → xs[rowMajor E x]? = ys[rowMajor E x]?) : xs = ys := by
  apply List.ext_getElem?
  intro p
  by_cases hp : p < volume E
  · obtain ⟨x, hxi, rfl⟩ := rowMajor_surj E p hp
    exact h x hxi
  · rw [List.getElem?_eq_none (by omega), List.getElem?_eq_none (by omega)]

theorem Tensor.broadcast_impl_map {α β : Type} (d1 : α) (d2 : β) (f : α → β)
    (From To : List Nat) (x : List α)
    (hb : Tensor.is_broadcastable From To = some true) (hx : x.length = volume From) :
    Tensor.broadcast_impl d2 From To (x.map f) =
      (Tensor.broadcast_impl d1 From To x >>= fun y => .ok (y.map f)) := by
  by_cases hEq : From = To
  · subst hEq
    unfold Tensor.broadcast_impl
    rw [if_pos rfl, if_pos rfl]
    rfl
  · by_cases hrank : To.length ≤ 3
    · obtain ⟨o1, h1, hl1, hv1⟩ :=
        Tensor.broadcast_impl_remap d2 From To (x.map f) hrank hb (by simp [hx])
      obtain ⟨o2, h2, hl2, hv2⟩ := Tensor.broadcast_impl_remap d1 From To x hrank hb hx
      rw [h1, h2]
      simp only [bind, Except.bind]
      congr 1
      apply ext_rowMajor To o1 (o2.map f) hl1 (by simp [hl2])
      intro z hz
      obtain ⟨v, hv, hsrc⟩ := hv1 z hz
      obtain ⟨w, hw, hsrc2⟩ := hv2 z hz
      rw [List.getElem?_map, hsrc2] at hsrc
      rw [hv, List.getElem?_map, hw, ← hsrc]
    · have h4 : 3 < To.length := by omega
      simp only [Tensor.broadcast_impl, if_neg hEq, if_pos hb, Tensor.copy_helper_rank4 To h4]
      rfl

theorem Single.broadcast_impl1_map {α β : Type} (d1 : α) (d2 : β) (f : α → β)
    (From To : Nat) (x : List α)
    (hb : Single.is_broadcastable From To = some true) (hx : x.length = From) :
    Single.broadcast_impl d2 From To (x.map f) =
      (Single.broadcast_impl d1 From To x >>= fun y => .ok (y.map f)) := by
  rcases Single.is_broadcastable_cases From To hb with hEq | ⟨hF, hT⟩
  · subst hEq
    unfold Single.broadcast_impl
    by_cases h1 : From = 1
    · have h11 : From = 1 ∧ From = 1 := ⟨h1, h1⟩
      simp only [if_pos h11]
      rfl
    · have h11 : ¬ (From = 1 ∧ From = 1) := fun h => h1 h.1
      simp only [if_neg h11, if_neg h1, if_pos]
      rfl
  · subst hF
    obtain ⟨a, rfl⟩ : ∃ a, x = [a] := List.length_eq_one.mp hx
    rw [List.map_singleton, Single.broadcast_impl_replicate d2 To (f a) hT,
      Single.broadcast_impl_replicate d1 To a hT]
    simp [bind, Except.bind]

/-- C39: for every unary functor `f`, every `From` broadcastable to `To` and
every storage `x` of extent `From`, in both headers
`broadcast(apply(f, x), To) = apply(f, broadcast(x, To))` (with a result
wherever the broadcast has an instantiation: in `broadcast.h` for `To` of rank
at most 3 or `From = To`, in the single header for `To` other than
`extent<1>`); hence the general case of `convert_helper`, cast then broadcast,
returns what broadcast then cast returns. -/
theorem C39_cast_commutes_with_broadcast {α β : Type} (d1 : α) (d2 : β) (f : α → β)
    (From To : List Nat) (x : List α) (From1 To1 : Nat) (x1 : List α)
    (hb : Tensor.is_broadcastable From To = some true) (hx : x.length = volume From)
    (hb1 : Single.is_broadcastable From1 To1 = some true) (hx1 : x1.length = From1) :
    (Single.apply_impl1 d2 (volume From) f x >>= fun y => Tensor.broadcast_impl d2 From To y) =
      (Tensor.broadcast_impl d1 From To x >>=
        fun y => Single.apply_impl1 d2 (volume To) f y) ∧
    (To.length ≤ 3 ∨ From = To →
      ∃ out, (Single.apply_impl1 d2 (volume From) f x >>=
          fun y => Tensor.broadcast_impl d2 From To y) = .ok out ∧ out.length = volume To) ∧
    (Single.apply_impl1 d2 From1 f x1 >>= fun y => Single.broadcast_impl d2 From1 To1 y) =
      (Single.broadcast_impl d1 From1 To1 x1 >>= fun y => Single.apply_impl1 d2 To1 f y) ∧
    (To1 ≠ 1 →
      ∃ out, (Single.apply_impl1 d2 From1 f x1 >>=
          fun y => Single.broadcast_impl d2 From1 To1 y) = .ok out ∧ out.length = To1) ∧
    (∀ (conv : ScalarType → ScalarType → α → α) (T T2 : ScalarType), T ≠ T2 → From ≠ To →
      Tensor.convert_helper conv d1 T From T2 To .ANY x =
        (Tensor.broadcast_impl d1 From To x >>=
          fun y => Single.apply_impl1 d1 (volume To) (conv T T2) y)) ∧
    (∀ (conv : ScalarType → ScalarType → α → α) (T T2 : ScalarType), T ≠ T2 → From1 ≠ To1 →
      Single.convert_helper conv d1 T From1 T2 To1 .ANY x1 =
        (Single.broadcast_impl d1 From1 To1 x1 >>=
          fun y => Single.apply_impl1 d1 To1 (conv T T2) y)) := by
  -- the tensor header
  have keyT : ∀ (γ : Type) (e : γ) (g : α → γ),
      (Single.apply_impl1 e (volume From) g x >>= fun y => Tensor.broadcast_impl e From To y) =
        (Tensor.broadcast_impl d1 From To x >>=
          fun y => Single.apply_impl1 e (volume To) g y) := by
    intro γ e g
    rw [Single.apply_impl1_spec e (volume From) g x hx]
    show Tensor.broadcast_impl e From To (x.map g) = _
    rw [Tensor.broadcast_impl_map d1 e g From To x hb hx]
    cases hres : Tensor.broadcast_impl d1 From To x with
    | error err => rfl
    | ok y =>
      have hy : y.length = volume To := by
        by_cases hEq : From = To
        · subst hEq
          unfold Tensor.broadcast_impl at hres
          rw [if_pos rfl] at hres
          rw [← Except.ok.inj hres]
          exact hx
        · by_cases hrank : To.length ≤ 3
          · obtain ⟨o, ho, hlo, -⟩ := Tensor.broadcast_impl_remap d1 From To x hrank hb hx
            rw [ho] at hres
            rw [← Except.ok.inj hres]
            exact hlo
          · unfold Tensor.broadcast_impl at hres
            rw [if_neg hEq, if_pos hb, Tensor.copy_helper_rank4 To (by omega)] at hres
            exact absurd hres (by simp)
      show Except.ok (y.map g) = Single.apply_impl1 e (volume To) g y
      rw [Single.apply_impl1_spec e (volume To) g y hy]
  -- the single header
  have keyS : ∀ (γ : Type) (e : γ) (g : α → γ),
      (Single.apply_impl1 e From1 g x1 >>= fun y => Single.broadcast_impl e From1 To1 y) =
        (Single.broadcast_impl d1 From1 To1 x1 >>=
          fun y => Single.apply_impl1 e To1 g y) := by
    intro γ e g
    rw [Single.apply_impl1_spec e From1 g x1 hx1]
    show Single.broadcast_impl e From1 To1 (x1.map g) = _
    rw [Single.broadcast_impl1_map d1 e g From1 To1 x1 hb1 hx1]
    cases hres : Single.broadcast_impl d1 From1 To1 x1 with
    | error err => rfl
    | ok y =>
      have hy : y.length = To1 := by
        rcases Single.is_broadcastable_cases From1 To1 hb1 with hEq | ⟨hF, hT⟩
        · subst hEq
          unfold Single.broadcast_impl at hres
          by_cases h1 : From1 = 1
          · rw [if_pos ⟨h1, h1⟩] at hres
            exact absurd hres (by simp)
          · rw [if_neg (fun h => h1 h.1), if_neg h1, if_pos rfl] at hres
            rw [← Except.ok.inj hres]
            exact hx1
        · subst hF
          obtain ⟨a, rfl⟩ : ∃ a, x1 = [a] := List.length_eq_one.mp hx1
          rw [Single.broadcast_impl_replicate d1 To1 a hT] at hres
          rw [← Except.ok.inj hres]
          simp
      show Except.ok (y.map g) = Single.apply_impl1 e To1 g y
      rw [Single.apply_impl1_spec e To1 g y hy]
  refine ⟨keyT β d2 f, ?_, keyS β d2 f, ?_, ?_, ?_⟩
  · intro hcase
    rw [Single.apply_impl1_spec d2 (volume From) f x hx]
    show ∃ out, Tensor.broadcast_impl d2 From To (x.map f) = .ok out ∧ _
    rcases hcase with hrank | hEq
    · obtain ⟨o, ho, hlo, -⟩ :=
        Tensor.broadcast_impl_remap d2 From To (x.map f) hrank hb (by simp [hx])
      exact ⟨o, ho, hlo⟩
    · subst hEq
      refine ⟨x.map f, ?_, by simp [hx]⟩
      unfold Tensor.broadcast_impl
      rw [if_pos rfl]
  · intro hT
    rw [Single.apply_impl1_spec d2 From1 f x1 hx1]
    show ∃ out, Single.broadcast_impl d2 From1 To1 (x1.map f) = .ok out ∧ _
    rcases Single.is_broadcastable_cases From1 To1 hb1 with hEq | ⟨hF, -⟩
    · subst hEq
      refine ⟨x1.map f, ?_, by simp [hx1]⟩
      unfold Single.broadcast_impl
      rw [if_neg (fun h => hT h.1), if_neg hT, if_pos rfl]
    · subst hF
      obtain ⟨a, rfl⟩ : ∃ a, x1 = [a] := List.length_eq_one.mp hx1
      exact ⟨_, Single.broadcast_impl_replicate d2 To1 (f a) hT, by simp⟩
  · intro conv T T2 hT hE
    have hcast : ops_cast conv T T2 .ANY = some (conv T T2) := by
      simp [ops_cast, hT]
    unfold Tensor.convert_helper
    rw [if_neg (fun h => hT h.1), if_neg hT, if_neg hE, hcast]
    exact keyT α d1 (conv T T2)
  · intro conv T T2 hT hE
    have hcast : ops_cast conv T T2 .ANY = some (conv T T2) := by
      simp [ops_cast, hT]
    unfold Single.convert_helper
    rw [if_neg (fun h => hT h.1), if_neg hT, if_neg hE, hcast]
    exact keyS α d1 (conv T T2)

/-- Witness for C39: doubling `[10, 20]` of extent `[2, 1]` and broadcasting to
`[2, 3]`, and doubling `[7]` and broadcasting to length 4. -/
theorem C39_cast_commutes_with_broadcast_witness :
    (Single.apply_impl1 (0 : Int) (volume [2, 1]) (fun a : Int => 2 * a) [10, 20] >>=
        fun y => Tensor.broadcast_impl 0 [2, 1] [2, 3] y) =
      (Tensor.broadcast_impl (0 : Int) [2, 1] [2, 3] [10, 20] >>=
        fun y => Single.apply_impl1 (0 : Int) (volume [2, 3]) (fun a : Int => 2 * a) y) ∧
    (Single.apply_impl1 (0 : Int) 1 (fun a : Int => 2 * a) [7] >>=
        fun y => Single.broadcast_impl 0 1 4 y) =
      (Single.broadcast_impl (0 : Int) 1 4 [7] >>=
        fun y => Single.apply_impl1 (0 : Int) 4 (fun a : Int => 2 * a) y) :=
  have h := C39_cast_commutes_with_broadcast (0 : Int) (0 : Int) (fun a : Int => 2 * a)
    [2, 1] [2, 3] [10, 20] 1 4 [7]
    (by rw [Tensor.is_broadcastable_eq_true, Tensor.broadcast_extents_eq]; decide)
    (by decide) (by decide) (by decide)
  ⟨h.1, h.2.2.1⟩

/-! ## Claim C38: broadcasts compose -/

theorem rowMajor_zeroUnit_pad (k : Nat) (E z : List Nat) :
    rowMajor (List.replicate k 1 ++ E) (zeroUnit (List.replicate k 1 ++ E) z) =
      rowMajor E (zeroUnit E (z.drop k)) := by
  induction k generalizing z with
  | zero => simp
  | succ k ih =>
    cases z with
    | nil =>
      cases E <;> simp [List.replicate_succ, zeroUnit, rowMajor]
    | cons z0 zs =>
      simp only [List.replicate_succ, List.cons_append, zeroUnit, rowMajor, List.drop_succ_cons,
        if_true, Nat.zero_mul, Nat.zero_add]
      exact ih zs

theorem zeroUnit_zeroUnit {F T : List Nat}
    (hF : List.Forall₂ (fun f t => f = 1 ∨ f = t) F T) (z : List Nat) :
    zeroUnit F (zeroUnit T z) = zeroUnit F z := by
  induction hF generalizing z with
  | nil => cases z <;> simp [zeroUnit]
  | @cons f t F T hft _ ih =>
    cases z with
    | nil => simp [zeroUnit]
    | cons z0 zs =>
      simp only [zeroUnit, ih zs, List.cons.injEq, and_true]
      rcases hft with h | h
      · simp [h]
      · subst h
        by_cases h1 : f = 1 <;> simp [h1]

theorem padLeft_padLeft (A : List Nat) (b c : Nat) (hab : A.length ≤ b) (hbc : b ≤ c) :
    padLeft A c = List.replicate (c - b) 1 ++ padLeft A b := by
  unfold padLeft
  rw [← List.append_assoc, ← List.replicate_add]
  congr 2
  omega

theorem Tensor.broadcast_impl_compose {α : Type} (d : α) (A B C : List Nat) (x : List α)
    (hrank : C.length ≤ 3)
    (hAB : Tensor.is_broadcastable A B = some true)
    (hBC : Tensor.is_broadcastable B C = some true)
    (hx : x.length = volume A) :
    ∃ out, (Tensor.broadcast_impl d A B x >>= fun y => Tensor.broadcast_impl d B C y) =
        .ok out ∧
      Tensor.broadcast_impl d A C x = .ok out ∧ out.length = volume C := by
  have hAC := Tensor.is_broadcastable_trans A B C hAB hBC
  have hlenAB : A.length ≤ B.length :=
    ((Tensor.broadcast_extents_eq_target A B).1
      ((Tensor.is_broadcastable_eq_true A B).1 hAB)).1
  have hlenBC : B.length ≤ C.length :=
    ((Tensor.broadcast_extents_eq_target B C).1
      ((Tensor.is_broadcastable_eq_true B C).1 hBC)).1
  have hFAB := Tensor.broadcastable_forall2 A B hAB
  have hFBC := Tensor.broadcastable_forall2 B C hBC
  obtain ⟨mid, hmid, hlm, hvm⟩ :=
    Tensor.broadcast_impl_remap d A B x (by omega) hAB hx
  obtain ⟨o1, ho1, hl1, hv1⟩ := Tensor.broadcast_impl_remap d B C mid hrank hBC hlm
  obtain ⟨o2, ho2, hl2, hv2⟩ := Tensor.broadcast_impl_remap d A C x hrank hAC hx
  refine ⟨o1, by rw [hmid]; exact ho1, ?_, hl1⟩
  rw [ho2]
  congr 1
  apply ext_rowMajor C o2 o1 hl2 hl1
  intro z hz
  obtain ⟨v, hv, hsrc1⟩ := hv1 z hz
  obtain ⟨u, hu, hsrc2⟩ := hv2 z hz
  -- the source of `z` in `B`
  have hBp : padLeft B C.length = List.replicate (C.length - B.length) 1 ++ B := rfl
  rw [hBp, rowMajor_zeroUnit_pad] at hsrc1
  have hdropB : (padLeft B C.length).drop (C.length - B.length) = B := by
    rw [hBp]
    exact List.drop_left' (by simp)
  have hFdrop : List.Forall₂ (fun f t => f = 1 ∨ f = t) B (C.drop (C.length - B.length)) := by
    have h := List.forall₂_drop (C.length - B.length) hFBC
    rwa [hdropB] at h
  have hzdrop : Inside (z.drop (C.length - B.length)) (C.drop (C.length - B.length)) :=
    List.forall₂_drop (C.length - B.length) hz
  have hy : Inside (zeroUnit B (z.drop (C.length - B.length))) B :=
    zeroUnit_inside hFdrop hzdrop
  obtain ⟨w, hw, hsrcm⟩ := hvm _ hy
  rw [zeroUnit_zeroUnit hFAB] at hsrcm
  rw [padLeft_padLeft A B.length C.length hlenAB hlenBC, rowMajor_zeroUnit_pad] at hsrc2
  rw [hsrcm] at hsrc2
  rw [hw] at hsrc1
  rw [hu, hv, ← Option.some.inj hsrc1, Option.some.inj hsrc2]

/-- C38: for all extents `A`, `B`, `C` with `C` of rank at most 3 (hence `A` and
`B` too), `A` broadcastable to `B` and `B` broadcastable to `C`: `A` is
broadcastable to `C`, and for every storage `x` of extent `A`,
`broadcast(broadcast(x, B), C)` and `broadcast(x, C)` return the same storage
of `volume(C)` elements. -/
theorem C38_broadcasts_compose {α : Type} (d : α) (A B C : List Nat) (x : List α)
    (hrank : C.length ≤ 3)
    (hAB : Tensor.is_broadcastable A B = some true)
    (hBC : Tensor.is_broadcastable B C = some true)
    (hx : x.length = volume A) :
    Tensor.is_broadcastable A C = some true ∧
    (A.length ≤ B.length ∧ B.length ≤ C.length) ∧
    ∃ out, (Tensor.broadcast_impl d A B x >>= fun y => Tensor.broadcast_impl d B C y) =
        .ok out ∧
      Tensor.broadcast_impl d A C x = .ok out ∧ out.length = volume C := by
  refine ⟨Tensor.is_broadcastable_trans A B C hAB hBC, ⟨?_, ?_⟩,
    Tensor.broadcast_impl_compose d A B C x hrank hAB hBC hx⟩
  · exact ((Tensor.broadcast_extents_eq_target A B).1
      ((Tensor.is_broadcastable_eq_true A B).1 hAB)).1
  · exact ((Tensor.broadcast_extents_eq_target B C).1
      ((Tensor.is_broadcastable_eq_true B C).1 hBC)).1

/-- Witness for C38: `[7, 8]` of extent `[2]` to `[1, 2]` and on to `[3, 2]`. -/
theorem C38_broadcasts_compose_witness :
    Tensor.is_broadcastable [2] [3, 2] = some true ∧
    ∃ out, (Tensor.broadcast_impl (0 : Int) [2] [1, 2] [7, 8] >>=
        fun y => Tensor.broadcast_impl 0 [1, 2] [3, 2] y) = .ok out ∧
      Tensor.broadcast_impl (0 : Int) [2] [3, 2] [7, 8] = .ok out ∧
      out.length = volume [3, 2] :=
  have h := C38_broadcasts_compose (0 : Int) [2] [1, 2] [3, 2] [7, 8] (by decide)
    (by rw [Tensor.is_broadcastable_eq_true, Tensor.broadcast_extents_eq]; decide)
    (by rw [Tensor.is_broadcastable_eq_true, Tensor.broadcast_extents_eq]; decide)
    (by decide)
  ⟨h.1, h.2.2⟩

/-! ## Claim C32: unification does not depend on order or grouping -/

theorem dimAt_of_le (E : List Nat) (k : Nat) (h : E.length ≤ k) : dimAt E k = 1 := by
  unfold dimAt
  rw [List.getElem?_eq_none (by simpa using h)]
  rfl

theorem getElem?_eq_dimAt (L : List Nat) (i : Nat) (hi : i < L.length) :
    L[i]? = some (dimAt L (L.length - 1 - i)) := by
  unfold dimAt
  rw [List.getElem?_reverse (by omega)]
  have hidx : L.length - 1 - (L.length - 1 - i) = i := by omega
  rw [hidx, List.getElem?_eq_getElem hi]
  rfl

theorem dimAt_padLeft (E : List Nat) (r k : Nat) : dimAt (padLeft E r) k = dimAt E k := by
  unfold dimAt padLeft
  rw [List.reverse_append, List.reverse_replicate]
  by_cases hk : k < E.length
  · rw [List.getElem?_append_left (by simpa using hk)]
  · rw [List.getElem?_append_right (by simpa using hk),
      List.getElem?_eq_none (l := E.reverse) (by simpa using hk)]
    simp only [List.length_reverse, List.getElem?_replicate]
    split_ifs <;> rfl

theorem dimAt_ext (C D : List Nat) (hlen : C.length = D.length)
    (h : ∀ k, dimAt C k = dimAt D k) : C = D := by
  apply List.reverse_injective
  apply List.ext_getElem?
  intro k
  by_cases hk : k < C.length
  · obtain ⟨c, hc⟩ : ∃ c, C.reverse[k]? = some c :=
      ⟨_, List.getElem?_eq_getElem (by simpa using hk)⟩
    obtain ⟨e, hd⟩ : ∃ e, D.reverse[k]? = some e :=
      ⟨_, List.getElem?_eq_getElem (by simpa [← hlen] using hk)⟩
    have hk2 := h k
    unfold dimAt at hk2
    rw [hc, hd] at hk2
    rw [hc, hd]
    exact congrArg some hk2
  · rw [List.getElem?_eq_none (by simpa using hk),
      List.getElem?_eq_none (by simpa [← hlen] using hk)]

/-- The extent `broadcast_extents<A, B>` is `C` exactly when `C` has the larger
of the two ranks and, counted from the right, every pair of dimensions is
compatible and unifies to the dimension of `C`. -/
theorem Tensor.broadcast_extents_eq_some_iff (A B C : List Nat) :
    Tensor.broadcast_extents A B = some C ↔
      C.length = Max.max A.length B.length ∧
      ∀ k, dimCompatible (dimAt A k) (dimAt B k) ∧
        dimAt C k = dimUnified (dimAt A k) (dimAt B k) := by
  rw [Tensor.broadcast_extents_eq, Tensor.unify_extents_helper_eq_some]
  have hlA : (padLeft A B.length).length = Max.max A.length B.length := length_padLeft A B.length
  have hlB : (padLeft B A.length).length = Max.max A.length B.length := by
    rw [length_padLeft, Nat.max_comm]
  have hgetA : ∀ i, i < Max.max A.length B.length →
      (padLeft A B.length)[i]? = some (dimAt A (Max.max A.length B.length - 1 - i)) := by
    intro i hi
    rw [getElem?_eq_dimAt _ i (by rw [hlA]; exact hi), hlA, dimAt_padLeft]
  have hgetB : ∀ i, i < Max.max A.length B.length →
      (padLeft B A.length)[i]? = some (dimAt B (Max.max A.length B.length - 1 - i)) := by
    intro i hi
    rw [getElem?_eq_dimAt _ i (by rw [hlB]; exact hi), hlB, dimAt_padLeft]
  constructor
  · rintro ⟨-, h2, h3⟩
    rw [hlA] at h2
    refine ⟨h2, ?_⟩
    intro k
    by_cases hk : k < Max.max A.length B.length
    · have hi : Max.max A.length B.length - 1 - k < Max.max A.length B.length := by omega
      obtain ⟨hc, hu⟩ := h3 _ _ _ (hgetA _ hi) (hgetB _ hi)
      have hidx : Max.max A.length B.length - 1 - (Max.max A.length B.length - 1 - k) = k := by omega
      rw [hidx] at hc hu
      refine ⟨hc, ?_⟩
      rw [getElem?_eq_dimAt C _ (by rw [h2]; exact hi), h2, hidx] at hu
      exact Option.some.inj hu
    · have hA : dimAt A k = 1 := dimAt_of_le A k (by omega)
      have hB : dimAt B k = 1 := dimAt_of_le B k (by omega)
      have hC : dimAt C k = 1 := dimAt_of_le C k (by omega)
      rw [hA, hB, hC]
      exact ⟨Or.inl rfl, by simp [dimUnified]⟩
  · rintro ⟨hlen, hdim⟩
    refine ⟨by rw [hlA, hlB], by rw [hlA, hlen], ?_⟩
    intro i a b ha hb
    have hi : i < Max.max A.length B.length := by
      have := (List.getElem?_eq_some_iff.1 ha).1
      rwa [hlA] at this
    rw [hgetA i hi] at ha
    rw [hgetB i hi] at hb
    rw [← Option.some.inj ha, ← Option.some.inj hb]
    obtain ⟨hc, hu⟩ := hdim (Max.max A.length B.length - 1 - i)
    refine ⟨hc, ?_⟩
    rw [getElem?_eq_dimAt C i (by rw [hlen]; exact hi), hlen, hu]

theorem Tensor.broadcast_extents_defined (A B : List Nat)
    (h : ∀ k, dimCompatible (dimAt A k) (dimAt B k)) :
    ∃ C, Tensor.broadcast_extents A B = some C := by
  refine ⟨List.zipWith dimUnified (padLeft A B.length) (padLeft B A.length), ?_⟩
  rw [Tensor.broadcast_extents_eq]
  have hlA : (padLeft A B.length).length = Max.max A.length B.length := length_padLeft A B.length
  have hlB : (padLeft B A.length).length = Max.max A.length B.length := by
    rw [length_padLeft, Nat.max_comm]
  refine Tensor.unify_extents_helper_of_compat _ _ (by rw [hlA, hlB]) ?_
  intro i a b ha hb
  have hi : i < Max.max A.length B.length := by
    have := (List.getElem?_eq_some_iff.1 ha).1
    rwa [hlA] at this
  rw [getElem?_eq_dimAt _ i (by rw [hlA]; exact hi), hlA, dimAt_padLeft] at ha
  rw [getElem?_eq_dimAt _ i (by rw [hlB]; exact hi), hlB, dimAt_padLeft] at hb
  rw [← Option.some.inj ha, ← Option.some.inj hb]
  exact h _

theorem dimUnified_comm (a b : Nat) (h : dimCompatible a b) :
    dimCompatible b a ∧ dimUnified a b = dimUnified b a := by
  unfold dimCompatible dimUnified at *
  split_ifs <;> omega

theorem dimUnified_assoc (a b c : Nat) :
    ((dimCompatible b c ∧ dimCompatible a (dimUnified b c)) ↔
      (dimCompatible a b ∧ dimCompatible (dimUnified a b) c)) ∧
    (dimCompatible b c → dimCompatible a (dimUnified b c) →
      dimUnified a (dimUnified b c) = dimUnified (dimUnified a b) c) := by
  unfold dimCompatible dimUnified
  split_ifs <;> omega

theorem Tensor.broadcast_extents_comm (A B : List Nat) :
    Tensor.broadcast_extents A B = Tensor.broadcast_extents B A := by
  have key : ∀ A B C : List Nat, Tensor.broadcast_extents A B = some C →
      Tensor.broadcast_extents B A = some C := by
    intro A B C h
    rw [Tensor.broadcast_extents_eq_some_iff] at h ⊢
    refine ⟨by rw [h.1, Nat.max_comm], fun k => ?_⟩
    obtain ⟨hc, hu⟩ := h.2 k
    obtain ⟨hc2, hu2⟩ := dimUnified_comm _ _ hc
    exact ⟨hc2, by rw [hu, hu2]⟩
  cases h1 : Tensor.broadcast_extents A B with
  | some C => exact (key A B C h1).symm
  | none =>
    cases h2 : Tensor.broadcast_extents B A with
    | none => rfl
    | some C =>
      rw [key B A C h2] at h1
      exact absurd h1 (by simp)

theorem Tensor.broadcast_extents_right_eq_some_iff (A B C D : List Nat) :
    (Tensor.broadcast_extents B C).bind (Tensor.broadcast_extents A) = some D ↔
      D.length = Max.max A.length (Max.max B.length C.length) ∧
      ∀ k, (dimCompatible (dimAt B k) (dimAt C k) ∧
          dimCompatible (dimAt A k) (dimUnified (dimAt B k) (dimAt C k))) ∧
        dimAt D k = dimUnified (dimAt A k) (dimUnified (dimAt B k) (dimAt C k)) := by
  constructor
  · intro h
    obtain ⟨BC, hBC, hD⟩ := Option.bind_eq_some.1 h
    rw [Tensor.broadcast_extents_eq_some_iff] at hBC hD
    refine ⟨by rw [hD.1, hBC.1], fun k => ?_⟩
    obtain ⟨hc1, hu1⟩ := hBC.2 k
    obtain ⟨hc2, hu2⟩ := hD.2 k
    rw [hu1] at hc2 hu2
    exact ⟨⟨hc1, hc2⟩, hu2⟩
  · rintro ⟨hlen, hdim⟩
    obtain ⟨BC, hBC⟩ := Tensor.broadcast_extents_defined B C (fun k => (hdim k).1.1)
    rw [hBC, Option.some_bind]
    have hBC2 := (Tensor.broadcast_extents_eq_some_iff B C BC).1 hBC
    rw [Tensor.broadcast_extents_eq_some_iff]
    refine ⟨by rw [hlen, hBC2.1], fun k => ?_⟩
    rw [(hBC2.2 k).2]
    exact ⟨(hdim k).1.2, (hdim k).2⟩

theorem Tensor.broadcast_extents_left_eq_some_iff (A B C D : List Nat) :
    (Tensor.broadcast_extents A B).bind (fun AB => Tensor.broadcast_extents AB C) = some D ↔
      D.length = Max.max (Max.max A.length B.length) C.length ∧
      ∀ k, (dimCompatible (dimAt A k) (dimAt B k) ∧
          dimCompatible (dimUnified (dimAt A k) (dimAt B k)) (dimAt C k)) ∧
        dimAt D k = dimUnified (dimUnified (dimAt A k) (dimAt B k)) (dimAt C k) := by
  constructor
  · intro h
    obtain ⟨AB, hAB, hD⟩ := Option.bind_eq_some.1 h
    rw [Tensor.broadcast_extents_eq_some_iff] at hAB hD
    refine ⟨by rw [hD.1, hAB.1], fun k => ?_⟩
    obtain ⟨hc1, hu1⟩ := hAB.2 k
    obtain ⟨hc2, hu2⟩ := hD.2 k
    rw [hu1] at hc2 hu2
    exact ⟨⟨hc1, hc2⟩, hu2⟩
  · rintro ⟨hlen, hdim⟩
    obtain ⟨AB, hAB⟩ := Tensor.broadcast_extents_defined A B (fun k => (hdim k).1.1)
    rw [hAB, Option.some_bind]
    have hAB2 := (Tensor.broadcast_extents_eq_some_iff A B AB).1 hAB
    rw [Tensor.broadcast_extents_eq_some_iff]
    refine ⟨by rw [hlen, hAB2.1], fun k => ?_⟩
    rw [(hAB2.2 k).2]
    exact ⟨(hdim k).1.2, (hdim k).2⟩

theorem Tensor.broadcast_extents_assoc (A B C : List Nat) :
    (Tensor.broadcast_extents B C).bind (Tensor.broadcast_extents A) =
      (Tensor.broadcast_extents A B).bind (fun AB => Tensor.broadcast_extents AB C) := by
  apply Option.ext
  intro D
  rw [Option.mem_def, Option.mem_def, Tensor.broadcast_extents_right_eq_some_iff,
    Tensor.broadcast_extents_left_eq_some_iff]
  constructor
  · rintro ⟨hlen, hdim⟩
    refine ⟨by rw [hlen]; omega, fun k => ?_⟩
    obtain ⟨hc, hu⟩ := hdim k
    obtain ⟨hiff, heq⟩ := dimUnified_assoc (dimAt A k) (dimAt B k) (dimAt C k)
    exact ⟨hiff.1 hc, by rw [hu, heq hc.1 hc.2]⟩
  · rintro ⟨hlen, hdim⟩
    refine ⟨by rw [hlen]; omega, fun k => ?_⟩
    obtain ⟨hc, hu⟩ := hdim k
    obtain ⟨hiff, heq⟩ := dimUnified_assoc (dimAt A k) (dimAt B k) (dimAt C k)
    have hc2 := hiff.2 hc
    exact ⟨hc2, by rw [hu, heq hc2.1 hc2.2]⟩

theorem extentOf3_swap_last (A B C : List Nat) : extentOf3 A C B = extentOf3 A B C := by
  unfold extentOf3
  rw [Tensor.broadcast_extents_comm C B]

theorem extentOf3_swap_first (A B C : List Nat) : extentOf3 B A C = extentOf3 A B C := by
  unfold extentOf3
  rw [Tensor.broadcast_extents_assoc B A C, Tensor.broadcast_extents_comm B A,
    ← Tensor.broadcast_extents_assoc A B C]

/-- C32: for all extents `A`, `B`, `C` of any ranks, `unify(A, B)` and
`unify(B, A)` are both undefined or both defined and equal, and so are
`unify(A, unify(B, C))` and `unify(unify(A, B), C)`; hence the extent
`unify(first, unify(second, third))` of `where` and `fma` is the same, or
undefined alike, for all six orders of the operands. The one-dimensional
`broadcast_extent` of the single header is commutative as well. -/
theorem C32_unification_is_order_independent (A B C : List Nat) :
    Tensor.broadcast_extents A B = Tensor.broadcast_extents B A ∧
    (Tensor.broadcast_extents B C).bind (Tensor.broadcast_extents A) =
      (Tensor.broadcast_extents A B).bind (fun AB => Tensor.broadcast_extents AB C) ∧
    extentOf3 A B C = (Tensor.broadcast_extents B C).bind (Tensor.broadcast_extents A) ∧
    (extentOf3 A C B = extentOf3 A B C ∧ extentOf3 B A C = extentOf3 A B C ∧
      extentOf3 B C A = extentOf3 A B C ∧ extentOf3 C A B = extentOf3 A B C ∧
      extentOf3 C B A = extentOf3 A B C) ∧
    (∀ a b : Nat, Single.broadcast_extent a b = Single.broadcast_extent b a) := by
  refine ⟨Tensor.broadcast_extents_comm A B, Tensor.broadcast_extents_assoc A B C, rfl,
    ⟨extentOf3_swap_last A B C, extentOf3_swap_first A B C, ?_, ?_, ?_⟩, ?_⟩
  · rw [extentOf3_swap_last B A C, extentOf3_swap_first A B C]
  · rw [extentOf3_swap_first A C B, extentOf3_swap_last A B C]
  · rw [extentOf3_swap_last C A B, extentOf3_swap_first A C B, extentOf3_swap_last A B C]
  · intro a b
    apply Option.ext
    intro e
    rw [Option.mem_def, Option.mem_def, Single.broadcast_extent_eq_some,
      Single.broadcast_extent_eq_some]
    unfold dimCompatible dimUnified
    split_ifs <;> omega

end KernelFloat
